import Mathlib

/-!
# checkmate: blackjack rules engine

A shallow embedding of the Go packages `pkg/playdeck` (cards and decks) and
`pkg/blackjack` (hands, players, tables), followed by theorems about them.

Conventions of the embedding.

* A Go pointer is an `Option`: `none` is the nil pointer. Pointers to tables,
  decks and players are references (`Ref`) into a `Heap` of total stores, so
  two pointers may name the same object.
* A method with a pointer receiver `h *Hand` takes the hand and returns the
  updated hand (explicit state passing).
* A Go `error` result is an `Option Error`: `none` is the nil error.
* A result of type `Option (...)` around a whole outcome stands for a run-time
  panic (nil pointer dereference) when it is `none`.
* `rand.Intn(n)` is an arbitrary value below `n`: the caller passes a number
  `rnd` and the draw is `rnd % n`.
* The operations on the data are run to completion on their own, without the
  mutexes (sequential semantics). The mutexes are modelled apart, in the
  section on locks: there an operation is the sequence of lock and unlock
  calls that it makes.
* The hands of a player are kept by value in `Player.Hands`: every hand is an
  object of its own, owned by one player (`Player.newHand` allocates a fresh
  one each time). The player list of a table holds references, never nil.
* An allocation takes the fresh address as an argument (`newDeck` in
  `Table.Deal`).
* `uint8` and `uint` fields are `Nat` (no arithmetic is done on them); the
  `int` scores are `Int`: a score is at most eleven times the number of cards
  in the hand, far below the 64-bit range for any slice that fits in memory.
-/

/-! ## Package playdeck -/

namespace playdeck

/-- Card identity, `card.go`: `Suit CardSuit` and `Value CardValue`, both `uint8`. -/
structure Card where
  Suit : Nat
  Value : Nat
deriving DecidableEq, Repr

def ValueJoker : Nat := 0
def ValueAce : Nat := 1
def ValueTwo : Nat := 2
def ValueThree : Nat := 3
def ValueFour : Nat := 4
def ValueFive : Nat := 5
def ValueSix : Nat := 6
def ValueSeven : Nat := 7
def ValueEight : Nat := 8
def ValueNine : Nat := 9
def ValueTen : Nat := 10
def ValueJack : Nat := 11
def ValueQueen : Nat := 12
def ValueKing : Nat := 13

def SuitJoker : Nat := 0
def SuitClub : Nat := 1
def SuitDiamond : Nat := 2
def SuitHeart : Nat := 3
def SuitSpade : Nat := 4

/-- Source `func (c *Card) Valid()`: `c.Value <= 13 && c.Suit <= 4`. -/
def Card.Valid (c : Card) : Bool :=
  decide (c.Value ≤ 13) && decide (c.Suit ≤ 4)

/-- Errors of both packages (`playdeck/errors.go`, `blackjack/errors.go`). -/
inductive Error where
  | ErrDeckEmpty
  | ErrDeckUninitialized
  | ErrHandNoPlayer
  | ErrHandLocked
  | ErrHandNotLocked
  | ErrHandInvalid
  | ErrHandBust
  | ErrInvalidCard
  | ErrPlayerNoTable
  | ErrPlayerInvalid
  | ErrTableInPlay
  | ErrTableNotInPlay
  | ErrTablePlayerAlreadyJoined
deriving DecidableEq, Repr

/-- Deck of `deck.go`: `Cards *[]Card`, `none` when the pointer is nil. Every
deck owns its backing slice (the constructor allocates a fresh one). -/
structure Deck where
  Cards : Option (List Card)
deriving DecidableEq, Repr

/-- Source `func (d *Deck) PullRandomCard()`. Returns the updated deck, the card
(the zero card on failure) and the error. `rnd % n` stands for `rand.Intn(n)`. -/
def Deck.PullRandomCard (d : Deck) (rnd : Nat) : Deck × Card × Option Error :=
  match d.Cards with
  | none => (d, { Suit := 0, Value := 0 }, some Error.ErrDeckUninitialized)
  | some cs =>
    if cs.length = 0 then (d, { Suit := 0, Value := 0 }, some Error.ErrDeckEmpty)
    else
      let indexToPull := rnd % cs.length
      let card := cs.getD indexToPull { Suit := 0, Value := 0 }
      ({ Cards := some (cs.take indexToPull ++ cs.drop (indexToPull + 1)) }, card, none)

/-- One pass of the outer loop of `NewDeckOfDecks`: for each suit 1 to 4 and each
value 1 to 13 a card, then the joker when requested. -/
def NewDeckOfDecks.pack (joker : Bool) : List Card :=
  (List.range' 1 4).flatMap
      (fun s => (List.range' 1 13).map (fun v => ({ Suit := s, Value := v } : Card)))
    ++ (if joker then [{ Suit := 0, Value := 0 }] else [])

/-- Source `func NewDeckOfDecks(count int, joker bool)`: the loop body runs
`count` times (not at all for a count of 0 or less). -/
def NewDeckOfDecks (count : Int) (joker : Bool) : Deck :=
  { Cards := some ((List.replicate count.toNat (NewDeckOfDecks.pack joker)).flatten) }

/-- Source `func NewDeck(joker bool)`. -/
def NewDeck (joker : Bool) : Deck :=
  NewDeckOfDecks 1 joker

/-- Source `func (d *Deck) PullCard()`: the card at position 0, the rest kept in
order (`append((*d.Cards)[:0], (*d.Cards)[1:]...)`). -/
def Deck.PullCard (d : Deck) : Deck × Card × Option Error :=
  match d.Cards with
  | none => (d, { Suit := 0, Value := 0 }, some Error.ErrDeckUninitialized)
  | some cs =>
    if cs.length = 0 then (d, { Suit := 0, Value := 0 }, some Error.ErrDeckEmpty)
    else
      let card := cs.getD 0 { Suit := 0, Value := 0 }
      ({ Cards := some (cs.take 0 ++ cs.drop 1) }, card, none)

/-- Source `func (d *Deck) PushCard(card Card)`. -/
def Deck.PushCard (d : Deck) (card : Card) : Deck × Option Error :=
  match d.Cards with
  | none => (d, some Error.ErrDeckUninitialized)
  | some cs => ({ Cards := some (cs ++ [card]) }, none)

/-- The closure that `Shuffle` hands to `rand.Shuffle`:
`(*d.Cards)[i], (*d.Cards)[j] = (*d.Cards)[j], (*d.Cards)[i]`. An index outside
the slice is a run-time panic (`none`). -/
def Shuffle.swap (cs : List Card) (i j : Nat) : Option (List Card) :=
  if i < cs.length ∧ j < cs.length then
    some ((cs.set i (cs.getD j { Suit := 0, Value := 0 })).set j
      (cs.getD i { Suit := 0, Value := 0 }))
  else none

/-- The calls that the library routine `rand.Shuffle` makes to the closure, in order. -/
def Shuffle.swaps : List (Nat × Nat) → List Card → Option (List Card)
  | [], cs => some cs
  | (i, j) :: rest, cs =>
    match Shuffle.swap cs i j with
    | none => none
    | some cs1 => Shuffle.swaps rest cs1

/-- Source `func (d *Deck) Shuffle()`. The library routine `rand.Shuffle(n, swap)`
is outside the repository: `calls` is the sequence of index pairs it passes to
the closure (by its contract all below `n`). `none` is a panic. -/
def Deck.Shuffle (d : Deck) (calls : List (Nat × Nat)) : Option (Deck × Option Error) :=
  match d.Cards with
  | none => some (d, some Error.ErrDeckUninitialized)
  | some cs =>
    if cs.length = 0 then some (d, some Error.ErrDeckEmpty)
    else
      match Shuffle.swaps calls cs with
      | none => none
      | some cs1 => some ({ Cards := some cs1 }, none)

end playdeck

/-! ## Package blackjack -/

namespace blackjack

open playdeck

/-- Reference to a heap object (a non-nil Go pointer). -/
abbrev Ref := Nat

/-- Hand of `hand.go`. `Table` and `Player` are pointers. -/
structure Hand where
  Cards : List Card
  Table : Option Ref
  Player : Option Ref
  score : Int
  minScore : Int
  locked : Bool
  valid : Bool
deriving DecidableEq, Repr

/-- Player of `player.go`: a table pointer and the hands. -/
structure Player where
  Table : Option Ref
  Hands : List Hand
deriving DecidableEq, Repr

/-- Table of `table.go`: deck pointer, pack count, player pointers, play state. -/
structure Table where
  Deck : Option Ref
  sDecks : Int
  Players : List Ref
  playState : Nat
deriving DecidableEq, Repr

/-- The objects that pointers refer to. -/
structure Heap where
  decks : Ref → Deck
  tables : Ref → Table
  players : Ref → Player

/-- Source `func (h *Hand) Score()`: a read-only snapshot. -/
def Hand.Score (h : Hand) : Int × Int × Bool × Bool :=
  (h.score, h.minScore, h.locked, h.valid)

/-- First loop of `EvalScore` (hand.go 159-181) over the remaining cards with the
running `h.score`. The flag is `true` when the loop returned `ErrInvalidCard`;
the score is then what had been added up to that point. -/
def EvalScore.simpleCards : List Card → Int → Int × Bool
  | [], score => (score, false)
  | c :: cs, score =>
    if c.Value == ValueJoker || !c.Valid then (score, true)
    else if c.Value == 1 then EvalScore.simpleCards cs score
    else
      let score := if c.Value ≥ 2 && c.Value ≤ 10 then score + (c.Value : Int) else score
      let score := if c.Value ≥ 11 && c.Value ≤ 13 then score + 10 else score
      EvalScore.simpleCards cs score

/-- Second loop of `EvalScore` (hand.go 187-201): the aces, with the running
`(h.score, h.minScore)`. -/
def EvalScore.aces : List Card → Int × Int → Int × Int
  | [], s => s
  | c :: cs, (score, minScore) =>
    if c.Value == 1 then
      let minScore := minScore + 1
      let score := if score ≤ 10 then score + 11 else score + 1
      EvalScore.aces cs (score, minScore)
    else EvalScore.aces cs (score, minScore)

/-- Source `func (h *Hand) EvalScore()`. -/
def Hand.EvalScore (h : Hand) : Hand × Option Error :=
  let h := { h with score := 0, minScore := 0 }
  if h.Cards.length < 2 then (h, some Error.ErrHandInvalid)
  else
    match EvalScore.simpleCards h.Cards h.score with
    | (score, true) => ({ h with score := score }, some Error.ErrInvalidCard)
    | (score, false) =>
      let h := { h with score := score, minScore := score }
      let (score, minScore) := EvalScore.aces h.Cards (h.score, h.minScore)
      let h := { h with score := score, minScore := minScore }
      if h.score > 21 then ({ h with valid := false, locked := true }, none)
      else (h, none)

/-- Source `func (h *Hand) canPlay()`: the error, or `none` when play may go on. -/
def Hand.canPlay (σ : Heap) (h : Hand) : Option Error :=
  match h.Table with
  | none => some Error.ErrHandInvalid
  | some t =>
    match (σ.tables t).Deck with
    | none => some Error.ErrHandInvalid
    | some _ =>
      if !h.valid then some Error.ErrHandBust
      else if h.locked then some Error.ErrHandLocked
      else
        match h.Player with
        | none => some Error.ErrHandNoPlayer
        | some p =>
          match (σ.players p).Table with
          | none => some Error.ErrPlayerNoTable
          | some pt =>
            if (σ.tables pt).playState != 1 then some Error.ErrTableNotInPlay
            else none

/-- Source `func (h *Hand) addCard()`: `h.Table.Deck.PullRandomCard()` then
`append`. The outer `none` is the panic of dereferencing a nil `h.Table` or a
nil `h.Table.Deck`. -/
def Hand.addCard (σ : Heap) (h : Hand) (rnd : Nat) : Option (Heap × Hand × Option Error) :=
  match h.Table with
  | none => none
  | some t =>
    match (σ.tables t).Deck with
    | none => none
    | some d =>
      match (σ.decks d).PullRandomCard rnd with
      | (deck, _, some err) => some ({ σ with decks := Function.update σ.decks d deck }, h, some err)
      | (deck, newCard, none) =>
        some ({ σ with decks := Function.update σ.decks d deck },
              { h with Cards := h.Cards ++ [newCard] }, none)

/-- Source `func (h *Hand) lockHand()`. -/
def Hand.lockHand (h : Hand) : Hand × Option Error :=
  if h.locked then (h, some Error.ErrHandLocked)
  else ({ h with locked := true }, none)

/-- Source `func (h *Hand) Hit()`. -/
def Hand.Hit (σ : Heap) (h : Hand) (rnd : Nat) : Option (Heap × Hand × Option Error) :=
  match h.canPlay σ with
  | some err => some (σ, h, some err)
  | none =>
    match h.addCard σ rnd with
    | none => none
    | some (σ, h, some err) => some (σ, h, some err)
    | some (σ, h, none) =>
      let (h, err) := h.EvalScore
      some (σ, h, err)

/-- Source `func (h *Hand) Stick()`. -/
def Hand.Stick (h : Hand) : Hand × Option Error :=
  match h.lockHand with
  | (h, some err) => (h, some err)
  | (h, none) => h.EvalScore

/-- The four public operations on a hand; `Hit` carries the random draw. -/
inductive Op where
  | Hit (rnd : Nat)
  | Stick
  | EvalScore
  | Score
deriving DecidableEq, Repr

/-- One operation on a hand in a heap; its error result is dropped, the state
it leaves is kept. `none` is a panic. -/
def Op.apply (op : Op) (s : Heap × Hand) : Option (Heap × Hand) :=
  match op with
  | Op.Hit rnd => (s.2.Hit s.1 rnd).map (fun r => (r.1, r.2.1))
  | Op.Stick => some (s.1, s.2.Stick.1)
  | Op.EvalScore => some (s.1, s.2.EvalScore.1)
  | Op.Score => some s

/-- A sequence of operations, left to right, stopping at a panic. -/
def runOps : List Op → Heap × Hand → Option (Heap × Hand)
  | [], s => some s
  | op :: ops, s =>
    match op.apply s with
    | none => none
    | some s1 => runOps ops s1

/-- Source `func NewTable(decks int)`: `newTable` and `newDeck` are the addresses
of the table and of the deck that are allocated. -/
def NewTable (σ : Heap) (newTable newDeck : Ref) (decks : Int) : Heap :=
  { σ with
      decks := Function.update σ.decks newDeck (NewDeckOfDecks decks false),
      tables := Function.update σ.tables newTable
        { Deck := some newDeck, sDecks := decks, Players := [], playState := 0 } }

/-- Source `func NewPlayer()`: `new(Player)` at the address `newPlayer`. -/
def NewPlayer (σ : Heap) (newPlayer : Ref) : Heap :=
  { σ with players := Function.update σ.players newPlayer { Table := none, Hands := [] } }

/-- The zero value `Hand{}`. -/
def Hand.zero : Hand :=
  { Cards := [], Table := none, Player := none, score := 0, minScore := 0,
    locked := false, valid := false }

/-- Source `func newHand(player *Player)`. -/
def newHand (σ : Heap) (player : Option Ref) : Hand × Option Error :=
  match player with
  | none => (Hand.zero, some Error.ErrPlayerInvalid)
  | some p =>
    match (σ.players p).Table with
    | none => (Hand.zero, some Error.ErrPlayerNoTable)
    | some t => ({ Hand.zero with Table := some t, Player := some p, valid := true }, none)

/-- Source `func (p *Player) clearHands()`. The hands of a player are objects of
their own, owned by that player alone, so taking their locks goes through. -/
def Player.clearHands (σ : Heap) (p : Ref) : Heap :=
  { σ with players := Function.update σ.players p { σ.players p with Hands := [] } }

/-- Source `func (p *Player) newHand()`: the hand is appended to `p.Hands`
whether or not `newHand` failed. Returns the heap, the hand and the error. -/
def Player.newHand (σ : Heap) (p : Ref) : Heap × Hand × Option Error :=
  match blackjack.newHand σ (some p) with
  | (h, err) =>
    ({ σ with
        players := Function.update σ.players p
          { σ.players p with Hands := (σ.players p).Hands ++ [h] } }, h, err)

/-- A write through the pointer that `Player.newHand` returned: that hand is the
last entry of `p.Hands`. -/
def Player.setNewestHand (σ : Heap) (p : Ref) (h : Hand) : Heap :=
  { σ with
      players := Function.update σ.players p
        { σ.players p with Hands := (σ.players p).Hands.dropLast ++ [h] } }

/-- Source `if e != nil { err = append(err, e) }`. -/
def appendErr (err : List Error) (e : Option Error) : List Error :=
  match e with
  | some e => err ++ [e]
  | none => err

/-- Source `func (t *Table) Join(p *Player)`, for a non-nil player. -/
def Table.Join (σ : Heap) (t : Ref) (p : Ref) : Heap × Option Error :=
  if (σ.tables t).playState != 0 then (σ, some Error.ErrTableInPlay)
  else if (σ.tables t).Players.any (fun tp => p == tp) then
    (σ, some Error.ErrTablePlayerAlreadyJoined)
  else
    ({ σ with
        tables := Function.update σ.tables t
          { σ.tables t with Players := (σ.tables t).Players ++ [p] },
        players := Function.update σ.players p { σ.players p with Table := some t } }, none)

/-- Source `func (t *Table) Reset()`. -/
def Table.Reset (σ : Heap) (t : Ref) : Heap × Option Error :=
  if !((σ.tables t).playState == 3 || (σ.tables t).playState == 0) then
    (σ, some Error.ErrTableInPlay)
  else
    let σ := (σ.tables t).Players.foldl (fun σ p => Player.clearHands σ p) σ
    ({ σ with tables := Function.update σ.tables t { σ.tables t with playState := 0 } }, none)

/-- Body of the player loop of `Deal` (table.go 111-126) for one player, with the
two random draws and the errors collected so far. `none` is a panic. -/
def Deal.player (σ : Heap) (p : Ref) (r0 r1 : Nat) (err : List Error) :
    Option (Heap × List Error) :=
  match Player.newHand σ p with
  | (σ, _, some e) => some (σ, err ++ [e])
  | (σ, h, none) =>
    match h.addCard σ r0 with
    | none => none
    | some (σ, h, e0) =>
      let err := appendErr err e0
      match h.addCard σ r1 with
      | none => none
      | some (σ, h, e1) =>
        let err := appendErr err e1
        match h.EvalScore with
        | (h, e) => some (Player.setNewestHand σ p h, appendErr err e)

/-- Player loop of `Deal`: player number `i` (from 0) uses the random numbers
`rnd (2 * i)` and `rnd (2 * i + 1)` for its two draws. -/
def Deal.players : List Ref → Nat → (Nat → Nat) → Heap → List Error →
    Option (Heap × List Error)
  | [], _, _, σ, err => some (σ, err)
  | p :: ps, i, rnd, σ, err =>
    match Deal.player σ p (rnd (2 * i)) (rnd (2 * i + 1)) err with
    | none => none
    | some (σ, err) => Deal.players ps (i + 1) rnd σ err

/-- Source `func (t *Table) Deal()`. `newDeck` is the address of the deck that
`NewDeckOfDecks` allocates; `rnd` gives the random numbers; `none` is a panic. -/
def Table.Deal (σ : Heap) (t : Ref) (newDeck : Ref) (rnd : Nat → Nat) :
    Option (Heap × List Error) :=
  match Table.Reset σ t with
  | (σ, some e) => some (σ, [e])
  | (σ, none) =>
    let σ : Heap :=
      { σ with
          decks := Function.update σ.decks newDeck (NewDeckOfDecks (σ.tables t).sDecks false),
          tables := Function.update σ.tables t { σ.tables t with Deck := some newDeck } }
    match Deal.players (σ.tables t).Players 0 rnd σ [] with
    | none => none
    | some (σ, err) =>
      some ({ σ with tables := Function.update σ.tables t { σ.tables t with playState := 1 } },
        err)

/-- Source `func (t *Table) EndRound()`. The two nested loops only look for a
hand that is not locked. -/
def Table.EndRound (σ : Heap) (t : Ref) : Heap × Option Error :=
  if (σ.tables t).playState != 1 then (σ, some Error.ErrTableNotInPlay)
  else if (σ.tables t).Players.any
      (fun p => (σ.players p).Hands.any (fun h => !h.locked)) then
    (σ, some Error.ErrHandNotLocked)
  else
    ({ σ with tables := Function.update σ.tables t { σ.tables t with playState := 3 } }, none)

end blackjack

/-! ## Locks

Every `Deck` and `Table` embeds a `sync.Mutex`, every `Player` and `Hand` a
`sync.RWMutex`. Here an operation is the sequence of `Lock`, `Unlock`, `RLock`
and `RUnlock` calls that it makes on a path on which it returns, in program
order; a deferred unlock is made when the function returns, the last deferred
first. The arguments name the objects involved and the path taken. -/

namespace blackjack

/-- The mutex embedded in an object. A hand is an object of its own (a
`*Hand` in `Player.Hands`) and is named by a number. -/
inductive Mutex where
  | deck (d : Ref)
  | table (t : Ref)
  | player (p : Ref)
  | hand (h : Nat)
deriving DecidableEq, Repr

/-- A call on a mutex. -/
inductive LockCall where
  | Lock (m : Mutex)
  | Unlock (m : Mutex)
  | RLock (m : Mutex)
  | RUnlock (m : Mutex)
deriving DecidableEq, Repr

/-- The mutexes that are held: those locked for writing, and those locked for
reading (once for every reader). -/
structure LockState where
  writers : List Mutex
  readers : List Mutex
deriving DecidableEq, Repr

/-- No mutex is held. -/
def LockState.free : LockState :=
  { writers := [], readers := [] }

/-- One call on a mutex, made by the only thread of control. `none`: the call
does not return. A `Lock` waits while the mutex is held in any way and an
`RLock` while it is held for writing, and nobody else is there to release it;
an unlock of a mutex that is not held is a fatal error of the Go runtime. -/
def LockState.call (L : LockState) : LockCall → Option LockState
  | LockCall.Lock m =>
    if m ∈ L.writers ∨ m ∈ L.readers then none
    else some { L with writers := m :: L.writers }
  | LockCall.Unlock m =>
    if m ∈ L.writers then some { L with writers := L.writers.erase m } else none
  | LockCall.RLock m =>
    if m ∈ L.writers then none else some { L with readers := m :: L.readers }
  | LockCall.RUnlock m =>
    if m ∈ L.readers then some { L with readers := L.readers.erase m } else none

/-- A sequence of calls, left to right. -/
def runLocks : List LockCall → LockState → Option LockState
  | [], L => some L
  | c :: rest, L =>
    match L.call c with
    | none => none
    | some L1 => runLocks rest L1

/-- What a table operation meets at one entry of `t.Players`: the player, the
hands in `p.Hands` when `Reset` comes by, the hand that `Deal` allocates for
the player, whether `newHand` succeeds (the player has a table), and the deck
of the table of that hand. -/
structure Seat where
  player : Ref
  hands : List Nat
  newHand : Nat
  seated : Bool
  deck : Ref
deriving DecidableEq, Repr

namespace locks

/-- Source `PullRandomCard` (deck.go 51-52): `d.Lock(); defer d.Unlock()`. -/
def PullRandomCard (d : Ref) : List LockCall :=
  [LockCall.Lock (Mutex.deck d), LockCall.Unlock (Mutex.deck d)]

/-- Source `PullCard` (deck.go 77-78): `d.Lock(); defer d.Unlock()`. -/
def PullCard (d : Ref) : List LockCall :=
  [LockCall.Lock (Mutex.deck d), LockCall.Unlock (Mutex.deck d)]

/-- Source `PushCard` (deck.go 99-100): `d.Lock(); defer d.Unlock()`. -/
def PushCard (d : Ref) : List LockCall :=
  [LockCall.Lock (Mutex.deck d), LockCall.Unlock (Mutex.deck d)]

/-- Source `Shuffle` (deck.go 117-118): `d.Lock(); defer d.Unlock()`. -/
def Shuffle (d : Ref) : List LockCall :=
  [LockCall.Lock (Mutex.deck d), LockCall.Unlock (Mutex.deck d)]

/-- Source `Score` (hand.go 57-58): `h.RLock(); defer h.RUnlock()`. -/
def Score (h : Nat) : List LockCall :=
  [LockCall.RLock (Mutex.hand h), LockCall.RUnlock (Mutex.hand h)]

/-- Source `canPlay` (hand.go 88-105): `h.RLock(); defer h.RUnlock()`, and on
the paths that get as far as line 104, with `h.Player` the player `p`,
`h.Player.RLock(); defer h.Player.RUnlock()`. The argument is `none` on the
paths that return before line 104. -/
def canPlay (h : Nat) (player : Option Ref) : List LockCall :=
  [LockCall.RLock (Mutex.hand h)] ++
    (match player with
     | none => []
     | some p => [LockCall.RLock (Mutex.player p), LockCall.RUnlock (Mutex.player p)]) ++
    [LockCall.RUnlock (Mutex.hand h)]

/-- Source `addCard` (hand.go 118-121): `h.Lock(); defer h.Unlock()` around the
call `h.Table.Deck.PullRandomCard()`. -/
def addCard (h : Nat) (d : Ref) : List LockCall :=
  [LockCall.Lock (Mutex.hand h)] ++ PullRandomCard d ++ [LockCall.Unlock (Mutex.hand h)]

/-- Source `lockHand` (hand.go 132-133): `h.Lock(); defer h.Unlock()`. -/
def lockHand (h : Nat) : List LockCall :=
  [LockCall.Lock (Mutex.hand h), LockCall.Unlock (Mutex.hand h)]

/-- Source `EvalScore` (hand.go 146-147): `h.Lock(); defer h.Unlock()`. -/
def EvalScore (h : Nat) : List LockCall :=
  [LockCall.Lock (Mutex.hand h), LockCall.Unlock (Mutex.hand h)]

/-- Source `Hit` (hand.go 63-75): `canPlay`, then unless it failed `addCard`,
then unless that failed `EvalScore`. `played`: `canPlay` returned nil;
`drawn`: `addCard` returned nil. -/
def Hit (h : Nat) (player : Option Ref) (d : Ref) (played drawn : Bool) : List LockCall :=
  canPlay h player ++
    (if played then addCard h d ++ (if drawn then EvalScore h else []) else [])

/-- Source `Stick` (hand.go 78-84): `lockHand`, then unless it failed
`EvalScore`. `wasLocked`: `lockHand` returned `ErrHandLocked`. -/
def Stick (h : Nat) (wasLocked : Bool) : List LockCall :=
  lockHand h ++ (if wasLocked then [] else EvalScore h)

/-- Source `Player.newHand` (player.go 38-39): `p.Lock(); defer p.Unlock()`; the
function `newHand` that it calls takes no lock. -/
def newHand (p : Ref) : List LockCall :=
  [LockCall.Lock (Mutex.player p), LockCall.Unlock (Mutex.player p)]

/-- Source `clearHands` (player.go 25-30): `p.Lock(); defer p.Unlock()`, and in
between `h.Lock()` for every hand in `p.Hands`, which is never unlocked ("no
need to worry about releasing, we'll be destroying it shortly"). -/
def clearHands (p : Ref) (hands : List Nat) : List LockCall :=
  [LockCall.Lock (Mutex.player p)] ++
    hands.map (fun h => LockCall.Lock (Mutex.hand h)) ++
    [LockCall.Unlock (Mutex.player p)]

/-- Source `Join` (table.go 36-41): `t.Lock(); defer t.Unlock(); p.Lock();
defer p.Unlock()`. -/
def Join (t p : Ref) : List LockCall :=
  [LockCall.Lock (Mutex.table t), LockCall.Lock (Mutex.player p),
    LockCall.Unlock (Mutex.player p), LockCall.Unlock (Mutex.table t)]

/-- Source `Reset` (table.go 63-76): `t.Lock(); defer t.Unlock()`, and unless
the table is in play `p.clearHands()` for every player of the table. -/
def Reset (t : Ref) (inPlay : Bool) (seats : List Seat) : List LockCall :=
  [LockCall.Lock (Mutex.table t)] ++
    (if inPlay then [] else seats.flatMap (fun s => clearHands s.player s.hands)) ++
    [LockCall.Unlock (Mutex.table t)]

/-- Body of the player loop of `Deal` (table.go 109-127): `p.newHand()`, and
unless that failed two times `h.addCard()` and then `h.EvalScore()` on the new
hand (an error of `addCard` only continues the inner loop). -/
def Deal.seat (s : Seat) : List LockCall :=
  newHand s.player ++
    (if s.seated then
      addCard s.newHand s.deck ++ addCard s.newHand s.deck ++ EvalScore s.newHand
    else [])

/-- Source `Deal` (table.go 84-130): `t.Reset()`, and unless that failed
`t.Lock(); defer t.Unlock()` around the player loop. -/
def Deal (t : Ref) (inPlay : Bool) (seats : List Seat) : List LockCall :=
  Reset t inPlay seats ++
    (if inPlay then []
     else [LockCall.Lock (Mutex.table t)] ++ seats.flatMap Deal.seat ++
       [LockCall.Unlock (Mutex.table t)])

/-- Source `EndRound` (table.go 134-135): `t.Lock(); defer t.Unlock()`; the
hands are read without their locks. -/
def EndRound (t : Ref) : List LockCall :=
  [LockCall.Lock (Mutex.table t), LockCall.Unlock (Mutex.table t)]

end locks

end blackjack

/-! ## Specification-side definitions

These follow the wording of the specification, not the code, and are what the
code is compared with. -/

namespace blackjack

open playdeck

/-- Hard value of a card, in the words of the specification: 1 for an ace, the
face value for ranks 2 to 10, and 10 for jack, queen and king. -/
def hardValue (c : Card) : Int :=
  if c.Value = 1 then 1
  else if 2 ≤ c.Value ∧ c.Value ≤ 10 then (c.Value : Int)
  else if 11 ≤ c.Value ∧ c.Value ≤ 13 then 10
  else 0

/-- Worst (hard) total of the specification: every ace counted as 1. -/
def worstTotal (cards : List Card) : Int :=
  (cards.map hardValue).sum

/-- Number of aces among the cards. -/
def aceCount (cards : List Card) : Nat :=
  cards.countP (fun c => c.Value = 1)

/-- Total of the hand when `soft` of its aces are counted as 11 and the other
aces as 1. -/
def totalWithSoft (cards : List Card) (soft : Nat) : Int :=
  worstTotal cards + 10 * (soft : Int)

/-- Totals obtainable by counting each ace as either 1 or 11 that do not
exceed 21. -/
def totalsUpTo21 (cards : List Card) : List Int :=
  ((List.range (aceCount cards + 1)).map (totalWithSoft cards)).filter (fun t => t ≤ 21)

/-- Best-achievable score of the specification: the largest obtainable total
that does not exceed 21, when there is one. -/
def bestTotal (cards : List Card) : Option Int :=
  (totalsUpTo21 cards).max?

/-- A card that may be scored: not a joker and passing `Card.Valid`. -/
def scorable (c : Card) : Prop :=
  c.Value ≠ ValueJoker ∧ c.Valid = true

instance (c : Card) : Decidable (scorable c) := by
  unfold scorable; infer_instance

/-- Sum of the hard values of the non-ace cards that come before the first card
that cannot be scored (a joker or a card failing `Card.Valid`). -/
def scoredBeforeFirstBadCard (cards : List Card) : Int :=
  worstTotal ((cards.takeWhile (fun c => decide (scorable c))).filter (fun c => c.Value ≠ 1))

/-- The errors of one player in a `Deal`, in the words of the specification:
exactly `ErrPlayerNoTable` for a player with no table reference; for a seated
player one error per failed draw of the two attempted (so the draw errors and
the cards of the new hand number 2 together), followed by the scoring error if
`EvalScore` fails on the new hand. `σ` is the heap before, `σ1` the heap after. -/
def ownDealErrors (σ σ1 : Heap) (p : Ref) (seg : List Error) : Prop :=
  ((σ.players p).Table = none →
    seg = [Error.ErrPlayerNoTable] ∧ Hand.zero ∈ (σ1.players p).Hands) ∧
  ((σ.players p).Table ≠ none →
    ∃ draws h, h ∈ (σ1.players p).Hands ∧ h.Player = some p ∧
      seg = draws ++ h.EvalScore.2.toList ∧
      draws.length + h.Cards.length = 2 ∧
      ∀ e ∈ draws, e = Error.ErrDeckEmpty ∨ e = Error.ErrDeckUninitialized)

/-- The heap at the start of the player loop of `Deal`, after a successful
`Reset` and the replacement of the deck: the players of the table hold no hands,
the play state is 0, and the table points to a new deck of `sDecks` packs
without jokers stored at `newDeck`. -/
def dealStart (σ : Heap) (t newDeck : Ref) : Heap :=
  { decks := Function.update σ.decks newDeck (NewDeckOfDecks (σ.tables t).sDecks false),
    tables := Function.update σ.tables t
      { σ.tables t with playState := 0, Deck := some newDeck },
    players := fun q =>
      if q ∈ (σ.tables t).Players then { σ.players q with Hands := [] } else σ.players q }

/-- One of the 52 cards of a pack: suit in club to spade, rank in ace to king. -/
def standardCard (c : Card) : Prop :=
  1 ≤ c.Suit ∧ c.Suit ≤ 4 ∧ 1 ≤ c.Value ∧ c.Value ≤ 13

instance (c : Card) : Decidable (standardCard c) := by
  unfold standardCard; infer_instance

/-- The joker card: suit 0 and rank 0. -/
def jokerCard : Card :=
  { Suit := SuitJoker, Value := ValueJoker }

/-- Non-ace sum S of the specification: the hard values of the cards that are
not aces, added up. -/
def nonAceSum (cards : List Card) : Int :=
  worstTotal (cards.filter (fun c => c.Value ≠ 1))

/-- A heap of zero objects only: no table has a deck or a player, no player has a
table or a hand, no deck has backing storage. -/
def emptyHeap : Heap :=
  { decks := fun _ => { Cards := none },
    tables := fun _ => { Deck := none, sDecks := 0, Players := [], playState := 0 },
    players := fun _ => { Table := none, Hands := [] } }

/-- A sequence of `Join` calls, each given as (table, player), run left to right;
the errors are dropped, the state each call leaves is kept. -/
def runJoins : List (Ref × Ref) → Heap → Heap
  | [], σ => σ
  | (t, p) :: rest, σ => runJoins rest (Table.Join σ t p).1

/-- A call of `Hit` (with its random number) or of `Stick` on hand number `i` of
player `p`, made through the pointer `p.Hands[i]`. -/
inductive HandCall where
  | Hit (p : Ref) (i : Nat) (rnd : Nat)
  | Stick (p : Ref) (i : Nat)
deriving DecidableEq, Repr

/-- The player whose hand a call is made on. -/
def HandCall.player : HandCall → Ref
  | HandCall.Hit p _ _ => p
  | HandCall.Stick p _ => p

/-- A write through the pointer `p.Hands[i]`. -/
def Player.storeHand (σ : Heap) (p : Ref) (i : Nat) (h : Hand) : Heap :=
  { σ with
      players := Function.update σ.players p
        { σ.players p with Hands := (σ.players p).Hands.set i h } }

/-- One call on a hand held in the heap; the error is dropped, a call on a hand
that does not exist changes nothing, `none` is a panic. -/
def HandCall.apply (c : HandCall) (σ : Heap) : Option Heap :=
  match c with
  | HandCall.Hit p i rnd =>
    match (σ.players p).Hands[i]? with
    | none => some σ
    | some h =>
      match h.Hit σ rnd with
      | none => none
      | some (σ1, h1, _) => some (Player.storeHand σ1 p i h1)
  | HandCall.Stick p i =>
    match (σ.players p).Hands[i]? with
    | none => some σ
    | some h => some (Player.storeHand σ p i h.Stick.1)

/-- A sequence of calls on hands, left to right, stopping at a panic. -/
def runHandCalls : List HandCall → Heap → Option Heap
  | [], σ => some σ
  | c :: rest, σ =>
    match c.apply σ with
    | none => none
    | some σ1 => runHandCalls rest σ1

/-- The cards in all the hands of one player. -/
def playerCards (σ : Heap) (p : Ref) : List Card :=
  (σ.players p).Hands.flatMap (fun h => h.Cards)

/-- The cards left in the deck of a table (none when there is no deck or no
backing storage). -/
def deckCards (σ : Heap) (t : Ref) : List Card :=
  match (σ.tables t).Deck with
  | none => []
  | some d => ((σ.decks d).Cards).getD []

/-- The cards held in the hands of all the players of a table (each listed
player once), together with the cards left in the deck of the table. -/
def tableCards (σ : Heap) (t : Ref) : List Card :=
  (σ.tables t).Players.dedup.flatMap (playerCards σ) ++ deckCards σ t

/-- The state of a table in which no card has been lost or doubled: the players
of the table are all seated at it, their hands all belong to the table, the
table has an initialised deck `d`, and the cards in those hands together with
the cards in the deck are, card for card, the cards `fresh`. -/
def cardsConserved (σ : Heap) (t d : Ref) (fresh : List Card) : Prop :=
  (σ.tables t).Deck = some d ∧
  (∃ cs, (σ.decks d).Cards = some cs) ∧
  (∀ p ∈ (σ.tables t).Players,
    (σ.players p).Table = some t ∧ ∀ h ∈ (σ.players p).Hands, h.Table = some t) ∧
  ∀ c, (tableCards σ t).count c = fresh.count c

/-- The core operations that the specification lists, each with the objects it
works on and the path it takes (see the section on locks). -/
inductive CoreOp where
  | PullRandomCard (d : Ref)
  | PullCard (d : Ref)
  | PushCard (d : Ref)
  | Shuffle (d : Ref)
  | Hit (h : Nat) (player : Option Ref) (d : Ref) (played drawn : Bool)
  | Stick (h : Nat) (wasLocked : Bool)
  | EvalScore (h : Nat)
  | Score (h : Nat)
  | newHand (p : Ref)
  | clearHands (p : Ref) (hands : List Nat)
  | Join (t p : Ref)
  | Reset (t : Ref) (inPlay : Bool) (seats : List Seat)
  | Deal (t : Ref) (inPlay : Bool) (seats : List Seat)
  | EndRound (t : Ref)

/-- The lock and unlock calls of a core operation. -/
def CoreOp.locks : CoreOp → List LockCall
  | CoreOp.PullRandomCard d => locks.PullRandomCard d
  | CoreOp.PullCard d => locks.PullCard d
  | CoreOp.PushCard d => locks.PushCard d
  | CoreOp.Shuffle d => locks.Shuffle d
  | CoreOp.Hit h player d played drawn => locks.Hit h player d played drawn
  | CoreOp.Stick h wasLocked => locks.Stick h wasLocked
  | CoreOp.EvalScore h => locks.EvalScore h
  | CoreOp.Score h => locks.Score h
  | CoreOp.newHand p => locks.newHand p
  | CoreOp.clearHands p hands => locks.clearHands p hands
  | CoreOp.Join t p => locks.Join t p
  | CoreOp.Reset t inPlay seats => locks.Reset t inPlay seats
  | CoreOp.Deal t inPlay seats => locks.Deal t inPlay seats
  | CoreOp.EndRound t => locks.EndRound t

/-- Whether the operation is `clearHands` or one of the two that call it. -/
def CoreOp.clears : CoreOp → Bool
  | CoreOp.clearHands _ _ => true
  | CoreOp.Reset _ _ _ => true
  | CoreOp.Deal _ _ _ => true
  | _ => false

/-- The hands that an operation discards, the one discarded last first: the
hands of the player for `clearHands`, the hands of all the players of the table
for a `Reset` or `Deal` of a table that is not in play. -/
def CoreOp.discarded : CoreOp → List Nat
  | CoreOp.clearHands _ hands => hands.reverse
  | CoreOp.Reset _ inPlay seats =>
    if inPlay then [] else seats.reverse.flatMap (fun s => s.hands.reverse)
  | CoreOp.Deal _ inPlay seats =>
    if inPlay then [] else seats.reverse.flatMap (fun s => s.hands.reverse)
  | _ => []

/-- A sequence of lock calls leaves the hands `hs` locked: whenever it runs to
its end, the mutexes held for reading are as before, and those held for writing
are as before with the mutexes of `hs` put in front. -/
def locksLeft (calls : List LockCall) (hs : List Nat) : Prop :=
  ∀ L L1, runLocks calls L = some L1 →
    L1.readers = L.readers ∧ L1.writers = hs.map Mutex.hand ++ L.writers

/-- A call of one of the four operations on a table; `Deal` carries the address
of the deck that it allocates and its random numbers. -/
inductive TableOp where
  | Join (t p : Ref)
  | Reset (t : Ref)
  | Deal (t newDeck : Ref) (rnd : Nat → Nat)
  | EndRound (t : Ref)

/-- One call on a table: the heap it leaves and the errors it returns, the empty
list when it succeeds; `none` is a panic. -/
def TableOp.apply (op : TableOp) (σ : Heap) : Option (Heap × List Error) :=
  match op with
  | TableOp.Join t p => some ((Table.Join σ t p).1, (Table.Join σ t p).2.toList)
  | TableOp.Reset t => some ((Table.Reset σ t).1, (Table.Reset σ t).2.toList)
  | TableOp.Deal t newDeck rnd => Table.Deal σ t newDeck rnd
  | TableOp.EndRound t => some ((Table.EndRound σ t).1, (Table.EndRound σ t).2.toList)

/-- A sequence of calls on tables, left to right, whether they succeed or fail,
stopping at a panic. -/
def runTableOps : List TableOp → Heap → Option Heap
  | [], σ => some σ
  | op :: ops, σ =>
    match op.apply σ with
    | none => none
    | some (σ1, _) => runTableOps ops σ1

/-- A run of successful calls of `Hit` on one hand, one for every random number:
the heap and the hand after the last call; `none` when a call returns an error
or panics. -/
def hitAll : List Nat → Heap → Hand → Option (Heap × Hand)
  | [], σ, h => some (σ, h)
  | rnd :: rest, σ, h =>
    match h.Hit σ rnd with
    | some (σ1, h1, none) => hitAll rest σ1 h1
    | _ => none

/-- The state in which exactly the mutexes `W` are held, all for writing. -/
def heldLocks (W : List Mutex) : LockState :=
  { writers := W, readers := [] }

/-- The state in which no mutex is held except the write locks of the hands
`H` (hands discarded by `clearHands`). -/
def heldHands (H : List Nat) : LockState :=
  heldLocks (H.map Mutex.hand)

/-- The hands whose mutex an operation acquires, for reading or for writing: the
hand of a hand operation, the hands that `clearHands` discards, and for a
`Deal` of a table that is not in play also the new hands that it fills. -/
def CoreOp.acquired : CoreOp → List Nat
  | CoreOp.Hit h _ _ _ _ => [h]
  | CoreOp.Stick h _ => [h]
  | CoreOp.EvalScore h => [h]
  | CoreOp.Score h => [h]
  | CoreOp.clearHands _ hands => hands
  | CoreOp.Reset _ inPlay seats => if inPlay then [] else seats.flatMap (fun s => s.hands)
  | CoreOp.Deal _ inPlay seats =>
    if inPlay then []
    else seats.flatMap (fun s => s.hands) ++
      (seats.filter (fun s => s.seated)).map (fun s => s.newHand)
  | _ => []

/-- Hands are objects of their own: the hands that one operation discards are
distinct objects, and a hand that `Deal` allocates is a new object, none of
those just discarded. -/
def CoreOp.wellFormed : CoreOp → Bool
  | CoreOp.clearHands _ hands => decide hands.Nodup
  | CoreOp.Reset _ inPlay seats => inPlay || decide (seats.flatMap (fun s => s.hands)).Nodup
  | CoreOp.Deal _ inPlay seats =>
    inPlay ||
      (decide (seats.flatMap (fun s => s.hands)).Nodup &&
        seats.all (fun s => !s.seated || decide (s.newHand ∉ seats.flatMap (fun s => s.hands))))
  | _ => true

/-- Whether, in a sequence of operations started with the write locks of the
hands `H` held, some operation acquires the mutex of a hand that is in `H` or
was discarded by an operation before it. -/
def blockedIn : List CoreOp → List Nat → Bool
  | [], _ => false
  | op :: rest, H =>
    op.acquired.any (fun h => decide (h ∈ H)) || blockedIn rest (op.discarded ++ H)

/-- The calls of a sequence of `Join` calls, each given as (table, player), that
return no error, in call order. -/
def joined : List (Ref × Ref) → Heap → List (Ref × Ref)
  | [], _ => []
  | (t, p) :: rest, σ =>
    (if (Table.Join σ t p).2 = none then [(t, p)] else []) ++
      joined rest (Table.Join σ t p).1

/-- The table of the last call in the list that is made for player `p`, and
`start` when the list has no call for `p`. -/
def lastJoin : List (Ref × Ref) → Ref → Option Ref → Option Ref
  | [], _, start => start
  | (t, q) :: rest, p, start => lastJoin rest p (if q = p then some t else start)

/-- A valid, unlocked hand with the given cards injected, as the tests build
one: the table and player pointers are both reference 0. -/
def openHand (cards : List Card) : Hand :=
  { Cards := cards, Table := some 0, Player := some 0,
    score := 0, minScore := 0, locked := false, valid := true }

/-- First precondition of `Hit`: the table of the hand and its deck exist. -/
def hasTableAndDeck (σ : Heap) (h : Hand) : Bool :=
  match h.Table with
  | none => false
  | some t => ((σ.tables t).Deck).isSome

/-- Fourth precondition of `Hit`: the hand has an owning player. -/
def hasPlayer (h : Hand) : Bool :=
  h.Player.isSome

/-- Fifth precondition of `Hit`: the owning player has a table. -/
def playerHasTable (σ : Heap) (h : Hand) : Bool :=
  match h.Player with
  | none => false
  | some p => ((σ.players p).Table).isSome

/-- Sixth precondition of `Hit`: the play state of the table of the owning
player is InPlay (1). -/
def playerTableInPlay (σ : Heap) (h : Hand) : Bool :=
  match h.Player with
  | none => false
  | some p =>
    match (σ.players p).Table with
    | none => false
    | some pt => (σ.tables pt).playState == 1

/-- A playable hand: all six preconditions of `Hit` hold. -/
def playable (σ : Heap) (h : Hand) : Bool :=
  hasTableAndDeck σ h && h.valid && !h.locked && hasPlayer h && playerHasTable σ h
    && playerTableInPlay σ h

/-- The deck that `Hit` draws from, `h.Table.Deck`, when both pointers are set. -/
def deckRef (σ : Heap) (h : Hand) : Option Ref :=
  match h.Table with
  | none => none
  | some t => (σ.tables t).Deck

/-- A heap as the tests set one up: table 0 with the given play state owns deck 0
with the given backing cards, and player 0 is seated at table 0. Every other
reference holds a zero object. -/
def gameHeap (cards : Option (List Card)) (playState : Nat) : Heap :=
  { decks := fun r => if r = 0 then { Cards := cards } else { Cards := none },
    tables := fun r =>
      if r = 0 then { Deck := some 0, sDecks := 1, Players := [0], playState := playState }
      else { Deck := none, sDecks := 0, Players := [], playState := 0 },
    players := fun r =>
      if r = 0 then { Table := some 0, Hands := [] } else { Table := none, Hands := [] } }

end blackjack

/-! ## Lemmas on the scoring loops -/

namespace blackjack

open playdeck

theorem scorable_iff (c : Card) :
    scorable c ↔ (1 ≤ c.Value ∧ c.Value ≤ 13 ∧ c.Suit ≤ 4) := by
  unfold scorable Card.Valid ValueJoker
  simp only [Bool.and_eq_true, decide_eq_true_eq]
  omega

theorem simpleCards_flag (cs : List Card) (s : Int) :
    (EvalScore.simpleCards cs s).2 = true ↔ ∃ c ∈ cs, ¬ scorable c := by
  induction cs generalizing s with
  | nil => simp [EvalScore.simpleCards]
  | cons c cs ih =>
    by_cases hc : scorable c
    · have h1 : (c.Value == ValueJoker || !c.Valid) = false := by
        unfold scorable at hc
        simp [hc.1, hc.2]
      simp only [EvalScore.simpleCards, h1, Bool.false_eq_true, if_false]
      split
      · rw [ih]; simp [hc]
      · rw [ih]; simp [hc]
    · have h1 : (c.Value == ValueJoker || !c.Valid) = true := by
        unfold scorable at hc
        by_cases hv : c.Value = ValueJoker
        · simp [hv]
        · have : c.Valid = false := by
            cases hcv : c.Valid
            · rfl
            · exact absurd ⟨hv, hcv⟩ hc
          simp [this]
      simp only [EvalScore.simpleCards, h1, if_true]
      simp only [true_iff]
      exact ⟨c, List.mem_cons_self _ _, hc⟩

theorem simpleCards_score (cs : List Card) (s : Int) (hcs : ∀ c ∈ cs, scorable c) :
    EvalScore.simpleCards cs s = (s + worstTotal cs - (aceCount cs : Int), false) := by
  induction cs generalizing s with
  | nil => simp [EvalScore.simpleCards, worstTotal, aceCount]
  | cons c cs ih =>
    have hc : scorable c := hcs c (List.mem_cons_self _ _)
    have hrest : ∀ x ∈ cs, scorable x := fun x hx => hcs x (List.mem_cons_of_mem _ hx)
    have h1 : (c.Value == ValueJoker || !c.Valid) = false := by
      unfold scorable at hc
      simp [hc.1, hc.2]
    have hr := (scorable_iff c).1 hc
    simp only [EvalScore.simpleCards, h1, Bool.false_eq_true, if_false]
    by_cases ha : c.Value = 1
    · simp only [ha, beq_self_eq_true, if_true]
      rw [ih s hrest]
      simp [worstTotal, aceCount, hardValue, ha, List.countP_cons]
      ring
    · have hb : (c.Value == 1) = false := by simpa using ha
      simp only [hb, Bool.false_eq_true, if_false]
      rw [ih _ hrest]
      by_cases hlow : c.Value ≤ 10
      · have h2 : 2 ≤ c.Value := by omega
        have h3 : ¬ (11 ≤ c.Value) := by omega
        simp [worstTotal, aceCount, hardValue, ha, List.countP_cons, hlow, h2, h3]
        ring
      · have h2 : 2 ≤ c.Value := by omega
        have h3 : 11 ≤ c.Value := by omega
        simp [worstTotal, aceCount, hardValue, ha, List.countP_cons, hlow, h2, h3, hr.2.1]
        ring

theorem aces_minScore (cs : List Card) (s m : Int) :
    (EvalScore.aces cs (s, m)).2 = m + (aceCount cs : Int) := by
  induction cs generalizing s m with
  | nil => simp [EvalScore.aces, aceCount]
  | cons c cs ih =>
    by_cases ha : c.Value = 1
    · simp only [EvalScore.aces, ha, beq_self_eq_true, if_true]
      rw [ih]
      simp [aceCount, List.countP_cons, ha]
      ring
    · have hb : (c.Value == 1) = false := by simpa using ha
      simp only [EvalScore.aces, hb, Bool.false_eq_true, if_false]
      rw [ih]
      simp [aceCount, List.countP_cons, ha]

/-- The error of `EvalScore`, read off the code. -/
theorem EvalScore_error (h : Hand) :
    h.EvalScore.2 =
      if h.Cards.length < 2 then some Error.ErrHandInvalid
      else if (EvalScore.simpleCards h.Cards 0).2 = true then some Error.ErrInvalidCard
      else none := by
  unfold Hand.EvalScore
  simp only
  split
  · rfl
  · split
    · rename_i heq; simp [heq]
    · rename_i heq; simp only [heq]; split <;> simp

/-- No error from `EvalScore` on at least 2 cards that can all be scored. -/
theorem EvalScore_no_error (h : Hand) (hlen : 2 ≤ h.Cards.length)
    (hcards : ∀ c ∈ h.Cards, scorable c) : h.EvalScore.2 = none := by
  rw [EvalScore_error]
  have hflag : ¬ ((EvalScore.simpleCards h.Cards 0).2 = true) := by
    rw [simpleCards_flag]
    rintro ⟨c, hc, hn⟩
    exact hn (hcards c hc)
  have hl : ¬ (h.Cards.length < 2) := by omega
  simp [hl, hflag]

/-- The state `EvalScore` leaves when it returns no error, read off the code. -/
theorem EvalScore_ok (h : Hand) (hok : h.EvalScore.2 = none) :
    h.EvalScore.1 =
      (let r := EvalScore.aces h.Cards
          ((EvalScore.simpleCards h.Cards 0).1, (EvalScore.simpleCards h.Cards 0).1)
       if r.1 > 21 then
         { h with score := r.1, minScore := r.2, valid := false, locked := true }
       else { h with score := r.1, minScore := r.2 }) := by
  revert hok
  unfold Hand.EvalScore
  simp only
  split
  · intro hok; simp at hok
  · split
    · intro hok; simp at hok
    · rename_i heq
      intro _
      simp only [heq]
      split <;> rfl

end blackjack

/-! ## Scoring: claims C1 to C5 -/

namespace blackjack

open playdeck

/-- C1, defect in the code: on the hand ace, ace, king `EvalScore` returns no
error and stores the best score 22, while the largest total obtainable by
counting each ace as 1 or 11 that does not exceed 21 exists and is 12 (both
aces counted as 1). The first ace is taken as 11 because the running score 10
is at most 10, without regard to the ace that follows. -/
theorem C1_evalScore_ace_ace_king_misses_best :
    (openHand [⟨SuitSpade, ValueAce⟩, ⟨SuitHeart, ValueAce⟩, ⟨SuitSpade, ValueKing⟩]).EvalScore.2 = none ∧
    (openHand [⟨SuitSpade, ValueAce⟩, ⟨SuitHeart, ValueAce⟩, ⟨SuitSpade, ValueKing⟩]).EvalScore.1.score = 22 ∧
    bestTotal [⟨SuitSpade, ValueAce⟩, ⟨SuitHeart, ValueAce⟩, ⟨SuitSpade, ValueKing⟩] = some 12 := by
  decide

/-- C2, defect in the code: the valid, unlocked hand ace, ace, king is marked
bust by `EvalScore` (valid false, locked true) although its worst score, every
ace counted as 1, is 12 and so not greater than 21. -/
theorem C2_evalScore_marks_bust_with_worst_12 :
    (openHand [⟨SuitSpade, ValueAce⟩, ⟨SuitHeart, ValueAce⟩, ⟨SuitDiamond, ValueKing⟩]).valid = true ∧
    (openHand [⟨SuitSpade, ValueAce⟩, ⟨SuitHeart, ValueAce⟩, ⟨SuitDiamond, ValueKing⟩]).EvalScore.1.valid = false ∧
    (openHand [⟨SuitSpade, ValueAce⟩, ⟨SuitHeart, ValueAce⟩, ⟨SuitDiamond, ValueKing⟩]).EvalScore.1.locked = true ∧
    (openHand [⟨SuitSpade, ValueAce⟩, ⟨SuitHeart, ValueAce⟩, ⟨SuitDiamond, ValueKing⟩]).EvalScore.1.minScore = 12 ∧
    worstTotal [⟨SuitSpade, ValueAce⟩, ⟨SuitHeart, ValueAce⟩, ⟨SuitDiamond, ValueKing⟩] = 12 := by
  decide

/-- C3: for a hand that is valid and unlocked before the call, when `EvalScore`
returns no error, a computed best score of 21 or less leaves the hand valid and
unlocked, and a computed best score of 22 or more leaves it with valid false
and locked true. -/
theorem C3_evalScore_bust_check (h : Hand) (hv : h.valid = true) (hl : h.locked = false)
    (hok : h.EvalScore.2 = none) :
    (h.EvalScore.1.score ≤ 21 → h.EvalScore.1.valid = true ∧ h.EvalScore.1.locked = false) ∧
    (22 ≤ h.EvalScore.1.score → h.EvalScore.1.valid = false ∧ h.EvalScore.1.locked = true) := by
  rw [EvalScore_ok h hok]
  simp only
  split
  · rename_i hgt
    refine ⟨fun hle => ?_, fun _ => ⟨rfl, rfl⟩⟩
    simp only at hle
    omega
  · rename_i hgt
    refine ⟨fun _ => ⟨hv, hl⟩, fun hge => ?_⟩
    simp only at hge
    omega

/-- C3 at the two hands of the claim: ace, king scores 21 and stays valid and
unlocked; ten, ten, two scores 22 and becomes invalid and locked. -/
theorem C3_evalScore_bust_check_witness :
    ((openHand [⟨SuitClub, ValueAce⟩, ⟨SuitClub, ValueKing⟩]).EvalScore.1.score = 21 ∧
      (openHand [⟨SuitClub, ValueAce⟩, ⟨SuitClub, ValueKing⟩]).EvalScore.1.valid = true ∧
      (openHand [⟨SuitClub, ValueAce⟩, ⟨SuitClub, ValueKing⟩]).EvalScore.1.locked = false) ∧
    ((openHand [⟨SuitClub, ValueTen⟩, ⟨SuitClub, ValueTen⟩, ⟨SuitDiamond, ValueTwo⟩]).EvalScore.1.score = 22 ∧
      (openHand [⟨SuitClub, ValueTen⟩, ⟨SuitClub, ValueTen⟩, ⟨SuitDiamond, ValueTwo⟩]).EvalScore.1.valid = false ∧
      (openHand [⟨SuitClub, ValueTen⟩, ⟨SuitClub, ValueTen⟩, ⟨SuitDiamond, ValueTwo⟩]).EvalScore.1.locked = true) :=
  ⟨⟨by decide,
    (C3_evalScore_bust_check (openHand [⟨SuitClub, ValueAce⟩, ⟨SuitClub, ValueKing⟩])
      rfl rfl (by decide)).1 (by decide)⟩,
   ⟨by decide,
    (C3_evalScore_bust_check
      (openHand [⟨SuitClub, ValueTen⟩, ⟨SuitClub, ValueTen⟩, ⟨SuitDiamond, ValueTwo⟩])
      rfl rfl (by decide)).2 (by decide)⟩⟩

/-- C4: for a hand of at least 2 valid non-joker cards `EvalScore` succeeds and
the worst score it stores is the sum over the cards of the hard value (1 for an
ace, the face value for 2 to 10, 10 for jack, queen, king); the result is the
same whatever scores were cached before the call. -/
theorem C4_evalScore_minScore (h : Hand) (hlen : 2 ≤ h.Cards.length)
    (hcards : ∀ c ∈ h.Cards, c.Value ≠ ValueJoker ∧ c.Valid = true) :
    h.EvalScore.2 = none ∧
    h.EvalScore.1.minScore = worstTotal h.Cards ∧
    ∀ s m : Int, ({ h with score := s, minScore := m } : Hand).EvalScore.1.minScore
      = h.EvalScore.1.minScore := by
  have key : ∀ g : Hand, g.Cards = h.Cards →
      g.EvalScore.2 = none ∧ g.EvalScore.1.minScore = worstTotal h.Cards := by
    intro g hg
    have hsc : ∀ c ∈ g.Cards, scorable c := by rw [hg]; exact hcards
    have hok : g.EvalScore.2 = none := by
      rw [EvalScore_error]
      have hflag : ¬ ((EvalScore.simpleCards g.Cards 0).2 = true) := by
        rw [simpleCards_flag]
        rintro ⟨c, hc, hn⟩
        exact hn (hsc c hc)
      have hl : ¬ (g.Cards.length < 2) := by rw [hg]; omega
      simp [hl, hflag]
    refine ⟨hok, ?_⟩
    rw [EvalScore_ok g hok]
    simp only
    have hm := aces_minScore h.Cards (EvalScore.simpleCards h.Cards 0).1
      (EvalScore.simpleCards h.Cards 0).1
    have hs := simpleCards_score h.Cards 0 (hg ▸ hsc)
    simp only [hg]
    split
    · show (EvalScore.aces h.Cards _).2 = _
      rw [hm, hs]; ring
    · show (EvalScore.aces h.Cards _).2 = _
      rw [hm, hs]; ring
  refine ⟨(key h rfl).1, (key h rfl).2, fun s m => ?_⟩
  rw [(key h rfl).2]
  exact (key _ rfl).2

/-- C4 at the hand king, queen of the test: worst score 20. -/
theorem C4_evalScore_minScore_witness :
    (openHand [⟨SuitSpade, ValueKing⟩, ⟨SuitDiamond, ValueQueen⟩]).EvalScore.2 = none ∧
    (openHand [⟨SuitSpade, ValueKing⟩, ⟨SuitDiamond, ValueQueen⟩]).EvalScore.1.minScore = 20 :=
  have h := C4_evalScore_minScore (openHand [⟨SuitSpade, ValueKing⟩, ⟨SuitDiamond, ValueQueen⟩])
    (by decide) (by decide)
  ⟨h.1, h.2.1.trans (by decide)⟩

/-- C5: `EvalScore` fails with `ErrHandInvalid` exactly when the hand holds fewer
than 2 cards, whatever the cards are; it fails with `ErrInvalidCard` exactly
when the hand holds at least 2 cards and some card is a joker or fails
`Card.Valid`; it returns no error exactly when the hand holds at least 2 cards
that are all valid and not jokers. A card fails `Card.Valid` exactly when its
rank is above 13 or its suit above 4. -/
theorem C5_evalScore_errors (h : Hand) :
    (h.EvalScore.2 = some Error.ErrHandInvalid ↔ h.Cards.length < 2) ∧
    (h.EvalScore.2 = some Error.ErrInvalidCard ↔
      2 ≤ h.Cards.length ∧ ∃ c ∈ h.Cards, c.Value = ValueJoker ∨ c.Valid = false) ∧
    (h.EvalScore.2 = none ↔
      2 ≤ h.Cards.length ∧ ∀ c ∈ h.Cards, c.Value ≠ ValueJoker ∧ c.Valid = true) ∧
    (∀ c : Card, c.Valid = false ↔ (c.Value > 13 ∨ c.Suit > 4)) := by
  have hflag : (EvalScore.simpleCards h.Cards 0).2 = true ↔
      ∃ c ∈ h.Cards, c.Value = ValueJoker ∨ c.Valid = false := by
    rw [simpleCards_flag]
    constructor
    · rintro ⟨c, hc, hn⟩
      refine ⟨c, hc, ?_⟩
      unfold scorable at hn
      by_cases hv : c.Value = ValueJoker
      · exact Or.inl hv
      · right
        cases hcv : c.Valid
        · rfl
        · exact absurd ⟨hv, hcv⟩ hn
    · rintro ⟨c, hc, hbad⟩
      refine ⟨c, hc, ?_⟩
      unfold scorable
      rintro ⟨h1, h2⟩
      rcases hbad with hb | hb
      · exact h1 hb
      · rw [h2] at hb; exact Bool.noConfusion hb
  have hflag2 : ¬ ((EvalScore.simpleCards h.Cards 0).2 = true) ↔
      ∀ c ∈ h.Cards, c.Value ≠ ValueJoker ∧ c.Valid = true := by
    rw [simpleCards_flag]
    unfold scorable
    push_neg
    rfl
  refine ⟨?_, ?_, ?_, ?_⟩
  · rw [EvalScore_error]
    by_cases hl : h.Cards.length < 2
    · simp [hl]
    · by_cases hf : (EvalScore.simpleCards h.Cards 0).2 = true <;> simp [hl, hf]
  · rw [EvalScore_error, ← hflag]
    by_cases hl : h.Cards.length < 2
    · simp [hl]
    · by_cases hf : (EvalScore.simpleCards h.Cards 0).2 = true
      · simp [hl, hf]; omega
      · simp [hl, hf]
  · rw [EvalScore_error, ← hflag2]
    by_cases hl : h.Cards.length < 2
    · simp [hl]
    · by_cases hf : (EvalScore.simpleCards h.Cards 0).2 = true
      · simp [hl, hf]
      · simp [hl, hf]; omega
  · intro c
    unfold Card.Valid
    simp only [Bool.and_eq_false_iff, decide_eq_false_iff_not]
    omega

end blackjack

/-! ## Lemmas on the hand operations -/

namespace blackjack

open playdeck

theorem EvalScore_frame (h : Hand) :
    h.EvalScore.1.Cards = h.Cards ∧ h.EvalScore.1.Table = h.Table ∧
    h.EvalScore.1.Player = h.Player := by
  unfold Hand.EvalScore
  simp only
  split
  · exact ⟨rfl, rfl, rfl⟩
  · split
    · exact ⟨rfl, rfl, rfl⟩
    · split <;> exact ⟨rfl, rfl, rfl⟩

theorem EvalScore_flags (h : Hand) :
    (h.locked = true → h.EvalScore.1.locked = true) ∧
    (h.valid = false → h.EvalScore.1.valid = false) := by
  unfold Hand.EvalScore
  simp only
  split
  · exact ⟨id, id⟩
  · split
    · exact ⟨id, id⟩
    · split
      · exact ⟨fun _ => rfl, fun _ => rfl⟩
      · exact ⟨id, id⟩

theorem Stick_flags (h : Hand) :
    (h.locked = true → h.Stick.1.locked = true) ∧
    (h.valid = false → h.Stick.1.valid = false) := by
  unfold Hand.Stick Hand.lockHand
  by_cases hl : h.locked = true
  · simp [hl]
  · have hl2 : h.locked = false := by simpa using hl
    simp only [hl2, Bool.false_eq_true, if_false]
    refine ⟨fun hc => absurd hc (by simp), fun hv => ?_⟩
    exact (EvalScore_flags { h with locked := true }).2 hv

theorem canPlay_eq_none_iff (σ : Heap) (h : Hand) :
    h.canPlay σ = none ↔ playable σ h = true := by
  unfold Hand.canPlay playable hasTableAndDeck hasPlayer playerHasTable playerTableInPlay
  cases hT : h.Table with
  | none => simp
  | some t =>
    cases hD : (σ.tables t).Deck with
    | none => simp [hD]
    | some d =>
      cases hv : h.valid <;> cases hl : h.locked <;> simp [hD]
      cases hP : h.Player with
      | none => simp
      | some p =>
        cases hPT : (σ.players p).Table with
        | none => simp [hPT]
        | some pt => simp [hPT]

theorem heap_update_self (σ : Heap) (d : Ref) :
    ({ σ with decks := Function.update σ.decks d (σ.decks d) } : Heap) = σ := by
  cases σ
  simp [Function.update_eq_self]

end blackjack

namespace blackjack

open playdeck

theorem PullRandomCard_empty (d : Deck) (rnd : Nat) (hc : d.Cards = some []) :
    d.PullRandomCard rnd = (d, { Suit := 0, Value := 0 }, some Error.ErrDeckEmpty) := by
  unfold Deck.PullRandomCard
  simp [hc]

theorem PullRandomCard_nonempty (d : Deck) (rnd : Nat) (cs : List Card)
    (hc : d.Cards = some cs) (hne : cs ≠ []) :
    d.PullRandomCard rnd =
      ({ Cards := some (cs.eraseIdx (rnd % cs.length)) },
        cs.getD (rnd % cs.length) { Suit := 0, Value := 0 }, none) := by
  unfold Deck.PullRandomCard
  have hlen : cs.length ≠ 0 := by
    intro h0; exact hne (List.length_eq_zero.1 h0)
  simp [hc, hlen, List.eraseIdx_eq_take_drop_succ]

/-- What `Hit` does once `canPlay` has passed: it draws from `h.Table.Deck` and,
when the draw succeeds, appends the card and scores the hand. -/
theorem Hit_of_canPlay (σ : Heap) (h : Hand) (rnd : Nat) (t d : Ref)
    (hT : h.Table = some t) (hD : (σ.tables t).Deck = some d) (hp : h.canPlay σ = none) :
    h.Hit σ rnd =
      match (σ.decks d).PullRandomCard rnd with
      | (deck, _, some err) =>
        some ({ σ with decks := Function.update σ.decks d deck }, h, some err)
      | (deck, newCard, none) =>
        some ({ σ with decks := Function.update σ.decks d deck },
          ({ h with Cards := h.Cards ++ [newCard] } : Hand).EvalScore.1,
          ({ h with Cards := h.Cards ++ [newCard] } : Hand).EvalScore.2) := by
  unfold Hand.Hit Hand.addCard
  simp only [hp, hT, hD]
  rcases hpull : (σ.decks d).PullRandomCard rnd with ⟨deck, card, err⟩
  cases err <;> simp

theorem Hit_flags (σ : Heap) (h : Hand) (rnd : Nat) :
    ∃ r, h.Hit σ rnd = some r ∧ (h.locked = true → r.2.1.locked = true) ∧
      (h.valid = false → r.2.1.valid = false) := by
  cases hp : h.canPlay σ with
  | some err =>
    refine ⟨(σ, h, some err), ?_, id, id⟩
    unfold Hand.Hit
    simp [hp]
  | none =>
    have hpl := (canPlay_eq_none_iff σ h).1 hp
    unfold playable hasTableAndDeck at hpl
    simp only [Bool.and_eq_true, Bool.not_eq_true'] at hpl
    obtain ⟨⟨⟨⟨⟨htd, hv⟩, hl⟩, _⟩, _⟩, _⟩ := hpl
    cases hT : h.Table with
    | none => rw [hT] at htd; exact absurd htd (by simp)
    | some t =>
      rw [hT] at htd
      obtain ⟨d, hD⟩ := Option.isSome_iff_exists.1 htd
      rw [Hit_of_canPlay σ h rnd t d hT hD hp]
      rcases hpull : (σ.decks d).PullRandomCard rnd with ⟨deck, card, err⟩
      cases err with
      | some e =>
        exact ⟨_, rfl, fun hc => by simp [hl] at hc, fun hc => by simp [hv] at hc⟩
      | none =>
        exact ⟨_, rfl, fun hc => by simp [hl] at hc, fun hc => by simp [hv] at hc⟩

theorem apply_flags (op : Op) (s : Heap × Hand) :
    ∃ s1, op.apply s = some s1 ∧ (s.2.locked = true → s1.2.locked = true) ∧
      (s.2.valid = false → s1.2.valid = false) := by
  cases op with
  | Hit rnd =>
    obtain ⟨r, hr, h1, h2⟩ := Hit_flags s.1 s.2 rnd
    exact ⟨(r.1, r.2.1), by simp [Op.apply, hr], h1, h2⟩
  | Stick => exact ⟨_, rfl, (Stick_flags s.2).1, (Stick_flags s.2).2⟩
  | EvalScore => exact ⟨_, rfl, (EvalScore_flags s.2).1, (EvalScore_flags s.2).2⟩
  | Score => exact ⟨s, rfl, id, id⟩

theorem Hit_of_canPlay_error (σ : Heap) (h : Hand) (rnd : Nat) (err : Error)
    (hp : h.canPlay σ = some err) : h.Hit σ rnd = some (σ, h, some err) := by
  unfold Hand.Hit
  simp [hp]

theorem deckRef_eq_some (σ : Heap) (h : Hand) (d : Ref) (hd : deckRef σ h = some d) :
    ∃ t, h.Table = some t ∧ (σ.tables t).Deck = some d := by
  unfold deckRef at hd
  cases hT : h.Table with
  | none => rw [hT] at hd; exact absurd hd (by simp)
  | some t => rw [hT] at hd; exact ⟨t, rfl, hd⟩

theorem EvalScore_bust (h : Hand) (hok : h.EvalScore.2 = none)
    (hgt : h.EvalScore.1.score > 21) :
    h.EvalScore.1.locked = true ∧ h.EvalScore.1.valid = false := by
  rw [EvalScore_ok h hok] at hgt ⊢
  simp only at hgt ⊢
  split
  · exact ⟨rfl, rfl⟩
  · rename_i hle
    rw [if_neg hle] at hgt
    exact absurd hgt hle

theorem hasTableAndDeck_eq (σ : Heap) (h : Hand) :
    hasTableAndDeck σ h = (deckRef σ h).isSome := by
  unfold hasTableAndDeck deckRef
  cases h.Table <;> rfl

/-- The guard `canPlay` as a chain of the six preconditions, in the order of the code. -/
theorem canPlay_eq (σ : Heap) (h : Hand) :
    h.canPlay σ =
      if hasTableAndDeck σ h = false then some Error.ErrHandInvalid
      else if h.valid = false then some Error.ErrHandBust
      else if h.locked = true then some Error.ErrHandLocked
      else if hasPlayer h = false then some Error.ErrHandNoPlayer
      else if playerHasTable σ h = false then some Error.ErrPlayerNoTable
      else if playerTableInPlay σ h = false then some Error.ErrTableNotInPlay
      else none := by
  rcases h with ⟨cards, tbl, ply, sc, msc, lk, vl⟩
  unfold Hand.canPlay hasTableAndDeck hasPlayer playerHasTable playerTableInPlay
  cases tbl with
  | none => simp
  | some t =>
    cases hD : (σ.tables t).Deck with
    | none => simp [hD]
    | some d =>
      cases vl <;> cases lk <;> simp [hD]
      cases ply with
      | none => simp
      | some p =>
        cases hPT : (σ.players p).Table with
        | none => simp [hPT]
        | some pt => simp [hPT]

theorem perm_cons_eraseIdx {α : Type} (cs : List α) (i : Nat) (hi : i < cs.length) :
    List.Perm cs (cs[i] :: cs.eraseIdx i) := by
  induction cs generalizing i with
  | nil => simp at hi
  | cons a as ih =>
    cases i with
    | zero => simp
    | succ j =>
      simp only [List.getElem_cons_succ, List.eraseIdx_cons_succ]
      exact (List.Perm.cons a (ih j (by simpa using hi))).trans (List.Perm.swap _ _ _)

theorem runOps_append (ops1 ops2 : List Op) (s : Heap × Hand) :
    runOps (ops1 ++ ops2) s = (runOps ops1 s).bind (runOps ops2) := by
  induction ops1 generalizing s with
  | nil => rfl
  | cons op ops ih =>
    simp only [List.cons_append, runOps]
    cases op.apply s with
    | none => rfl
    | some s1 => exact ih s1

theorem runOps_flags (ops : List Op) (s : Heap × Hand) :
    ∃ s1, runOps ops s = some s1 ∧
      (s.2.locked = true → s1.2.locked = true) ∧
      (s.2.valid = false → s1.2.valid = false) := by
  induction ops generalizing s with
  | nil => exact ⟨s, rfl, id, id⟩
  | cons op ops ih =>
    obtain ⟨s1, hs1, hl1, hv1⟩ := apply_flags op s
    obtain ⟨s2, hs2, hl2, hv2⟩ := ih s1
    refine ⟨s2, ?_, fun hl => hl2 (hl1 hl), fun hv => hv2 (hv1 hv)⟩
    simp only [runOps, hs1]
    exact hs2

end blackjack

/-! ## Hand state machine: claims C6 to C10 -/

namespace blackjack

open playdeck

/-- C6: from any hand in any heap, any sequence of the operations Hit (with any
random draws), Stick, EvalScore and Score runs without a panic, and for every
moment of the run (after a first part `ops1` of the sequence) and every later
moment (after a further part `ops2`): if the hand was locked at the earlier
moment it is locked at the later one, and if it was not valid at the earlier
moment it is not valid at the later one. -/
theorem C6_locked_and_invalid_are_permanent (σ : Heap) (h : Hand) (ops1 ops2 : List Op) :
    ∃ s1 s2, runOps ops1 (σ, h) = some s1 ∧ runOps (ops1 ++ ops2) (σ, h) = some s2 ∧
      (s1.2.locked = true → s2.2.locked = true) ∧
      (s1.2.valid = false → s2.2.valid = false) := by
  obtain ⟨s1, hs1, _, _⟩ := runOps_flags ops1 (σ, h)
  obtain ⟨s2, hs2, hl, hv⟩ := runOps_flags ops2 s1
  refine ⟨s1, s2, hs1, ?_, hl, hv⟩
  rw [runOps_append, hs1]
  exact hs2

/-- C7: `Hit` checks its preconditions in a fixed order and returns the error
of the first one violated, leaving heap (so the deck) and hand as they were:
table or deck missing gives `ErrHandInvalid`; else hand not valid gives
`ErrHandBust`; else hand locked gives `ErrHandLocked`; else no owning player
gives `ErrHandNoPlayer`; else player without table gives `ErrPlayerNoTable`;
else play state of that table not 1 gives `ErrTableNotInPlay`. When all six
hold, and only then, `Hit` draws from the deck of the table of the hand. -/
theorem C7_hit_precondition_order (σ : Heap) (h : Hand) (rnd : Nat) :
    (hasTableAndDeck σ h = false → h.Hit σ rnd = some (σ, h, some Error.ErrHandInvalid)) ∧
    (hasTableAndDeck σ h = true → h.valid = false →
      h.Hit σ rnd = some (σ, h, some Error.ErrHandBust)) ∧
    (hasTableAndDeck σ h = true → h.valid = true → h.locked = true →
      h.Hit σ rnd = some (σ, h, some Error.ErrHandLocked)) ∧
    (hasTableAndDeck σ h = true → h.valid = true → h.locked = false → hasPlayer h = false →
      h.Hit σ rnd = some (σ, h, some Error.ErrHandNoPlayer)) ∧
    (hasTableAndDeck σ h = true → h.valid = true → h.locked = false → hasPlayer h = true →
      playerHasTable σ h = false →
      h.Hit σ rnd = some (σ, h, some Error.ErrPlayerNoTable)) ∧
    (hasTableAndDeck σ h = true → h.valid = true → h.locked = false → hasPlayer h = true →
      playerHasTable σ h = true → playerTableInPlay σ h = false →
      h.Hit σ rnd = some (σ, h, some Error.ErrTableNotInPlay)) ∧
    (hasTableAndDeck σ h = true → h.valid = true → h.locked = false → hasPlayer h = true →
      playerHasTable σ h = true → playerTableInPlay σ h = true →
      ∃ d, deckRef σ h = some d ∧
        h.Hit σ rnd =
          match (σ.decks d).PullRandomCard rnd with
          | (deck, _, some err) =>
            some ({ σ with decks := Function.update σ.decks d deck }, h, some err)
          | (deck, newCard, none) =>
            some ({ σ with decks := Function.update σ.decks d deck },
              ({ h with Cards := h.Cards ++ [newCard] } : Hand).EvalScore.1,
              ({ h with Cards := h.Cards ++ [newCard] } : Hand).EvalScore.2)) := by
  refine ⟨?_, ?_, ?_, ?_, ?_, ?_, ?_⟩
  · intro h1
    apply Hit_of_canPlay_error
    rw [canPlay_eq]; simp [h1]
  · intro h1 h2
    apply Hit_of_canPlay_error
    rw [canPlay_eq]; simp [h1, h2]
  · intro h1 h2 h3
    apply Hit_of_canPlay_error
    rw [canPlay_eq]; simp [h1, h2, h3]
  · intro h1 h2 h3 h4
    apply Hit_of_canPlay_error
    rw [canPlay_eq]; simp [h1, h2, h3, h4]
  · intro h1 h2 h3 h4 h5
    apply Hit_of_canPlay_error
    rw [canPlay_eq]; simp [h1, h2, h3, h4, h5]
  · intro h1 h2 h3 h4 h5 h6
    apply Hit_of_canPlay_error
    rw [canPlay_eq]; simp [h1, h2, h3, h4, h5, h6]
  · intro h1 h2 h3 h4 h5 h6
    obtain ⟨d, hd⟩ := Option.isSome_iff_exists.1 ((hasTableAndDeck_eq σ h).symm.trans h1)
    obtain ⟨t, hT, hD⟩ := deckRef_eq_some σ h d hd
    refine ⟨d, hd, ?_⟩
    apply Hit_of_canPlay σ h rnd t d hT hD
    rw [canPlay_eq]; simp [h1, h2, h3, h4, h5, h6]

/-- C7 on the hands of the test `TestHandInvalid`: a blank hand gives
`ErrHandInvalid`; the hand ten, ten with a table and deck but no player gives
`ErrHandNoPlayer`; and a dealt hand on a table that is not in play gives
`ErrTableNotInPlay`. In each case heap and hand are returned as they were. -/
theorem C7_hit_precondition_order_witness :
    (({ Cards := [], Table := none, Player := none, score := 0, minScore := 0,
        locked := false, valid := false } : Hand).Hit (gameHeap none 0) 0
      = some (gameHeap none 0,
          { Cards := [], Table := none, Player := none, score := 0, minScore := 0,
            locked := false, valid := false }, some Error.ErrHandInvalid)) ∧
    (({ openHand [⟨SuitClub, ValueTen⟩, ⟨SuitHeart, ValueTen⟩] with Player := none } : Hand).Hit
        (gameHeap none 0) 0
      = some (gameHeap none 0,
          { openHand [⟨SuitClub, ValueTen⟩, ⟨SuitHeart, ValueTen⟩] with Player := none },
          some Error.ErrHandNoPlayer)) ∧
    ((openHand [⟨SuitClub, ValueTen⟩, ⟨SuitHeart, ValueTen⟩]).Hit
        (gameHeap (some [⟨SuitSpade, ValueKing⟩]) 0) 0
      = some (gameHeap (some [⟨SuitSpade, ValueKing⟩]) 0,
          openHand [⟨SuitClub, ValueTen⟩, ⟨SuitHeart, ValueTen⟩],
          some Error.ErrTableNotInPlay)) :=
  ⟨(C7_hit_precondition_order _ _ 0).1 rfl,
   (C7_hit_precondition_order _ _ 0).2.2.2.1 rfl rfl rfl rfl,
   (C7_hit_precondition_order _ _ 0).2.2.2.2.2.1 rfl rfl rfl rfl rfl rfl⟩

/-- C8 as stated fails: the playable hand holding one card, a joker, on a table
in play whose deck holds one valid non-joker card (the king of spades) draws
that king and then `Hit` returns `ErrInvalidCard`, not success. -/
theorem C8_hit_with_joker_in_hand_fails :
    playable (gameHeap (some [⟨SuitSpade, ValueKing⟩]) 1)
        (openHand [⟨SuitJoker, ValueJoker⟩]) = true ∧
    1 ≤ (openHand [⟨SuitJoker, ValueJoker⟩]).Cards.length ∧
    (∀ c ∈ [(⟨SuitSpade, ValueKing⟩ : Card)], scorable c) ∧
    ((openHand [⟨SuitJoker, ValueJoker⟩]).Hit
        (gameHeap (some [⟨SuitSpade, ValueKing⟩]) 1) 0).map (fun r => (r.2.1.Cards, r.2.2))
      = some ([⟨SuitJoker, ValueJoker⟩, ⟨SuitSpade, ValueKing⟩], some Error.ErrInvalidCard) := by
  decide

/-- C8, amended: for a playable hand holding at least 1 card, all of its cards
valid and not jokers, and a non-empty deck of valid non-joker cards, `Hit`
returns no error; the cards of the hand become the old cards followed by the
card `c` at the drawn position `rnd % n` of the deck; the deck becomes the old
deck with that one position erased (one card shorter, a rearrangement of the old
deck without `c`), nothing else in the heap changes; the scores and flags of the
hand are those `EvalScore` computes on the new cards; and when the new best
score exceeds 21 the hand is locked and not valid. -/
theorem C8_hit_draws_one_card_and_scores (σ : Heap) (h : Hand) (rnd : Nat) (d : Ref)
    (cs : List Card)
    (hp : playable σ h = true) (hd : deckRef σ h = some d)
    (hc : (σ.decks d).Cards = some cs) (hne : cs ≠ [])
    (hdeck : ∀ c ∈ cs, c.Value ≠ ValueJoker ∧ c.Valid = true)
    (hlen : 1 ≤ h.Cards.length)
    (hhand : ∀ c ∈ h.Cards, c.Value ≠ ValueJoker ∧ c.Valid = true) :
    ∃ σ1 h1 c,
      h.Hit σ rnd = some (σ1, h1, none) ∧
      rnd % cs.length < cs.length ∧
      cs[rnd % cs.length]? = some c ∧
      h1.Cards = h.Cards ++ [c] ∧
      σ1.decks = Function.update σ.decks d { Cards := some (cs.eraseIdx (rnd % cs.length)) } ∧
      σ1.tables = σ.tables ∧ σ1.players = σ.players ∧
      (cs.eraseIdx (rnd % cs.length)).length + 1 = cs.length ∧
      List.Perm cs (c :: cs.eraseIdx (rnd % cs.length)) ∧
      (h1, none) = ({ h with Cards := h.Cards ++ [c] } : Hand).EvalScore ∧
      h1.Table = h.Table ∧ h1.Player = h.Player ∧
      (h1.score > 21 → h1.locked = true ∧ h1.valid = false) := by
  obtain ⟨t, hT, hD⟩ := deckRef_eq_some σ h d hd
  have hcp := (canPlay_eq_none_iff σ h).2 hp
  have hlen0 : 0 < cs.length := List.length_pos.2 hne
  have hi : rnd % cs.length < cs.length := Nat.mod_lt _ hlen0
  have hget : cs[rnd % cs.length]? = some (cs.getD (rnd % cs.length) { Suit := 0, Value := 0 }) := by
    rw [List.getD_eq_getElem?_getD, List.getElem?_eq_getElem hi]
    rfl
  have hmem : cs.getD (rnd % cs.length) { Suit := 0, Value := 0 } ∈ cs :=
    List.mem_iff_getElem?.2 ⟨_, hget⟩
  have hnew : ∀ x ∈ h.Cards ++ [cs.getD (rnd % cs.length) { Suit := 0, Value := 0 }],
      x.Value ≠ ValueJoker ∧ x.Valid = true := by
    intro x hx
    rcases List.mem_append.1 hx with hx | hx
    · exact hhand x hx
    · rw [List.mem_singleton.1 hx]; exact hdeck _ hmem
  have hok := EvalScore_no_error
    ({ h with Cards := h.Cards ++ [cs.getD (rnd % cs.length) { Suit := 0, Value := 0 }] } : Hand)
    (by simp only [List.length_append, List.length_singleton]; omega) hnew
  have hfr := EvalScore_frame
    ({ h with Cards := h.Cards ++ [cs.getD (rnd % cs.length) { Suit := 0, Value := 0 }] } : Hand)
  refine ⟨{ σ with decks := Function.update σ.decks d ⟨some (cs.eraseIdx (rnd % cs.length))⟩ },
    ({ h with Cards := h.Cards ++ [cs.getD (rnd % cs.length) { Suit := 0, Value := 0 }] }
      : Hand).EvalScore.1,
    cs.getD (rnd % cs.length) { Suit := 0, Value := 0 }, ?_, hi, hget, hfr.1, rfl,
    rfl, rfl, ?_, ?_, ?_, hfr.2.1, hfr.2.2, fun hgt => EvalScore_bust _ hok hgt⟩
  · rw [Hit_of_canPlay σ h rnd t d hT hD hcp, PullRandomCard_nonempty _ rnd cs hc hne]
    simp only [hok]
  · rw [List.length_eraseIdx, if_pos hi]; omega
  · rw [List.getElem?_eq_getElem hi] at hget
    rw [← Option.some.inj hget]
    exact perm_cons_eraseIdx cs _ hi
  · rw [← hok]

/-- C8, amended, at a concrete input: the playable hand ten, ten on a table in play
whose deck holds only the two of diamonds draws that card, `Hit` returns no
error, the deck is left empty, and the hand, now ten, ten, two with best score
22, is locked and not valid. -/
theorem C8_hit_draws_one_card_and_scores_witness :
    ∃ σ1 h1,
      (openHand [⟨SuitClub, ValueTen⟩, ⟨SuitHeart, ValueTen⟩]).Hit
          (gameHeap (some [⟨SuitDiamond, ValueTwo⟩]) 1) 0 = some (σ1, h1, none) ∧
      h1.Cards = [⟨SuitClub, ValueTen⟩, ⟨SuitHeart, ValueTen⟩, ⟨SuitDiamond, ValueTwo⟩] ∧
      σ1.decks 0 = { Cards := some [] } ∧
      h1.score = 22 ∧ h1.locked = true ∧ h1.valid = false := by
  obtain ⟨σ1, h1, c, hhit, _, hget, hcards, hdecks, _, _, _, _, hev, _, _, hbust⟩ :=
    C8_hit_draws_one_card_and_scores (gameHeap (some [⟨SuitDiamond, ValueTwo⟩]) 1)
      (openHand [⟨SuitClub, ValueTen⟩, ⟨SuitHeart, ValueTen⟩]) 0 0 [⟨SuitDiamond, ValueTwo⟩]
      rfl rfl rfl (by decide) (by decide) (by decide) (by decide)
  have hc : c = ⟨SuitDiamond, ValueTwo⟩ := by
    have h2 : some (⟨SuitDiamond, ValueTwo⟩ : Card) = some c := hget
    exact (Option.some.inj h2).symm
  subst hc
  have hscore : h1.score = 22 := by
    have h3 := congrArg (fun r : Hand × Option Error => r.1.score) hev
    exact h3.trans (by decide)
  refine ⟨σ1, h1, hhit, hcards, ?_, hscore, ?_, ?_⟩
  · rw [hdecks]; simp
  · exact (hbust (by rw [hscore]; decide)).1
  · exact (hbust (by rw [hscore]; decide)).2

/-- C9 as stated fails: for the bust hand that `EvalScore` leaves from ten, ten,
two (valid false, locked true), with table and deck in place, `Hit` fails with
`ErrHandBust`, not with `ErrHandLocked`: the validity check comes first. -/
theorem C9_hit_on_bust_hand_is_HandBust :
    hasTableAndDeck (gameHeap (some [⟨SuitSpade, ValueKing⟩]) 1)
      (openHand [⟨SuitClub, ValueTen⟩, ⟨SuitClub, ValueTen⟩, ⟨SuitDiamond, ValueTwo⟩]).EvalScore.1
      = true ∧
    (openHand [⟨SuitClub, ValueTen⟩, ⟨SuitClub, ValueTen⟩, ⟨SuitDiamond, ValueTwo⟩]).EvalScore.1.locked
      = true ∧
    (openHand [⟨SuitClub, ValueTen⟩, ⟨SuitClub, ValueTen⟩, ⟨SuitDiamond, ValueTwo⟩]).EvalScore.1.valid
      = false ∧
    ((openHand [⟨SuitClub, ValueTen⟩, ⟨SuitClub, ValueTen⟩, ⟨SuitDiamond, ValueTwo⟩]).EvalScore.1.Hit
        (gameHeap (some [⟨SuitSpade, ValueKing⟩]) 1) 0).map (fun r => r.2.2)
      = some (some Error.ErrHandBust) ∧
    ((openHand [⟨SuitClub, ValueTen⟩, ⟨SuitClub, ValueTen⟩, ⟨SuitDiamond, ValueTwo⟩]).EvalScore.1.Hit
        (gameHeap (some [⟨SuitSpade, ValueKing⟩]) 1) 0).map (fun r => r.2.2)
      ≠ some (some Error.ErrHandLocked) := by
  decide

/-- C9, amended: for every hand whose table and deck exist and whose locked flag
is true, `Hit` does not succeed and changes nothing: it fails with
`ErrHandLocked` when the hand is valid, and with `ErrHandBust` when the hand is
not valid (a bust hand), because the validity check fires before the locked
check. -/
theorem C9_hit_on_locked_hand (σ : Heap) (h : Hand) (rnd : Nat)
    (htd : hasTableAndDeck σ h = true) (hl : h.locked = true) :
    h.Hit σ rnd =
      some (σ, h, some (if h.valid = true then Error.ErrHandLocked else Error.ErrHandBust)) := by
  apply Hit_of_canPlay_error
  rw [canPlay_eq]
  cases hv : h.valid <;> simp [htd, hl]

/-- C9, amended, on the hand king, queen after `Stick`: `Hit` fails with
`ErrHandLocked`. -/
theorem C9_hit_on_locked_hand_witness :
    (openHand [⟨SuitSpade, ValueKing⟩, ⟨SuitDiamond, ValueQueen⟩]).Stick.2 = none ∧
    (openHand [⟨SuitSpade, ValueKing⟩, ⟨SuitDiamond, ValueQueen⟩]).Stick.1.Hit
        (gameHeap (some [⟨SuitSpade, ValueAce⟩]) 1) 0
      = some (gameHeap (some [⟨SuitSpade, ValueAce⟩]) 1,
          (openHand [⟨SuitSpade, ValueKing⟩, ⟨SuitDiamond, ValueQueen⟩]).Stick.1,
          some Error.ErrHandLocked) :=
  ⟨by decide,
   C9_hit_on_locked_hand (gameHeap (some [⟨SuitSpade, ValueAce⟩]) 1)
     (openHand [⟨SuitSpade, ValueKing⟩, ⟨SuitDiamond, ValueQueen⟩]).Stick.1 0
     (by decide) (by decide)⟩

/-- C10: for a playable hand whose deck (the deck of the table of the hand) is
initialised but empty, `Hit` fails with `ErrDeckEmpty` and leaves the hand
(cards, best score, worst score, locked and valid flags) and the heap as they
were. -/
theorem C10_hit_on_empty_deck (σ : Heap) (h : Hand) (rnd : Nat) (d : Ref)
    (hp : playable σ h = true) (hd : deckRef σ h = some d)
    (hc : (σ.decks d).Cards = some []) :
    h.Hit σ rnd = some (σ, h, some Error.ErrDeckEmpty) := by
  obtain ⟨t, hT, hD⟩ := deckRef_eq_some σ h d hd
  rw [Hit_of_canPlay σ h rnd t d hT hD ((canPlay_eq_none_iff σ h).2 hp),
    PullRandomCard_empty _ rnd hc]
  simp only [heap_update_self]

/-- C10 on the hand king, queen at a table in play whose deck was replaced by an
empty one, as in the test `TestDeckOutOfCards`. -/
theorem C10_hit_on_empty_deck_witness :
    (openHand [⟨SuitSpade, ValueKing⟩, ⟨SuitDiamond, ValueQueen⟩]).Hit (gameHeap (some []) 1) 0
      = some (gameHeap (some []) 1,
          openHand [⟨SuitSpade, ValueKing⟩, ⟨SuitDiamond, ValueQueen⟩],
          some Error.ErrDeckEmpty) :=
  C10_hit_on_empty_deck (gameHeap (some []) 1)
    (openHand [⟨SuitSpade, ValueKing⟩, ⟨SuitDiamond, ValueQueen⟩]) 0 0 rfl rfl rfl

end blackjack

/-! ## Lemmas for Stick and for reordered hands -/

namespace blackjack

open playdeck

/-- The cached scores play no part in `EvalScore`. -/
theorem EvalScore_ignores_scores (h : Hand) (s m : Int) :
    ({ h with score := s, minScore := m } : Hand).EvalScore = h.EvalScore := by
  unfold Hand.EvalScore
  rfl

theorem lockHand_locked (h : Hand) (hl : h.locked = true) :
    h.lockHand = (h, some Error.ErrHandLocked) := by
  unfold Hand.lockHand
  simp [hl]

theorem lockHand_unlocked (h : Hand) (hl : h.locked = false) :
    h.lockHand = ({ h with locked := true }, none) := by
  unfold Hand.lockHand
  simp [hl]

theorem Stick_locked (h : Hand) (hl : h.locked = true) :
    h.Stick = (h, some Error.ErrHandLocked) := by
  unfold Hand.Stick
  rw [lockHand_locked h hl]

theorem Stick_unlocked (h : Hand) (hl : h.locked = false) :
    h.Stick = ({ h with locked := true } : Hand).EvalScore := by
  unfold Hand.Stick
  rw [lockHand_unlocked h hl]

theorem EvalScore_locked_of_locked (h : Hand) (hl : h.locked = true) :
    h.EvalScore.1.locked = true :=
  (EvalScore_flags h).1 hl

theorem Stick_leaves_locked (h : Hand) : h.Stick.1.locked = true := by
  cases hl : h.locked with
  | true => rw [Stick_locked h hl]; exact hl
  | false =>
    rw [Stick_unlocked h hl]
    exact EvalScore_locked_of_locked _ rfl

theorem simpleCards_running_sum (cs : List Card) (s : Int) :
    (EvalScore.simpleCards cs s).1 = s + scoredBeforeFirstBadCard cs := by
  induction cs generalizing s with
  | nil => simp [EvalScore.simpleCards, scoredBeforeFirstBadCard, worstTotal]
  | cons c cs ih =>
    by_cases hc : scorable c
    · have h1 : (c.Value == ValueJoker || !c.Valid) = false := by
        unfold scorable at hc
        simp [hc.1, hc.2]
      have hr := (scorable_iff c).1 hc
      simp only [EvalScore.simpleCards, h1, Bool.false_eq_true, if_false]
      have hih : ∀ s1 : Int, (EvalScore.simpleCards cs s1).1 = s1 + scoredBeforeFirstBadCard cs := ih
      unfold scoredBeforeFirstBadCard at hih ⊢
      by_cases ha : c.Value = 1
      · simp only [ha, beq_self_eq_true, if_true]
        rw [hih]
        simp [List.takeWhile_cons, hc, ha]
      · have hb : (c.Value == 1) = false := by simpa using ha
        simp only [hb, Bool.false_eq_true, if_false]
        rw [hih]
        by_cases hlow : c.Value ≤ 10
        · have h2 : 2 ≤ c.Value := by omega
          have h3 : ¬ (11 ≤ c.Value) := by omega
          simp [List.takeWhile_cons, hc, ha, worstTotal, hardValue, hlow, h2, h3]
          ring
        · have h2 : 2 ≤ c.Value := by omega
          have h3 : 11 ≤ c.Value := by omega
          simp [List.takeWhile_cons, hc, ha, worstTotal, hardValue, hlow, h2, h3, hr.2.1]
          ring
    · have h1 : (c.Value == ValueJoker || !c.Valid) = true := by
        unfold scorable at hc
        by_cases hv : c.Value = ValueJoker
        · simp [hv]
        · have : c.Valid = false := by
            cases hcv : c.Valid
            · rfl
            · exact absurd ⟨hv, hcv⟩ hc
          simp [this]
      simp [EvalScore.simpleCards, h1, scoredBeforeFirstBadCard, List.takeWhile_cons, hc, worstTotal]

/-- The state `EvalScore` leaves when it fails, read off the code. -/
theorem EvalScore_failed (h : Hand) (hfail : h.EvalScore.2 ≠ none) :
    h.EvalScore.1 =
      { h with score := if h.Cards.length < 2 then 0 else (EvalScore.simpleCards h.Cards 0).1,
               minScore := 0 } := by
  revert hfail
  unfold Hand.EvalScore
  simp only
  split
  · intro _; rfl
  · split
    · rename_i heq
      intro _
      simp only [heq]
    · rename_i heq
      intro hfail
      exfalso
      apply hfail
      split <;> rfl

/-- The ace loop only counts the aces: it applies one and the same step once
per ace. -/
theorem aces_eq_iterate (cs : List Card) (p : Int × Int) :
    EvalScore.aces cs p =
      (fun q : Int × Int => (if q.1 ≤ 10 then q.1 + 11 else q.1 + 1, q.2 + 1))^[aceCount cs] p := by
  induction cs generalizing p with
  | nil => simp [EvalScore.aces, aceCount]
  | cons c cs ih =>
    obtain ⟨s, m⟩ := p
    by_cases ha : c.Value = 1
    · simp only [EvalScore.aces, ha, beq_self_eq_true, if_true]
      rw [ih]
      simp [aceCount, List.countP_cons, ha, Function.iterate_succ_apply]
    · have hb : (c.Value == 1) = false := by simpa using ha
      simp only [EvalScore.aces, hb, Bool.false_eq_true, if_false]
      rw [ih]
      simp [aceCount, List.countP_cons, ha]

theorem EvalScore_ok_scorable (h : Hand) (hok : h.EvalScore.2 = none) :
    2 ≤ h.Cards.length ∧ ∀ c ∈ h.Cards, scorable c := by
  rw [EvalScore_error] at hok
  by_cases hlt : h.Cards.length < 2
  · simp [hlt] at hok
  · by_cases hf : (EvalScore.simpleCards h.Cards 0).2 = true
    · simp [hlt, hf] at hok
    · refine ⟨by omega, fun c hc => ?_⟩
      by_contra hn
      exact hf ((simpleCards_flag h.Cards 0).2 ⟨c, hc, hn⟩)

theorem worstTotal_perm (cs1 cs2 : List Card) (hperm : List.Perm cs1 cs2) :
    worstTotal cs1 = worstTotal cs2 :=
  (hperm.map hardValue).sum_eq

theorem aceCount_perm (cs1 cs2 : List Card) (hperm : List.Perm cs1 cs2) :
    aceCount cs1 = aceCount cs2 :=
  hperm.countP_eq _

/-- Both loops give the same scores on two arrangements of the same scorable cards. -/
theorem loops_perm (cs1 cs2 : List Card) (hperm : List.Perm cs1 cs2)
    (hsc : ∀ c ∈ cs2, scorable c) :
    EvalScore.aces cs1 ((EvalScore.simpleCards cs1 0).1, (EvalScore.simpleCards cs1 0).1) =
    EvalScore.aces cs2 ((EvalScore.simpleCards cs2 0).1, (EvalScore.simpleCards cs2 0).1) := by
  have hsc1 : ∀ c ∈ cs1, scorable c := fun c hc => hsc c (hperm.mem_iff.1 hc)
  rw [aces_eq_iterate, aces_eq_iterate, simpleCards_score cs1 0 hsc1, simpleCards_score cs2 0 hsc,
    worstTotal_perm cs1 cs2 hperm, aceCount_perm cs1 cs2 hperm]

end blackjack

/-! ## Stick, failed scoring and reordering: claims C11 to C14 -/

namespace blackjack

open playdeck

/-- C11: for an unlocked, valid hand of at least 2 valid non-joker cards whose
cached scores are current (the hand is as a run of `EvalScore` left it), `Stick`
returns no error and changes only the locked flag, from false to true: cards,
best score, worst score and valid flag are as before, and the heap (so the deck)
is untouched. -/
theorem C11_stick_only_sets_locked (σ : Heap) (g h : Hand) (hcur : g.EvalScore.1 = h)
    (hv : h.valid = true) (hl : h.locked = false) (hlen : 2 ≤ h.Cards.length)
    (hcards : ∀ c ∈ h.Cards, c.Value ≠ ValueJoker ∧ c.Valid = true) :
    h.Stick = ({ h with locked := true }, none) ∧
    Op.Stick.apply (σ, h) = some (σ, { h with locked := true }) := by
  have hgc : g.Cards = h.Cards := by rw [← hcur]; exact (EvalScore_frame g).1.symm
  have hgok : g.EvalScore.2 = none :=
    EvalScore_no_error g (by rw [hgc]; exact hlen) (by rw [hgc]; exact hcards)
  have hg := EvalScore_ok g hgok
  rw [hcur] at hg
  simp only at hg
  have hle : ¬ (EvalScore.aces g.Cards
      ((EvalScore.simpleCards g.Cards 0).1, (EvalScore.simpleCards g.Cards 0).1)).1 > 21 := by
    intro hgt
    rw [if_pos hgt] at hg
    rw [hg] at hv
    exact Bool.noConfusion hv
  rw [if_neg hle] at hg
  rw [hgc] at hle
  have hs : h.score = (EvalScore.aces h.Cards
      ((EvalScore.simpleCards h.Cards 0).1, (EvalScore.simpleCards h.Cards 0).1)).1 :=
    (congrArg Hand.score hg).trans (by rw [hgc])
  have hm : h.minScore = (EvalScore.aces h.Cards
      ((EvalScore.simpleCards h.Cards 0).1, (EvalScore.simpleCards h.Cards 0).1)).2 :=
    (congrArg Hand.minScore hg).trans (by rw [hgc])
  have hok2 : ({ h with locked := true } : Hand).EvalScore.2 = none :=
    EvalScore_no_error _ hlen hcards
  have h2 := EvalScore_ok _ hok2
  simp only at h2
  rw [if_neg hle, ← hs, ← hm] at h2
  have hstick : h.Stick = ({ h with locked := true }, none) := by
    rw [Stick_unlocked h hl]
    exact Prod.ext h2 hok2
  refine ⟨hstick, ?_⟩
  simp only [Op.apply, hstick]

/-- C11 on the hand king, queen after scoring (20 and 20): `Stick` returns no
error and the hand is the same but locked. -/
theorem C11_stick_only_sets_locked_witness :
    (openHand [⟨SuitSpade, ValueKing⟩, ⟨SuitDiamond, ValueQueen⟩]).EvalScore.1.Stick
      = ({ Cards := [⟨SuitSpade, ValueKing⟩, ⟨SuitDiamond, ValueQueen⟩], Table := some 0,
           Player := some 0, score := 20, minScore := 20, locked := true, valid := true },
         none) :=
  (C11_stick_only_sets_locked (gameHeap none 1)
    (openHand [⟨SuitSpade, ValueKing⟩, ⟨SuitDiamond, ValueQueen⟩])
    (openHand [⟨SuitSpade, ValueKing⟩, ⟨SuitDiamond, ValueQueen⟩]).EvalScore.1
    rfl (by decide) (by decide) (by decide) (by decide)).1.trans (by decide)

/-- C12: on a hand that is already locked `Stick` fails with `ErrHandLocked` and
returns the hand as it was, scores included; and of two `Stick` calls in a row
on any hand the second fails with `ErrHandLocked` and changes nothing. -/
theorem C12_stick_on_locked_hand (h : Hand) :
    (h.locked = true → h.Stick = (h, some Error.ErrHandLocked)) ∧
    h.Stick.1.Stick = (h.Stick.1, some Error.ErrHandLocked) :=
  ⟨Stick_locked h, Stick_locked _ (Stick_leaves_locked h)⟩

/-- C12 on the scored hand king, queen: the first `Stick` succeeds, the second
fails with `ErrHandLocked` and leaves score 20 and the other fields alone. -/
theorem C12_stick_on_locked_hand_witness :
    (openHand [⟨SuitSpade, ValueKing⟩, ⟨SuitDiamond, ValueQueen⟩]).Stick.2 = none ∧
    (openHand [⟨SuitSpade, ValueKing⟩, ⟨SuitDiamond, ValueQueen⟩]).Stick.1.Stick
      = ({ Cards := [⟨SuitSpade, ValueKing⟩, ⟨SuitDiamond, ValueQueen⟩], Table := some 0,
           Player := some 0, score := 20, minScore := 20, locked := true, valid := true },
         some Error.ErrHandLocked) :=
  ⟨by decide,
   (C12_stick_on_locked_hand
      (openHand [⟨SuitSpade, ValueKing⟩, ⟨SuitDiamond, ValueQueen⟩])).2.trans (by decide)⟩

/-- C13 as stated fails: the hand king, queen scored at 20 and 20, with its cards
then replaced by king, joker, fails `EvalScore` with `ErrInvalidCard`, and the
call leaves best score 10 and worst score 0, not 20 and 20. -/
theorem C13_failed_evalScore_overwrites_scores :
    ({ (openHand [⟨SuitSpade, ValueKing⟩, ⟨SuitDiamond, ValueQueen⟩]).EvalScore.1 with
        Cards := [⟨SuitSpade, ValueKing⟩, ⟨SuitJoker, ValueJoker⟩] } : Hand).score = 20 ∧
    ({ (openHand [⟨SuitSpade, ValueKing⟩, ⟨SuitDiamond, ValueQueen⟩]).EvalScore.1 with
        Cards := [⟨SuitSpade, ValueKing⟩, ⟨SuitJoker, ValueJoker⟩] } : Hand).minScore = 20 ∧
    ({ (openHand [⟨SuitSpade, ValueKing⟩, ⟨SuitDiamond, ValueQueen⟩]).EvalScore.1 with
        Cards := [⟨SuitSpade, ValueKing⟩, ⟨SuitJoker, ValueJoker⟩] } : Hand).EvalScore.2
      = some Error.ErrInvalidCard ∧
    ({ (openHand [⟨SuitSpade, ValueKing⟩, ⟨SuitDiamond, ValueQueen⟩]).EvalScore.1 with
        Cards := [⟨SuitSpade, ValueKing⟩, ⟨SuitJoker, ValueJoker⟩] } : Hand).EvalScore.1.score
      = 10 ∧
    ({ (openHand [⟨SuitSpade, ValueKing⟩, ⟨SuitDiamond, ValueQueen⟩]).EvalScore.1 with
        Cards := [⟨SuitSpade, ValueKing⟩, ⟨SuitJoker, ValueJoker⟩] } : Hand).EvalScore.1.minScore
      = 0 := by
  decide

/-- C13, amended: whenever `EvalScore` fails, the cards, the pointers and the
locked and valid flags of the hand are exactly what they were before the call,
while the cached scores are overwritten: the worst score is 0, and the best
score is 0 after `ErrHandInvalid` and, after `ErrInvalidCard`, the sum of the
hard values of the non-ace cards that precede the first joker or invalid card. -/
theorem C13_failed_evalScore_state (h : Hand) (hfail : h.EvalScore.2 ≠ none) :
    h.EvalScore.1.Cards = h.Cards ∧ h.EvalScore.1.Table = h.Table ∧
    h.EvalScore.1.Player = h.Player ∧
    h.EvalScore.1.locked = h.locked ∧ h.EvalScore.1.valid = h.valid ∧
    h.EvalScore.1.minScore = 0 ∧
    (h.EvalScore.2 = some Error.ErrHandInvalid → h.EvalScore.1.score = 0) ∧
    (h.EvalScore.2 = some Error.ErrInvalidCard →
      h.EvalScore.1.score = scoredBeforeFirstBadCard h.Cards) := by
  have hst := EvalScore_failed h hfail
  refine ⟨by rw [hst], by rw [hst], by rw [hst], by rw [hst], by rw [hst], by rw [hst], ?_, ?_⟩
  · intro he
    rw [EvalScore_error] at he
    by_cases hlt : h.Cards.length < 2
    · rw [hst]; simp [hlt]
    · by_cases hf : (EvalScore.simpleCards h.Cards 0).2 = true <;> simp [hlt, hf] at he
  · intro he
    rw [EvalScore_error] at he
    by_cases hlt : h.Cards.length < 2
    · simp [hlt] at he
    · rw [hst]
      simp only [hlt, if_false]
      rw [simpleCards_running_sum]
      ring

/-- C13, amended, on the hand ten, joker, king with stale scores 5 and 5:
`EvalScore` fails with `ErrInvalidCard`, keeps the flags, and leaves best score
10 (the ten before the joker) and worst score 0. -/
theorem C13_failed_evalScore_state_witness :
    ({ openHand [⟨SuitClub, ValueTen⟩, ⟨SuitJoker, ValueJoker⟩, ⟨SuitSpade, ValueKing⟩] with
        score := 5, minScore := 5 } : Hand).EvalScore.2 = some Error.ErrInvalidCard ∧
    ({ openHand [⟨SuitClub, ValueTen⟩, ⟨SuitJoker, ValueJoker⟩, ⟨SuitSpade, ValueKing⟩] with
        score := 5, minScore := 5 } : Hand).EvalScore.1.valid = true ∧
    ({ openHand [⟨SuitClub, ValueTen⟩, ⟨SuitJoker, ValueJoker⟩, ⟨SuitSpade, ValueKing⟩] with
        score := 5, minScore := 5 } : Hand).EvalScore.1.minScore = 0 ∧
    ({ openHand [⟨SuitClub, ValueTen⟩, ⟨SuitJoker, ValueJoker⟩, ⟨SuitSpade, ValueKing⟩] with
        score := 5, minScore := 5 } : Hand).EvalScore.1.score = 10 :=
  have w := C13_failed_evalScore_state
    ({ openHand [⟨SuitClub, ValueTen⟩, ⟨SuitJoker, ValueJoker⟩, ⟨SuitSpade, ValueKing⟩] with
        score := 5, minScore := 5 } : Hand) (by decide)
  ⟨by decide, w.2.2.2.2.1, w.2.2.2.2.2.1, (w.2.2.2.2.2.2.2 (by decide)).trans (by decide)⟩

/-- C14: `EvalScore` does not depend on the order of the cards. For a hand and
any rearrangement of its cards, the error returned is the same, and when there
is no error the stored best score, worst score, valid flag and locked flag are
the same. -/
theorem C14_evalScore_order_invariant (h : Hand) (cards : List Card)
    (hperm : List.Perm cards h.Cards) :
    ({ h with Cards := cards } : Hand).EvalScore.2 = h.EvalScore.2 ∧
    (h.EvalScore.2 = none →
      ({ h with Cards := cards } : Hand).EvalScore.1.score = h.EvalScore.1.score ∧
      ({ h with Cards := cards } : Hand).EvalScore.1.minScore = h.EvalScore.1.minScore ∧
      ({ h with Cards := cards } : Hand).EvalScore.1.valid = h.EvalScore.1.valid ∧
      ({ h with Cards := cards } : Hand).EvalScore.1.locked = h.EvalScore.1.locked) := by
  have herr : ({ h with Cards := cards } : Hand).EvalScore.2 = h.EvalScore.2 := by
    rw [EvalScore_error, EvalScore_error]
    have hlen : cards.length = h.Cards.length := hperm.length_eq
    have hflag : (EvalScore.simpleCards cards 0).2 = true ↔
        (EvalScore.simpleCards h.Cards 0).2 = true := by
      rw [simpleCards_flag, simpleCards_flag]
      constructor
      · rintro ⟨c, hc, hn⟩; exact ⟨c, hperm.mem_iff.1 hc, hn⟩
      · rintro ⟨c, hc, hn⟩; exact ⟨c, hperm.mem_iff.2 hc, hn⟩
    simp only [hlen]
    by_cases hf : (EvalScore.simpleCards h.Cards 0).2 = true
    · rw [if_pos hf, if_pos (hflag.2 hf)]
    · rw [if_neg hf, if_neg (fun hc => hf (hflag.1 hc))]
  refine ⟨herr, fun hok => ?_⟩
  have hok1 : ({ h with Cards := cards } : Hand).EvalScore.2 = none := herr.trans hok
  have hloops := loops_perm cards h.Cards hperm (EvalScore_ok_scorable h hok).2
  rw [EvalScore_ok _ hok1, EvalScore_ok h hok]
  simp only
  rw [hloops]
  split <;> exact ⟨rfl, rfl, rfl, rfl⟩

/-- C14 on nine, ace, ace: with the nine first, in the middle or last the hand
scores 21 and stays valid. -/
theorem C14_evalScore_order_invariant_witness :
    (openHand [⟨SuitSpade, ValueNine⟩, ⟨SuitSpade, ValueAce⟩, ⟨SuitHeart, ValueAce⟩]).EvalScore.1.score
      = 21 ∧
    (openHand [⟨SuitSpade, ValueAce⟩, ⟨SuitSpade, ValueNine⟩, ⟨SuitHeart, ValueAce⟩]).EvalScore.1.score
      = 21 ∧
    (openHand [⟨SuitHeart, ValueAce⟩, ⟨SuitSpade, ValueAce⟩, ⟨SuitSpade, ValueNine⟩]).EvalScore.1.score
      = 21 ∧
    (openHand [⟨SuitHeart, ValueAce⟩, ⟨SuitSpade, ValueAce⟩, ⟨SuitSpade, ValueNine⟩]).EvalScore.1.valid
      = true :=
  have base : (openHand [⟨SuitSpade, ValueNine⟩, ⟨SuitSpade, ValueAce⟩,
      ⟨SuitHeart, ValueAce⟩]).EvalScore.1.score = 21 := by decide
  have w1 := (C14_evalScore_order_invariant
    (openHand [⟨SuitSpade, ValueNine⟩, ⟨SuitSpade, ValueAce⟩, ⟨SuitHeart, ValueAce⟩])
    [⟨SuitSpade, ValueAce⟩, ⟨SuitSpade, ValueNine⟩, ⟨SuitHeart, ValueAce⟩]
    (by decide)).2 (by decide)
  have w2 := (C14_evalScore_order_invariant
    (openHand [⟨SuitSpade, ValueNine⟩, ⟨SuitSpade, ValueAce⟩, ⟨SuitHeart, ValueAce⟩])
    [⟨SuitHeart, ValueAce⟩, ⟨SuitSpade, ValueAce⟩, ⟨SuitSpade, ValueNine⟩]
    (by decide)).2 (by decide)
  ⟨base, w1.1.trans base, w2.1.trans base, w2.2.2.1.trans (by decide)⟩

end blackjack

/-! ## Lemmas on the table operations -/

namespace blackjack

open playdeck

theorem clearHands_foldl (ps : List Ref) (σ : Heap) :
    (ps.foldl (fun σ p => Player.clearHands σ p) σ).decks = σ.decks ∧
    (ps.foldl (fun σ p => Player.clearHands σ p) σ).tables = σ.tables ∧
    ∀ q, (ps.foldl (fun σ p => Player.clearHands σ p) σ).players q =
      if q ∈ ps then { σ.players q with Hands := [] } else σ.players q := by
  induction ps generalizing σ with
  | nil => simp
  | cons p ps ih =>
    simp only [List.foldl_cons]
    obtain ⟨h1, h2, h3⟩ := ih (Player.clearHands σ p)
    refine ⟨h1, h2, fun q => ?_⟩
    rw [h3 q]
    by_cases hq : q ∈ ps
    · by_cases hqp : q = p
      · subst hqp
        simp [hq, Player.clearHands]
      · simp [hq, hqp, Player.clearHands, Function.update_noteq hqp]
    · by_cases hqp : q = p
      · subst hqp
        simp [hq, Player.clearHands]
      · simp [hq, hqp, Player.clearHands, Function.update_noteq hqp]

theorem Reset_fails (σ : Heap) (t : Ref)
    (hps : (σ.tables t).playState ≠ 0 ∧ (σ.tables t).playState ≠ 3) :
    Table.Reset σ t = (σ, some Error.ErrTableInPlay) := by
  unfold Table.Reset
  simp [hps.1, hps.2]

/-- The heap a successful `Reset` leaves, field by field. -/
theorem Reset_succeeds (σ : Heap) (t : Ref)
    (hps : (σ.tables t).playState = 0 ∨ (σ.tables t).playState = 3) :
    (Table.Reset σ t).2 = none ∧
    (Table.Reset σ t).1.decks = σ.decks ∧
    (Table.Reset σ t).1.tables =
      Function.update σ.tables t { σ.tables t with playState := 0 } ∧
    ∀ q, (Table.Reset σ t).1.players q =
      if q ∈ (σ.tables t).Players then { σ.players q with Hands := [] } else σ.players q := by
  obtain ⟨h1, h2, h3⟩ := clearHands_foldl (σ.tables t).Players σ
  have hguard : (!((σ.tables t).playState == 3 || (σ.tables t).playState == 0)) = false := by
    rcases hps with h | h <;> simp [h]
  have heq : Table.Reset σ t =
      ({ (σ.tables t).Players.foldl (fun σ p => Player.clearHands σ p) σ with
          tables := Function.update
            ((σ.tables t).Players.foldl (fun σ p => Player.clearHands σ p) σ).tables t
            { ((σ.tables t).Players.foldl (fun σ p => Player.clearHands σ p) σ).tables t with
              playState := 0 } }, none) := by
    unfold Table.Reset
    simp only [hguard, Bool.false_eq_true, if_false]
  rw [heq]
  refine ⟨rfl, h1, ?_, h3⟩
  simp only [h2]

end blackjack

/-! ## Table operations: claims C16, C18, C19, C20 -/

namespace blackjack

open playdeck

/-- C16: on a table whose play state is InPlay (1), `Deal` returns the one-error
list with `ErrTableInPlay` and nothing is redealt: the whole heap (the deck, the
hands of every player with their cards, the play state) is as it was. -/
theorem C16_deal_on_table_in_play (σ : Heap) (t newDeck : Ref) (rnd : Nat → Nat)
    (hps : (σ.tables t).playState = 1) :
    Table.Deal σ t newDeck rnd = some (σ, [Error.ErrTableInPlay]) := by
  unfold Table.Deal
  rw [Reset_fails σ t (by rw [hps]; exact ⟨by decide, by decide⟩)]

/-- C16 on a table in play with one seated player. -/
theorem C16_deal_on_table_in_play_witness :
    Table.Deal (gameHeap (some [⟨SuitSpade, ValueKing⟩]) 1) 0 1 (fun _ => 0)
      = some (gameHeap (some [⟨SuitSpade, ValueKing⟩]) 1, [Error.ErrTableInPlay]) :=
  C16_deal_on_table_in_play (gameHeap (some [⟨SuitSpade, ValueKing⟩]) 1) 0 1 (fun _ => 0) rfl

/-- C18: `EndRound` fails with `ErrTableNotInPlay` exactly when the play state is
not 1; with play state 1 it fails with `ErrHandNotLocked` exactly when some hand
of some player of the table is not locked; with play state 1 and every such hand
locked it succeeds and only sets the play state of this table to 3. On a failure
the heap is as it was, and in every case all players with their hands, and all
decks, are as they were. -/
theorem C18_endRound (σ : Heap) (t : Ref) :
    ((Table.EndRound σ t).2 = some Error.ErrTableNotInPlay ↔ (σ.tables t).playState ≠ 1) ∧
    ((σ.tables t).playState = 1 →
      ((Table.EndRound σ t).2 = some Error.ErrHandNotLocked ↔
        ∃ p ∈ (σ.tables t).Players, ∃ h ∈ (σ.players p).Hands, h.locked = false)) ∧
    ((σ.tables t).playState = 1 →
      (∀ p ∈ (σ.tables t).Players, ∀ h ∈ (σ.players p).Hands, h.locked = true) →
      Table.EndRound σ t =
        ({ σ with tables := Function.update σ.tables t { σ.tables t with playState := 3 } },
          none)) ∧
    ((Table.EndRound σ t).2 ≠ none → (Table.EndRound σ t).1 = σ) ∧
    (Table.EndRound σ t).1.players = σ.players ∧
    (Table.EndRound σ t).1.decks = σ.decks := by
  have hany : ((σ.tables t).Players.any
      (fun p => (σ.players p).Hands.any (fun h => !h.locked))) = true ↔
      ∃ p ∈ (σ.tables t).Players, ∃ h ∈ (σ.players p).Hands, h.locked = false := by
    simp [List.any_eq_true]
  by_cases hps : (σ.tables t).playState = 1
  · by_cases ha : ((σ.tables t).Players.any
        (fun p => (σ.players p).Hands.any (fun h => !h.locked))) = true
    · have heq : Table.EndRound σ t = (σ, some Error.ErrHandNotLocked) := by
        unfold Table.EndRound
        simp only [hps, bne_self_eq_false, Bool.false_eq_true, if_false, ha, if_true]
      rw [heq]
      refine ⟨by simp [hps], fun _ => ?_, fun _ hall => ?_, fun _ => rfl, rfl, rfl⟩
      · simp only [true_iff]
        exact hany.1 ha
      · exfalso
        obtain ⟨p, hp, h, hh, hl⟩ := hany.1 ha
        rw [hall p hp h hh] at hl
        exact Bool.noConfusion hl
    · have heq : Table.EndRound σ t =
          ({ σ with tables := Function.update σ.tables t { σ.tables t with playState := 3 } },
            none) := by
        unfold Table.EndRound
        simp only [hps, bne_self_eq_false, Bool.false_eq_true, if_false, ha]
      rw [heq]
      refine ⟨by simp [hps], fun _ => ?_, fun _ _ => rfl, fun hne => absurd rfl hne, rfl, rfl⟩
      constructor
      · intro hc; exact absurd hc (by simp)
      · intro hex; exact absurd (hany.2 hex) ha
  · have hne : ((σ.tables t).playState != 1) = true := by simpa using hps
    have heq : Table.EndRound σ t = (σ, some Error.ErrTableNotInPlay) := by
      unfold Table.EndRound
      simp only [hne, if_true]
    rw [heq]
    exact ⟨by simp [hps], fun h => absurd h hps, fun h => absurd h hps, fun _ => rfl, rfl, rfl⟩

/-- C18 on two states of the one-player table: not in play, `EndRound` fails with
`ErrTableNotInPlay`; in play with the player holding no open hand, it succeeds
and the play state becomes 3. -/
theorem C18_endRound_witness :
    (Table.EndRound (gameHeap none 0) 0).2 = some Error.ErrTableNotInPlay ∧
    (Table.EndRound (gameHeap none 1) 0).2 = none ∧
    ((Table.EndRound (gameHeap none 1) 0).1.tables 0).playState = 3 :=
  ⟨(C18_endRound (gameHeap none 0) 0).1.2 (by decide),
   congrArg Prod.snd ((C18_endRound (gameHeap none 1) 0).2.2.1 rfl (by decide)),
   (congrArg (fun r : Heap × Option Error => (r.1.tables 0).playState)
      ((C18_endRound (gameHeap none 1) 0).2.2.1 rfl (by decide))).trans (by decide)⟩

/-- C19: `Join` fails with `ErrTableInPlay` whenever the play state is not 0,
member or not; with play state 0 it fails with `ErrTablePlayerAlreadyJoined`
when the player is already in the player list; otherwise it succeeds, appends
the player at the end of the list, sets the table pointer of the player to this
table and changes nothing else. On either failure the heap is as it was. A
player list without repeats stays without repeats. -/
theorem C19_join (σ : Heap) (t p : Ref) :
    ((σ.tables t).playState ≠ 0 → Table.Join σ t p = (σ, some Error.ErrTableInPlay)) ∧
    ((σ.tables t).playState = 0 → p ∈ (σ.tables t).Players →
      Table.Join σ t p = (σ, some Error.ErrTablePlayerAlreadyJoined)) ∧
    ((σ.tables t).playState = 0 → p ∉ (σ.tables t).Players →
      (Table.Join σ t p).2 = none ∧
      ((Table.Join σ t p).1.tables t).Players = (σ.tables t).Players ++ [p] ∧
      ((Table.Join σ t p).1.players p).Table = some t ∧
      ((Table.Join σ t p).1.players p).Hands = (σ.players p).Hands ∧
      ((Table.Join σ t p).1.tables t).playState = 0 ∧
      ((Table.Join σ t p).1.tables t).Deck = (σ.tables t).Deck ∧
      ((Table.Join σ t p).1.tables t).sDecks = (σ.tables t).sDecks ∧
      (∀ t1, t1 ≠ t → (Table.Join σ t p).1.tables t1 = σ.tables t1) ∧
      (∀ q, q ≠ p → (Table.Join σ t p).1.players q = σ.players q) ∧
      (Table.Join σ t p).1.decks = σ.decks) ∧
    (∀ t1, (σ.tables t1).Players.Nodup → ((Table.Join σ t p).1.tables t1).Players.Nodup) := by
  have hany : ((σ.tables t).Players.any (fun tp => p == tp)) = true ↔
      p ∈ (σ.tables t).Players := by
    simp [List.any_eq_true]
  by_cases hps : (σ.tables t).playState = 0
  · by_cases hmem : p ∈ (σ.tables t).Players
    · have heq : Table.Join σ t p = (σ, some Error.ErrTablePlayerAlreadyJoined) := by
        unfold Table.Join
        simp only [hps, bne_self_eq_false, Bool.false_eq_true, if_false, hany.2 hmem, if_true]
      rw [heq]
      exact ⟨fun h => absurd hps h, fun _ _ => rfl, fun _ h => absurd hmem h, fun _ h => h⟩
    · have hnot : ¬ ((σ.tables t).Players.any (fun tp => p == tp)) = true :=
        fun h => hmem (hany.1 h)
      have heq : Table.Join σ t p =
          ({ σ with
              tables := Function.update σ.tables t
                { σ.tables t with Players := (σ.tables t).Players ++ [p] },
              players := Function.update σ.players p { σ.players p with Table := some t } },
            none) := by
        unfold Table.Join
        simp only [hps, bne_self_eq_false, Bool.false_eq_true, if_false, hnot]
      rw [heq]
      refine ⟨fun h => absurd hps h, fun _ h => absurd h hmem, fun _ _ => ?_, fun t1 hnd => ?_⟩
      · refine ⟨rfl, by simp, by simp, by simp, by simp [hps], by simp, by simp, ?_, ?_, rfl⟩
        · intro t1 ht1; simp [Function.update_noteq ht1]
        · intro q hq; simp [Function.update_noteq hq]
      · by_cases ht1 : t1 = t
        · subst ht1
          simp only [Function.update_same]
          exact List.Nodup.append hnd (List.nodup_singleton p)
            (by simpa [List.disjoint_singleton] using hmem)
        · simp only [Function.update_noteq ht1]
          exact hnd
  · have hne : ((σ.tables t).playState != 0) = true := by simpa using hps
    have heq : Table.Join σ t p = (σ, some Error.ErrTableInPlay) := by
      unfold Table.Join
      simp only [hne, if_true]
    rw [heq]
    exact ⟨fun _ => rfl, fun h => absurd h hps, fun h => absurd h hps, fun _ h => h⟩

/-- C19 on the one-player table not in play: a new player 5 joins and becomes
the second entry; player 0, already seated, gets `ErrTablePlayerAlreadyJoined`;
on the same table in play player 0 gets `ErrTableInPlay`. -/
theorem C19_join_witness :
    (Table.Join (gameHeap none 0) 0 5).2 = none ∧
    ((Table.Join (gameHeap none 0) 0 5).1.tables 0).Players = [0, 5] ∧
    ((Table.Join (gameHeap none 0) 0 5).1.players 5).Table = some 0 ∧
    (Table.Join (gameHeap none 0) 0 0).2 = some Error.ErrTablePlayerAlreadyJoined ∧
    (Table.Join (gameHeap none 1) 0 0).2 = some Error.ErrTableInPlay :=
  have w := (C19_join (gameHeap none 0) 0 5).2.2.1 rfl (by decide)
  ⟨w.1, w.2.1, w.2.2.1,
   congrArg Prod.snd ((C19_join (gameHeap none 0) 0 0).2.1 rfl (by decide)),
   congrArg Prod.snd ((C19_join (gameHeap none 1) 0 0).1 (by decide))⟩

/-- C20: `Reset` fails with `ErrTableInPlay` exactly when the play state is
neither 0 nor 3, and then the heap is as it was; otherwise it returns no error,
every player of the table has an empty hand collection, the play state is 0,
and the player list, the deck pointer, the pack count, every deck, every other
table, the table pointer of every player and every player not at the table are
as they were. -/
theorem C20_reset (σ : Heap) (t : Ref) :
    ((Table.Reset σ t).2 = some Error.ErrTableInPlay ↔
      ((σ.tables t).playState ≠ 0 ∧ (σ.tables t).playState ≠ 3)) ∧
    ((Table.Reset σ t).2 = some Error.ErrTableInPlay → (Table.Reset σ t).1 = σ) ∧
    ((Table.Reset σ t).2 = none ↔
      ((σ.tables t).playState = 0 ∨ (σ.tables t).playState = 3)) ∧
    ((Table.Reset σ t).2 = none →
      (∀ p ∈ (σ.tables t).Players, ((Table.Reset σ t).1.players p).Hands = []) ∧
      ((Table.Reset σ t).1.tables t).playState = 0 ∧
      ((Table.Reset σ t).1.tables t).Players = (σ.tables t).Players ∧
      ((Table.Reset σ t).1.tables t).Deck = (σ.tables t).Deck ∧
      ((Table.Reset σ t).1.tables t).sDecks = (σ.tables t).sDecks ∧
      (Table.Reset σ t).1.decks = σ.decks ∧
      (∀ t1, t1 ≠ t → (Table.Reset σ t).1.tables t1 = σ.tables t1) ∧
      (∀ q, ((Table.Reset σ t).1.players q).Table = (σ.players q).Table) ∧
      (∀ q, q ∉ (σ.tables t).Players → (Table.Reset σ t).1.players q = σ.players q)) := by
  by_cases hps : (σ.tables t).playState = 0 ∨ (σ.tables t).playState = 3
  · obtain ⟨h1, h2, h3, h4⟩ := Reset_succeeds σ t hps
    have hnot : ¬ ((σ.tables t).playState ≠ 0 ∧ (σ.tables t).playState ≠ 3) := by
      rintro ⟨ha, hb⟩
      rcases hps with h | h
      · exact ha h
      · exact hb h
    refine ⟨?_, ?_, ?_, fun _ => ⟨?_, ?_, ?_, ?_, ?_, h2, ?_, ?_, ?_⟩⟩
    · rw [h1]; simp [hnot]
    · rw [h1]; intro hc; exact absurd hc (by simp)
    · rw [h1]; simp [hps]
    · intro p hp; rw [h4 p]; simp [hp]
    · rw [h3]; simp
    · rw [h3]; simp
    · rw [h3]; simp
    · rw [h3]; simp
    · intro t1 ht1; rw [h3]; simp [Function.update_noteq ht1]
    · intro q; rw [h4 q]; split <;> rfl
    · intro q hq; rw [h4 q]; simp [hq]
  · have hboth : (σ.tables t).playState ≠ 0 ∧ (σ.tables t).playState ≠ 3 := by
      constructor
      · intro h; exact hps (Or.inl h)
      · intro h; exact hps (Or.inr h)
    rw [Reset_fails σ t hboth]
    refine ⟨by simp [hboth], fun _ => rfl, ?_, fun hc => absurd hc (by simp)⟩
    constructor
    · intro hc; exact absurd hc (by simp)
    · intro h; exact absurd h hps

/-- C20 on the one-player table: in play, `Reset` fails with `ErrTableInPlay`; in
the end state 3, with the player holding a hand, it succeeds, the player has no
hand left and the play state is 0. -/
theorem C20_reset_witness :
    (Table.Reset (gameHeap none 1) 0).2 = some Error.ErrTableInPlay ∧
    (Table.Reset
      { gameHeap none 3 with
          players := fun _ => { Table := some 0, Hands := [openHand []] } } 0).2 = none ∧
    ((Table.Reset
      { gameHeap none 3 with
          players := fun _ => { Table := some 0, Hands := [openHand []] } } 0).1.players 0).Hands
      = [] ∧
    ((Table.Reset
      { gameHeap none 3 with
          players := fun _ => { Table := some 0, Hands := [openHand []] } } 0).1.tables 0).playState
      = 0 :=
  have hok := (C20_reset
      { gameHeap none 3 with
          players := fun _ => { Table := some 0, Hands := [openHand []] } } 0).2.2.1.2
      (Or.inr rfl)
  have w := (C20_reset
      { gameHeap none 3 with
          players := fun _ => { Table := some 0, Hands := [openHand []] } } 0).2.2.2 hok
  ⟨(C20_reset (gameHeap none 1) 0).1.2 (by decide), hok, w.1 0 (by decide), w.2.1⟩

end blackjack

/-! ## Lemmas for dealing -/

namespace blackjack

open playdeck

/-- Closed form of the ace loop from a running score that is not negative: the
first ace adds 11 when the score is at most 10, every other ace adds 1. -/
theorem iterate_aces_closed (k : Nat) (s m : Int) (hs : 0 ≤ s) :
    (fun q : Int × Int => (if q.1 ≤ 10 then q.1 + 11 else q.1 + 1, q.2 + 1))^[k] (s, m) =
      (if k = 0 then s else if s ≤ 10 then s + 10 + (k : Int) else s + (k : Int),
        m + (k : Int)) := by
  induction k generalizing s m with
  | zero => simp
  | succ k ih =>
    rw [Function.iterate_succ_apply]
    simp only
    by_cases h10 : s ≤ 10
    · rw [if_pos h10, ih (s + 11) (m + 1) (by omega)]
      by_cases hk : k = 0
      · subst hk; simp [h10]; ring
      · have h11 : ¬ (s + 11 ≤ 10) := by omega
        simp only [hk, if_false, h11, h10, if_true, Nat.succ_ne_zero, Nat.cast_succ]
        refine Prod.ext ?_ ?_ <;> simp <;> ring
    · rw [if_neg h10, ih (s + 1) (m + 1) (by omega)]
      by_cases hk : k = 0
      · subst hk; simp [h10]
      · have h11 : ¬ (s + 1 ≤ 10) := by omega
        simp only [hk, if_false, h11, h10, Nat.succ_ne_zero, Nat.cast_succ]
        refine Prod.ext ?_ ?_ <;> simp <;> ring

theorem EvalScore_ok_scores (h : Hand) (hok : h.EvalScore.2 = none) :
    h.EvalScore.1.score = (EvalScore.aces h.Cards
      ((EvalScore.simpleCards h.Cards 0).1, (EvalScore.simpleCards h.Cards 0).1)).1 ∧
    h.EvalScore.1.minScore = (EvalScore.aces h.Cards
      ((EvalScore.simpleCards h.Cards 0).1, (EvalScore.simpleCards h.Cards 0).1)).2 := by
  rw [EvalScore_ok h hok]
  simp only
  split <;> exact ⟨rfl, rfl⟩

theorem hardValue_bounds (c : Card) (hc : scorable c) :
    1 ≤ hardValue c ∧ hardValue c ≤ 10 ∧ (c.Value = 1 → hardValue c = 1) := by
  have hr := (scorable_iff c).1 hc
  unfold hardValue
  by_cases ha : c.Value = 1
  · simp [ha]
  · by_cases hlow : c.Value ≤ 10
    · have h2 : 2 ≤ c.Value := by omega
      simp only [ha, if_false, h2, hlow, and_self, if_true]
      refine ⟨by omega, by omega, fun h => absurd h (by simp)⟩
    · have h2 : 2 ≤ c.Value := by omega
      have h3 : 11 ≤ c.Value := by omega
      simp [ha, h2, hlow, h3, hr.2.1]

theorem nonAce_bounds (cs : List Card) (hsc : ∀ c ∈ cs, scorable c) :
    0 ≤ worstTotal cs - (aceCount cs : Int) ∧
    worstTotal cs - (aceCount cs : Int) ≤ 10 * ((cs.length : Int) - (aceCount cs : Int)) ∧
    aceCount cs ≤ cs.length := by
  induction cs with
  | nil => simp [worstTotal, aceCount]
  | cons c cs ih =>
    obtain ⟨i1, i2, i3⟩ := ih (fun x hx => hsc x (List.mem_cons_of_mem _ hx))
    obtain ⟨b1, b2, b3⟩ := hardValue_bounds c (hsc c (List.mem_cons_self _ _))
    have hw : worstTotal (c :: cs) = hardValue c + worstTotal cs := by
      simp [worstTotal]
    by_cases ha : c.Value = 1
    · have hk : aceCount (c :: cs) = aceCount cs + 1 := by
        simp [aceCount, List.countP_cons, ha]
      rw [hw, hk, b3 ha]
      simp only [List.length_cons, Nat.cast_succ, Nat.cast_add, Nat.cast_one]
      refine ⟨by omega, by omega, by omega⟩
    · have hk : aceCount (c :: cs) = aceCount cs := by
        simp [aceCount, List.countP_cons, ha]
      rw [hw, hk]
      simp only [List.length_cons, Nat.cast_succ]
      refine ⟨by omega, by omega, by omega⟩

/-- The scores `EvalScore` stores on at least 2 scorable cards: the worst score
is the hard total; the best score is 10 more when there is an ace and the
non-ace cards sum to at most 10, and the hard total otherwise. -/
theorem EvalScore_scores (h : Hand) (hlen : 2 ≤ h.Cards.length)
    (hsc : ∀ c ∈ h.Cards, scorable c) :
    h.EvalScore.1.minScore = worstTotal h.Cards ∧
    h.EvalScore.1.score =
      worstTotal h.Cards +
        (if 1 ≤ aceCount h.Cards ∧ worstTotal h.Cards - (aceCount h.Cards : Int) ≤ 10
          then 10 else 0) := by
  have hok := EvalScore_no_error h hlen hsc
  obtain ⟨b1, _, _⟩ := nonAce_bounds h.Cards hsc
  have hr : EvalScore.aces h.Cards
      ((EvalScore.simpleCards h.Cards 0).1, (EvalScore.simpleCards h.Cards 0).1) =
      (worstTotal h.Cards +
        (if 1 ≤ aceCount h.Cards ∧ worstTotal h.Cards - (aceCount h.Cards : Int) ≤ 10
          then 10 else 0), worstTotal h.Cards) := by
    rw [aces_eq_iterate, simpleCards_score h.Cards 0 hsc]
    simp only [zero_add]
    rw [iterate_aces_closed _ _ _ b1]
    by_cases hk : aceCount h.Cards = 0
    · simp [hk]
    · have hk1 : 1 ≤ aceCount h.Cards := Nat.one_le_iff_ne_zero.2 hk
      by_cases h10 : worstTotal h.Cards - (aceCount h.Cards : Int) ≤ 10
      · simp only [hk, if_false, h10, if_true, hk1, and_self]
        refine Prod.ext ?_ (by simp)
        simp
        ring
      · simp only [hk, if_false, h10, hk1, and_false]
        simp
  obtain ⟨e1, e2⟩ := EvalScore_ok_scores h hok
  rw [e1, e2, hr]
  exact ⟨rfl, rfl⟩

/-- Two scorable cards never score above 21, so `EvalScore` leaves the flags alone. -/
theorem EvalScore_two_cards (h : Hand) (hlen : h.Cards.length = 2)
    (hsc : ∀ c ∈ h.Cards, scorable c) :
    h.EvalScore.2 = none ∧ h.EvalScore.1.score ≤ 21 ∧
    h.EvalScore.1.valid = h.valid ∧ h.EvalScore.1.locked = h.locked := by
  have hok := EvalScore_no_error h (by omega) hsc
  obtain ⟨b1, b2, b3⟩ := nonAce_bounds h.Cards hsc
  obtain ⟨_, hs⟩ := EvalScore_scores h (by omega) hsc
  rw [hlen] at b2 b3
  have hle : h.EvalScore.1.score ≤ 21 := by
    rw [hs]
    split
    · rename_i hc
      obtain ⟨hc1, hc2⟩ := hc
      push_cast at b2
      omega
    · push_cast at b2
      omega
  refine ⟨hok, hle, ?_, ?_⟩
  · have hb := EvalScore_ok h hok
    simp only at hb
    by_cases hgt : (EvalScore.aces h.Cards
        ((EvalScore.simpleCards h.Cards 0).1, (EvalScore.simpleCards h.Cards 0).1)).1 > 21
    · rw [if_pos hgt] at hb
      have : h.EvalScore.1.score > 21 := by rw [hb]; exact hgt
      omega
    · rw [if_neg hgt] at hb
      rw [hb]
  · have hb := EvalScore_ok h hok
    simp only at hb
    by_cases hgt : (EvalScore.aces h.Cards
        ((EvalScore.simpleCards h.Cards 0).1, (EvalScore.simpleCards h.Cards 0).1)).1 > 21
    · rw [if_pos hgt] at hb
      have : h.EvalScore.1.score > 21 := by rw [hb]; exact hgt
      omega
    · rw [if_neg hgt] at hb
      rw [hb]

theorem appendErr_eq (err : List Error) (e : Option Error) :
    appendErr err e = err ++ e.toList := by
  cases e <;> simp [appendErr]

theorem addCard_drawn (σ : Heap) (h : Hand) (rnd : Nat) (t d : Ref) (cs : List Card)
    (hT : h.Table = some t) (hD : (σ.tables t).Deck = some d)
    (hc : (σ.decks d).Cards = some cs) (hne : cs ≠ []) :
    h.addCard σ rnd =
      some ({ σ with decks := Function.update σ.decks d ⟨some (cs.eraseIdx (rnd % cs.length))⟩ },
        { h with Cards := h.Cards ++ [cs.getD (rnd % cs.length) { Suit := 0, Value := 0 }] },
        none) := by
  unfold Hand.addCard
  simp only [hT, hD]
  rw [PullRandomCard_nonempty _ rnd cs hc hne]

theorem addCard_empty (σ : Heap) (h : Hand) (rnd : Nat) (t d : Ref)
    (hT : h.Table = some t) (hD : (σ.tables t).Deck = some d)
    (hc : (σ.decks d).Cards = some []) :
    h.addCard σ rnd = some (σ, h, some Error.ErrDeckEmpty) := by
  unfold Hand.addCard
  simp only [hT, hD]
  rw [PullRandomCard_empty _ rnd hc]
  simp only [heap_update_self]

theorem addCard_uninitialized (σ : Heap) (h : Hand) (rnd : Nat) (t d : Ref)
    (hT : h.Table = some t) (hD : (σ.tables t).Deck = some d)
    (hc : (σ.decks d).Cards = none) :
    h.addCard σ rnd = some (σ, h, some Error.ErrDeckUninitialized) := by
  unfold Hand.addCard
  simp only [hT, hD]
  have hp : (σ.decks d).PullRandomCard rnd =
      (σ.decks d, { Suit := 0, Value := 0 }, some Error.ErrDeckUninitialized) := by
    unfold Deck.PullRandomCard
    simp [hc]
  rw [hp]
  simp only [heap_update_self]

theorem addCard_no_deck (σ : Heap) (h : Hand) (rnd : Nat) (t : Ref)
    (hT : h.Table = some t) (hD : (σ.tables t).Deck = none) :
    h.addCard σ rnd = none := by
  unfold Hand.addCard
  simp only [hT, hD]

/-- One draw through `addCard` when the table of the hand has a deck: either a
card is appended to the hand, or the draw fails with a deck error and the hand
and the heap stay as they were. Tables and players are untouched either way. -/
theorem addCard_cases (σ : Heap) (h : Hand) (rnd : Nat) (t : Ref)
    (hT : h.Table = some t) (hD : (σ.tables t).Deck ≠ none) :
    ∃ σ1 h1 e, h.addCard σ rnd = some (σ1, h1, e) ∧
      σ1.tables = σ.tables ∧ σ1.players = σ.players ∧
      h1.Table = h.Table ∧ h1.Player = h.Player ∧
      e.toList.length + h1.Cards.length = h.Cards.length + 1 ∧
      (∀ x ∈ e.toList, x = Error.ErrDeckEmpty ∨ x = Error.ErrDeckUninitialized) := by
  cases hd : (σ.tables t).Deck with
  | none => exact absurd hd hD
  | some d =>
    cases hc : (σ.decks d).Cards with
    | none =>
      exact ⟨σ, h, some Error.ErrDeckUninitialized, addCard_uninitialized σ h rnd t d hT hd hc,
        rfl, rfl, rfl, rfl, by simp; omega, by simp⟩
    | some cs =>
      cases cs with
      | nil =>
        exact ⟨σ, h, some Error.ErrDeckEmpty, addCard_empty σ h rnd t d hT hd hc,
          rfl, rfl, rfl, rfl, by simp; omega, by simp⟩
      | cons c cs =>
        exact ⟨_, _, none, addCard_drawn σ h rnd t d (c :: cs) hT hd hc (by simp),
          rfl, rfl, rfl, rfl, by simp, by simp⟩

theorem pack_length : (NewDeckOfDecks.pack false).length = 52 := by
  decide

theorem pack_scorable : ∀ c ∈ NewDeckOfDecks.pack false, scorable c := by
  decide

theorem NewDeckOfDecks_cards (n : Int) :
    ∃ cs, (NewDeckOfDecks n false).Cards = some cs ∧ cs.length = 52 * n.toNat ∧
      ∀ c ∈ cs, scorable c := by
  refine ⟨_, rfl, ?_, ?_⟩
  · induction n.toNat with
    | zero => simp
    | succ k ih =>
      rw [List.replicate_succ, List.flatten_cons, List.length_append, ih, pack_length]
      omega
  · intro c hc
    rw [List.mem_flatten] at hc
    obtain ⟨l, hl, hcl⟩ := hc
    rw [List.eq_of_mem_replicate hl] at hcl
    exact pack_scorable c hcl

theorem EvalScore_error_idem (h : Hand) : h.EvalScore.1.EvalScore.2 = h.EvalScore.2 := by
  rw [EvalScore_error, EvalScore_error h, (EvalScore_frame h).1]

theorem Player_newHand_seated (σ : Heap) (p t : Ref) (hpT : (σ.players p).Table = some t) :
    Player.newHand σ p =
      ({ σ with
          players := Function.update σ.players p
            { σ.players p with
              Hands := (σ.players p).Hands ++
                [{ Hand.zero with Table := some t, Player := some p, valid := true }] } },
        { Hand.zero with Table := some t, Player := some p, valid := true }, none) := by
  unfold Player.newHand newHand
  simp only [hpT]

theorem Player_newHand_tableless (σ : Heap) (p : Ref) (hpT : (σ.players p).Table = none) :
    Player.newHand σ p =
      ({ σ with
          players := Function.update σ.players p
            { σ.players p with Hands := (σ.players p).Hands ++ [Hand.zero] } },
        Hand.zero, some Error.ErrPlayerNoTable) := by
  unfold Player.newHand newHand
  simp only [hpT]

/-- The loop body of `Deal` for a player without a table: the zero hand is
appended to the hands of the player and `ErrPlayerNoTable` is recorded. -/
theorem Deal_player_tableless (σ : Heap) (p : Ref) (r0 r1 : Nat) (err : List Error)
    (hpT : (σ.players p).Table = none) :
    Deal.player σ p r0 r1 err =
      some ({ σ with
          players := Function.update σ.players p
            { σ.players p with Hands := (σ.players p).Hands ++ [Hand.zero] } },
        err ++ [Error.ErrPlayerNoTable]) := by
  unfold Deal.player
  rw [Player_newHand_tableless σ p hpT]

/-- The loop body of `Deal` for a player seated at a table that has a deck: a
hand of the player is created, two draws are attempted, the hand is scored, and
the errors recorded are one per failed draw followed by the scoring error. -/
theorem Deal_player_seated (σ : Heap) (p : Ref) (r0 r1 : Nat) (err : List Error) (t1 : Ref)
    (hpT : (σ.players p).Table = some t1) (hD : (σ.tables t1).Deck ≠ none) :
    ∃ σ1 h draws,
      Deal.player σ p r0 r1 err = some (σ1, err ++ (draws ++ h.EvalScore.2.toList)) ∧
      σ1.tables = σ.tables ∧
      σ1.players = Function.update σ.players p
        { σ.players p with Hands := (σ.players p).Hands ++ [h] } ∧
      draws.length + h.Cards.length = 2 ∧
      (∀ e ∈ draws, e = Error.ErrDeckEmpty ∨ e = Error.ErrDeckUninitialized) ∧
      h.Table = some t1 ∧ h.Player = some p := by
  obtain ⟨σ2, h1, e0, hadd0, ht2, hp2, hT1, hP1, hl1, he0⟩ :=
    addCard_cases
      { σ with
          players := Function.update σ.players p
            { σ.players p with
              Hands := (σ.players p).Hands ++
                [{ Hand.zero with Table := some t1, Player := some p, valid := true }] } }
      { Hand.zero with Table := some t1, Player := some p, valid := true } r0 t1 rfl hD
  obtain ⟨σ3, h2, e1, hadd1, ht3, hp3, hT2, hP2, hl2, he1⟩ :=
    addCard_cases σ2 h1 r1 t1 hT1 (by rw [ht2]; exact hD)
  refine ⟨Player.setNewestHand σ3 p h2.EvalScore.1, h2.EvalScore.1,
    e0.toList ++ e1.toList, ?_, ?_, ?_, ?_, ?_, ?_, ?_⟩
  · unfold Deal.player
    rw [Player_newHand_seated σ p t1 hpT]
    simp only [hadd0, hadd1, appendErr_eq, EvalScore_error_idem, List.append_assoc]
  · simp only [Player.setNewestHand, ht3, ht2]
  · simp only [Player.setNewestHand, hp3, hp2, Function.update_same, List.dropLast_concat,
      Function.update_idem]
  · rw [(EvalScore_frame h2).1]
    simp only [List.length_append]
    simp only [Hand.zero, List.length_nil] at hl1
    omega
  · intro e he
    rcases List.mem_append.1 he with h | h
    · exact he0 e h
    · exact he1 e h
  · rw [(EvalScore_frame h2).2.1, hT2, hT1]
  · rw [(EvalScore_frame h2).2.2, hP2, hP1]

/-- One turn of the player loop of `Deal`, for a player who has no table or
whose table has a deck: a hand is appended to the hands of that player, nothing
else changes among tables and players, and the errors recorded are the own
errors of that player. -/
theorem Deal_player_step (σ : Heap) (p : Ref) (r0 r1 : Nat) (err : List Error)
    (hdeck : ∀ t1, (σ.players p).Table = some t1 → (σ.tables t1).Deck ≠ none) :
    ∃ σ1 seg hnew, Deal.player σ p r0 r1 err = some (σ1, err ++ seg) ∧
      σ1.tables = σ.tables ∧
      σ1.players = Function.update σ.players p
        { σ.players p with Hands := (σ.players p).Hands ++ [hnew] } ∧
      ownDealErrors σ σ1 p seg := by
  cases hpT : (σ.players p).Table with
  | none =>
    refine ⟨_, [Error.ErrPlayerNoTable], Hand.zero, Deal_player_tableless σ p r0 r1 err hpT,
      rfl, rfl, ?_, ?_⟩
    · intro _
      exact ⟨rfl, by simp⟩
    · intro hne
      exact absurd hpT hne
  | some t1 =>
    obtain ⟨σ1, h, draws, hrun, ht, hp, hlen, hd, _, hP⟩ :=
      Deal_player_seated σ p r0 r1 err t1 hpT (hdeck t1 hpT)
    refine ⟨σ1, draws ++ h.EvalScore.2.toList, h, hrun, ht, hp, ?_, ?_⟩
    · intro hc
      rw [hpT] at hc
      exact absurd hc (by simp)
    · intro _
      refine ⟨draws, h, ?_, hP, rfl, hlen, hd⟩
      rw [hp]
      simp

theorem ownDealErrors_mono (σ σ1 σ2 : Heap) (p : Ref) (seg : List Error)
    (hmono : ∀ h, h ∈ (σ1.players p).Hands → h ∈ (σ2.players p).Hands)
    (h1 : ownDealErrors σ σ1 p seg) : ownDealErrors σ σ2 p seg := by
  obtain ⟨ha, hb⟩ := h1
  refine ⟨fun hn => ⟨(ha hn).1, hmono _ (ha hn).2⟩, fun hs => ?_⟩
  obtain ⟨draws, h, hmem, hrest⟩ := hb hs
  exact ⟨draws, h, hmono h hmem, hrest⟩

theorem ownDealErrors_congr (σ σa σ1 : Heap) (p : Ref) (seg : List Error)
    (hT : (σa.players p).Table = (σ.players p).Table)
    (h1 : ownDealErrors σa σ1 p seg) : ownDealErrors σ σ1 p seg := by
  unfold ownDealErrors at h1 ⊢
  rw [hT] at h1
  exact h1

/-- The player loop of `Deal` when every listed player has no table or sits at a
table with a deck: it runs to the end, and the errors it adds are the own
errors of the players, one segment per player, in player order. -/
theorem Deal_players_errors (ps : List Ref) (i : Nat) (rnd : Nat → Nat) (σ : Heap)
    (err : List Error)
    (hdeck : ∀ p ∈ ps, ∀ t1, (σ.players p).Table = some t1 → (σ.tables t1).Deck ≠ none) :
    ∃ σ1 segs, Deal.players ps i rnd σ err = some (σ1, err ++ segs.flatten) ∧
      σ1.tables = σ.tables ∧
      (∀ q, (σ1.players q).Table = (σ.players q).Table) ∧
      (∀ q h, h ∈ (σ.players q).Hands → h ∈ (σ1.players q).Hands) ∧
      List.Forall₂ (ownDealErrors σ σ1) ps segs := by
  induction ps generalizing i σ err with
  | nil =>
    exact ⟨σ, [], by simp [Deal.players], rfl, fun _ => rfl, fun _ _ h => h, List.Forall₂.nil⟩
  | cons p ps ih =>
    obtain ⟨σa, seg, hnew, hrun, hta, hpa, hown⟩ :=
      Deal_player_step σ p (rnd (2 * i)) (rnd (2 * i + 1)) err
        (hdeck p (List.mem_cons_self _ _))
    have hTa : ∀ q, (σa.players q).Table = (σ.players q).Table := by
      intro q
      rw [hpa]
      by_cases hq : q = p
      · subst hq; simp
      · simp [Function.update_noteq hq]
    have hHa : ∀ q h, h ∈ (σ.players q).Hands → h ∈ (σa.players q).Hands := by
      intro q h hh
      rw [hpa]
      by_cases hq : q = p
      · subst hq; simp [hh]
      · simpa [Function.update_noteq hq] using hh
    obtain ⟨σ1, segs, hrun1, ht1, hT1, hH1, hall⟩ := ih (i + 1) σa (err ++ seg)
      (fun q hq t1 hqt => by
        rw [hta]
        exact hdeck q (List.mem_cons_of_mem _ hq) t1 (by rw [← hTa q]; exact hqt))
    refine ⟨σ1, seg :: segs, ?_, by rw [ht1, hta], fun q => by rw [hT1, hTa],
      fun q h hh => hH1 q h (hHa q h hh), ?_⟩
    · simp only [Deal.players, hrun, hrun1, List.flatten_cons, List.append_assoc]
    · refine List.Forall₂.cons ?_ ?_
      · exact ownDealErrors_mono σ σa σ1 p seg (fun h hh => hH1 p h hh) hown
      · exact List.Forall₂.imp
          (fun q sg hq => ownDealErrors_congr σ σa σ1 q sg (hTa q) hq) hall

/-- `Deal` after a successful `Reset`: the player loop runs from `dealStart`, and
the play state is set to 1 at the end. -/
theorem Deal_of_reset (σ : Heap) (t newDeck : Ref) (rnd : Nat → Nat)
    (hps : (σ.tables t).playState = 0 ∨ (σ.tables t).playState = 3) :
    Table.Deal σ t newDeck rnd =
      match Deal.players (σ.tables t).Players 0 rnd (dealStart σ t newDeck) [] with
      | none => none
      | some (σ1, err) =>
        some ({ σ1 with
            tables := Function.update σ1.tables t { σ1.tables t with playState := 1 } }, err) := by
  obtain ⟨h1, h2, h3, h4⟩ := Reset_succeeds σ t hps
  have hr : Table.Reset σ t = ((Table.Reset σ t).1, none) := Prod.ext rfl h1
  have hp : (Table.Reset σ t).1.players = fun q =>
      if q ∈ (σ.tables t).Players then { σ.players q with Hands := [] } else σ.players q :=
    funext h4
  unfold Table.Deal
  rw [hr]
  simp only [dealStart, h2, h3, hp, Function.update_same, Function.update_idem]

/-- A draw through `addCard` from a deck that is not empty: one card of the deck
goes to the end of the hand, the deck loses the drawn position, and nothing
else changes. -/
theorem addCard_draws (σ : Heap) (h : Hand) (rnd : Nat) (t d : Ref) (cs : List Card)
    (hT : h.Table = some t) (hD : (σ.tables t).Deck = some d)
    (hc : (σ.decks d).Cards = some cs) (hne : cs ≠ []) :
    ∃ σ1 h1 c, h.addCard σ rnd = some (σ1, h1, none) ∧
      σ1.tables = σ.tables ∧ σ1.players = σ.players ∧
      σ1.decks = Function.update σ.decks d ⟨some (cs.eraseIdx (rnd % cs.length))⟩ ∧
      c ∈ cs ∧ h1.Cards = h.Cards ++ [c] ∧
      h1.Table = h.Table ∧ h1.Player = h.Player ∧
      h1.locked = h.locked ∧ h1.valid = h.valid := by
  have hi : rnd % cs.length < cs.length := Nat.mod_lt _ (List.length_pos.2 hne)
  have hmem : cs.getD (rnd % cs.length) { Suit := 0, Value := 0 } ∈ cs := by
    rw [List.getD_eq_getElem _ _ hi]
    exact List.getElem_mem hi
  exact ⟨_, _, _, addCard_drawn σ h rnd t d cs hT hD hc hne, rfl, rfl, rfl, hmem, rfl, rfl, rfl,
    rfl, rfl⟩

/-- One turn of the player loop of `Deal` for a player seated at a table whose
deck holds at least 2 cards, all of them scorable: no error is recorded, the
deck loses 2 cards, and the player gets one more hand, of 2 scorable cards,
unlocked, valid and with best score at most 21. -/
theorem Deal_player_deals (σ : Heap) (p : Ref) (r0 r1 : Nat) (err : List Error) (t d : Ref)
    (cs : List Card)
    (hpT : (σ.players p).Table = some t) (hD : (σ.tables t).Deck = some d)
    (hc : (σ.decks d).Cards = some cs) (hlen : 2 ≤ cs.length)
    (hsc : ∀ c ∈ cs, scorable c) :
    ∃ σ1 h cs1, Deal.player σ p r0 r1 err = some (σ1, err) ∧
      σ1.tables = σ.tables ∧
      σ1.players = Function.update σ.players p
        { σ.players p with Hands := (σ.players p).Hands ++ [h] } ∧
      (σ1.decks d).Cards = some cs1 ∧ cs1.length + 2 = cs.length ∧
      (∀ c ∈ cs1, scorable c) ∧
      (∀ d1, d1 ≠ d → σ1.decks d1 = σ.decks d1) ∧
      h.Cards.length = 2 ∧ (∀ c ∈ h.Cards, scorable c) ∧
      h.locked = false ∧ h.valid = true ∧ h.score ≤ 21 ∧
      h.Table = some t ∧ h.Player = some p := by
  have hne : cs ≠ [] := by
    intro h0; rw [h0] at hlen; simp at hlen
  have hi0 : r0 % cs.length < cs.length := Nat.mod_lt _ (by omega)
  have hlen1 : (cs.eraseIdx (r0 % cs.length)).length + 1 = cs.length := by
    rw [List.length_eraseIdx, if_pos hi0]; omega
  have hne1 : cs.eraseIdx (r0 % cs.length) ≠ [] := by
    intro h0; rw [h0] at hlen1; simp at hlen1; omega
  have hi1 : r1 % (cs.eraseIdx (r0 % cs.length)).length < (cs.eraseIdx (r0 % cs.length)).length :=
    Nat.mod_lt _ (by omega)
  obtain ⟨σ2, h1, c0, hadd0, ht2, hp2, hd2, hc0, hC1, hT1, hP1, hL1, hV1⟩ :=
    addCard_draws
      { σ with
          players := Function.update σ.players p
            { σ.players p with
              Hands := (σ.players p).Hands ++
                [{ Hand.zero with Table := some t, Player := some p, valid := true }] } }
      { Hand.zero with Table := some t, Player := some p, valid := true } r0 t d cs rfl hD hc hne
  obtain ⟨σ3, h2, c1, hadd1, ht3, hp3, hd3, hc1, hC2, hT2, hP2, hL2, hV2⟩ :=
    addCard_draws σ2 h1 r1 t d (cs.eraseIdx (r0 % cs.length)) hT1 (by rw [ht2]; exact hD)
      (by rw [hd2]; simp) hne1
  have hcards : h2.Cards = [c0, c1] := by
    rw [hC2, hC1]; rfl
  have hsc2 : ∀ c ∈ h2.Cards, scorable c := by
    intro c hcm
    rw [hcards] at hcm
    simp only [List.mem_cons, List.mem_singleton, List.not_mem_nil, or_false] at hcm
    rcases hcm with h | h
    · rw [h]; exact hsc _ hc0
    · rw [h]; exact hsc _ (List.mem_of_mem_eraseIdx hc1)
  obtain ⟨e1, e2, e3, e4⟩ := EvalScore_two_cards h2 (by rw [hcards]; rfl) hsc2
  obtain ⟨f1, f2, f3⟩ := EvalScore_frame h2
  refine ⟨Player.setNewestHand σ3 p h2.EvalScore.1, h2.EvalScore.1,
    (cs.eraseIdx (r0 % cs.length)).eraseIdx (r1 % (cs.eraseIdx (r0 % cs.length)).length),
    ?_, ?_, ?_, ?_, ?_, ?_, ?_, ?_, ?_, ?_, ?_, e2, ?_, ?_⟩
  · unfold Deal.player
    rw [Player_newHand_seated σ p t hpT]
    simp only [hadd0, hadd1, appendErr_eq, e1, Option.toList, List.append_nil]
  · simp only [Player.setNewestHand, ht3, ht2]
  · simp only [Player.setNewestHand, hp3, hp2, Function.update_same, List.dropLast_concat,
      Function.update_idem]
  · simp only [Player.setNewestHand, hd3, hd2, Function.update_same]
  · rw [List.length_eraseIdx, if_pos hi1]; omega
  · intro c hcm
    exact hsc c (List.mem_of_mem_eraseIdx (List.mem_of_mem_eraseIdx hcm))
  · intro d1 hd1
    simp only [Player.setNewestHand, hd3, hd2, Function.update_noteq hd1]
  · rw [f1, hcards]; rfl
  · rw [f1]; exact hsc2
  · rw [e4, hL2, hL1]; rfl
  · rw [e3, hV2, hV1]
  · rw [f2, hT2, hT1]
  · rw [f3, hP2, hP1]

/-- The player loop of `Deal` over distinct players without hands, all seated at
a table whose deck holds at least 2 scorable cards per player: no error is
added, the deck loses 2 cards per player, and every player ends with exactly
one hand, of 2 scorable cards, unlocked, valid, with best score at most 21. -/
theorem Deal_players_deals (ps : List Ref) (i : Nat) (rnd : Nat → Nat) (σ : Heap)
    (err : List Error) (t d : Ref) (cs : List Card)
    (hnd : ps.Nodup)
    (hseat : ∀ p ∈ ps, (σ.players p).Table = some t ∧ (σ.players p).Hands = [])
    (hD : (σ.tables t).Deck = some d) (hc : (σ.decks d).Cards = some cs)
    (hlen : 2 * ps.length ≤ cs.length) (hsc : ∀ c ∈ cs, scorable c) :
    ∃ σ1 cs1, Deal.players ps i rnd σ err = some (σ1, err) ∧
      σ1.tables = σ.tables ∧
      (σ1.decks d).Cards = some cs1 ∧ cs1.length + 2 * ps.length = cs.length ∧
      (∀ q, q ∉ ps → σ1.players q = σ.players q) ∧
      ∀ p ∈ ps, ∃ h, (σ1.players p).Hands = [h] ∧
        h.Cards.length = 2 ∧ (∀ c ∈ h.Cards, scorable c) ∧
        h.locked = false ∧ h.valid = true ∧ h.score ≤ 21 ∧
        h.Table = some t ∧ h.Player = some p := by
  induction ps generalizing i σ err cs with
  | nil =>
    exact ⟨σ, cs, by simp [Deal.players], rfl, hc, by simp, fun _ _ => rfl,
      fun p hp => absurd hp (List.not_mem_nil p)⟩
  | cons p ps ih =>
    have hpnot : p ∉ ps := (List.nodup_cons.1 hnd).1
    have hlen2 : 2 ≤ cs.length := by
      simp only [List.length_cons] at hlen; omega
    obtain ⟨σa, h, csa, hrun, hta, hpa, hda, hla, hsa, _, g1, g2, g3, g4, g5, g6, g7⟩ :=
      Deal_player_deals σ p (rnd (2 * i)) (rnd (2 * i + 1)) err t d cs
        (hseat p (List.mem_cons_self _ _)).1 hD hc hlen2 hsc
    have hother : ∀ q, q ≠ p → σa.players q = σ.players q := by
      intro q hq
      rw [hpa, Function.update_noteq hq]
    obtain ⟨σ1, cs1, hrun1, ht1, hd1, hl1, hrest, hall⟩ :=
      ih (i + 1) σa err csa (List.nodup_cons.1 hnd).2
        (fun q hq => by
          have hqp : q ≠ p := fun hc => hpnot (hc ▸ hq)
          rw [hother q hqp]
          exact hseat q (List.mem_cons_of_mem _ hq))
        (by rw [hta]; exact hD) hda
        (by simp only [List.length_cons] at hlen; omega) hsa
    refine ⟨σ1, cs1, ?_, by rw [ht1, hta], hd1, ?_, ?_, ?_⟩
    · simp only [Deal.players, hrun, hrun1]
    · simp only [List.length_cons]; omega
    · intro q hq
      have hqp : q ≠ p := fun hc => hq (hc ▸ List.mem_cons_self _ _)
      have hqps : q ∉ ps := fun hc => hq (List.mem_cons_of_mem _ hc)
      rw [hrest q hqps, hother q hqp]
    · intro q hq
      rcases List.mem_cons.1 hq with hqp | hqps
      · subst hqp
        refine ⟨h, ?_, g1, g2, g3, g4, g5, g6, g7⟩
        rw [hrest q hpnot, hpa]
        simp [(hseat q (List.mem_cons_self _ _)).2]
      · exact hall q hqps

end blackjack

/-! ## Dealing: claims C15 and C17 -/

namespace blackjack

open playdeck

/-- C17, failing input: with play state 0 (so `Reset` succeeds) and one listed
player who sits at another table that has no deck, `Deal` does not return an
error list at all: the first draw dereferences the nil deck and panics. For the
hand that `Deal` has just made for that player, the guard `canPlay` of `Hit`
answers `ErrHandInvalid` in the same state. -/
theorem C17_deal_panics_without_deck :
    (({ Hand.zero with Table := some 1, Player := some 0, valid := true } : Hand).canPlay
      { gameHeap none 0 with players := fun _ => { Table := some 1, Hands := [] } }) =
      some Error.ErrHandInvalid ∧
    (Table.Reset
      { gameHeap none 0 with players := fun _ => { Table := some 1, Hands := [] } } 0).2 = none ∧
    (({ gameHeap none 0 with
        players := fun _ => { Table := some 1, Hands := [] } } : Heap).players 0).Table = some 1 ∧
    (({ gameHeap none 0 with
        players := fun _ => { Table := some 1, Hands := [] } } : Heap).tables 1).Deck = none ∧
    (Table.Deal
      { gameHeap none 0 with players := fun _ => { Table := some 1, Hands := [] } }
      0 7 (fun _ => 0)).isSome = false := by
  decide

/-- Away from the failing input of C17: when `Reset` succeeds and no listed
player sits at another table that has no deck, `Deal` returns, it never stops
at a failure, and the returned list is the concatenation, in player order, of one segment per listed
player holding the own errors of that player: exactly `ErrPlayerNoTable` for a
player with no table; for a seated player one error per failed draw of the two
attempted, followed by the scoring error if `EvalScore` fails on the new hand.
The play state is 1 afterwards whatever the errors. -/
theorem Deal_collects_errors (σ : Heap) (t newDeck : Ref) (rnd : Nat → Nat)
    (hps : (σ.tables t).playState = 0 ∨ (σ.tables t).playState = 3)
    (hdeck : ∀ p ∈ (σ.tables t).Players, ∀ t1, (σ.players p).Table = some t1 → t1 ≠ t →
      (σ.tables t1).Deck ≠ none) :
    ∃ σ1 segs, Table.Deal σ t newDeck rnd = some (σ1, segs.flatten) ∧
      (σ1.tables t).playState = 1 ∧
      List.Forall₂ (ownDealErrors σ σ1) (σ.tables t).Players segs := by
  have hT0 : ∀ q, ((dealStart σ t newDeck).players q).Table = (σ.players q).Table := by
    intro q
    simp only [dealStart]
    split <;> rfl
  obtain ⟨σ1, segs, hrun, _, _, _, hall⟩ :=
    Deal_players_errors (σ.tables t).Players 0 rnd (dealStart σ t newDeck) []
      (fun p hp t1 hpt => by
        rw [hT0 p] at hpt
        by_cases ht1 : t1 = t
        · subst ht1
          simp [dealStart]
        · have : (dealStart σ t newDeck).tables t1 = σ.tables t1 := by
            simp [dealStart, Function.update_noteq ht1]
          rw [this]
          exact hdeck p hp t1 hpt ht1)
  refine ⟨{ σ1 with tables := Function.update σ1.tables t { σ1.tables t with playState := 1 } },
    segs, ?_, by simp, ?_⟩
  · rw [Deal_of_reset σ t newDeck rnd hps, hrun]
    simp
  · exact List.Forall₂.imp
      (fun q sg hq => ownDealErrors_congr σ (dealStart σ t newDeck) _ q sg (hT0 q)
        (ownDealErrors_mono _ σ1 _ q sg (fun _ hh => hh) hq)) hall

/-- The two cases that C17 names, both away from its failing input: a table
whose one listed player has no table gives exactly the list with
`ErrPlayerNoTable`, and the play state is 1; a table of 0 packs with one seated
player gives `ErrDeckEmpty` twice and then `ErrHandInvalid`. -/
theorem Deal_collects_errors_cases :
    (∃ σ1, Table.Deal
        { gameHeap none 0 with players := fun _ => { Table := none, Hands := [] } }
        0 7 (fun _ => 0) = some (σ1, [Error.ErrPlayerNoTable]) ∧
      (σ1.tables 0).playState = 1) ∧
    (Table.Deal
        { gameHeap none 0 with
            tables := fun _ => { Deck := some 0, sDecks := 0, Players := [0], playState := 0 } }
        0 7 (fun _ => 0)).map (fun r => r.2)
      = some [Error.ErrDeckEmpty, Error.ErrDeckEmpty, Error.ErrHandInvalid] := by
  constructor
  · obtain ⟨σ1, segs, hrun, hps, hall⟩ :=
      Deal_collects_errors
        { gameHeap none 0 with players := fun _ => { Table := none, Hands := [] } }
        0 7 (fun _ => 0) (Or.inl rfl) (fun p _ t1 hpt _ => by simp at hpt)
    have hP : (({ gameHeap none 0 with
        players := fun _ => { Table := none, Hands := [] } } : Heap).tables 0).Players = [0] := rfl
    rw [hP] at hall
    cases hall with
    | cons hhead htail =>
      cases htail
      have hseg := (hhead.1 rfl).1
      subst hseg
      exact ⟨σ1, hrun, hps⟩
  · decide

/-- C15: for a table in play state 0 or 3 with pack count n and k distinct
players, all seated at this table, with 2k ≤ 52n, and for any random draws,
`Deal` returns an empty error list; every player has exactly 1 hand (earlier
hands are gone) of exactly 2 cards, each card valid and not a joker, and the
hand is unlocked and valid with best score at most 21; the table points to the
new deck, which holds 52n − 2k cards whatever the old deck held; and the play
state is 1. -/
theorem C15_deal_gives_each_player_two_cards (σ : Heap) (t newDeck : Ref) (rnd : Nat → Nat)
    (hps : (σ.tables t).playState = 0 ∨ (σ.tables t).playState = 3)
    (hnd : (σ.tables t).Players.Nodup)
    (hseated : ∀ p ∈ (σ.tables t).Players, (σ.players p).Table = some t)
    (hcards : 2 * ((σ.tables t).Players.length : Int) ≤ 52 * (σ.tables t).sDecks) :
    ∃ σ1 cs, Table.Deal σ t newDeck rnd = some (σ1, []) ∧
      (∀ p ∈ (σ.tables t).Players, ∃ h, (σ1.players p).Hands = [h] ∧
        h.Cards.length = 2 ∧ (∀ c ∈ h.Cards, c.Value ≠ ValueJoker ∧ c.Valid = true) ∧
        h.locked = false ∧ h.valid = true ∧ h.score ≤ 21) ∧
      (σ1.tables t).Deck = some newDeck ∧
      (σ1.decks newDeck).Cards = some cs ∧
      (cs.length : Int) = 52 * (σ.tables t).sDecks - 2 * ((σ.tables t).Players.length : Int) ∧
      (σ1.tables t).playState = 1 := by
  obtain ⟨cs0, hcs0, hlen0, hsc0⟩ := NewDeckOfDecks_cards (σ.tables t).sDecks
  have hn : 0 ≤ (σ.tables t).sDecks := by omega
  have hnat : (((σ.tables t).sDecks.toNat : Nat) : Int) = (σ.tables t).sDecks := Int.toNat_of_nonneg hn
  obtain ⟨σ1, cs1, hrun, ht1, hd1, hl1, _, hall⟩ :=
    Deal_players_deals (σ.tables t).Players 0 rnd (dealStart σ t newDeck) [] t newDeck cs0 hnd
      (fun p hp => by simp [dealStart, hp, hseated p hp])
      (by simp [dealStart]) (by simpa [dealStart] using hcs0)
      (by rw [hlen0]; omega) hsc0
  refine ⟨{ σ1 with tables := Function.update σ1.tables t { σ1.tables t with playState := 1 } },
    cs1, ?_, ?_, ?_, hd1, ?_, by simp⟩
  · rw [Deal_of_reset σ t newDeck rnd hps, hrun]
  · intro p hp
    obtain ⟨h, h1, h2, h3, h4, h5, h6, _, _⟩ := hall p hp
    exact ⟨h, h1, h2, h3, h4, h5, h6⟩
  · simp [ht1, dealStart]
  · have : (cs1.length : Int) + 2 * ((σ.tables t).Players.length : Int) = (cs0.length : Int) := by
      exact_mod_cast hl1
    rw [hlen0] at this
    push_cast at this
    rw [hnat] at this
    omega

/-- C15 on the one-player table of 1 pack in the end state 3, the player still
holding an old hand: `Deal` returns no error, the player has one hand of 2 cards
that is valid, unlocked and scores at most 21, the new deck holds 50 cards and
the play state is 1. -/
theorem C15_deal_gives_each_player_two_cards_witness :
    ∃ σ1 cs h, Table.Deal
        { gameHeap (some []) 3 with
            players := fun _ => { Table := some 0, Hands := [openHand []] } }
        0 7 (fun i => 3 * i + 1) = some (σ1, []) ∧
      (σ1.players 0).Hands = [h] ∧ h.Cards.length = 2 ∧
      h.locked = false ∧ h.valid = true ∧ h.score ≤ 21 ∧
      (σ1.decks 7).Cards = some cs ∧ cs.length = 50 ∧
      (σ1.tables 0).playState = 1 := by
  obtain ⟨σ1, cs, hrun, hall, _, hdeck, hlen, hstate⟩ :=
    C15_deal_gives_each_player_two_cards
      { gameHeap (some []) 3 with
          players := fun _ => { Table := some 0, Hands := [openHand []] } }
      0 7 (fun i => 3 * i + 1) (Or.inr rfl) (by decide) (by decide) (by decide)
  obtain ⟨h, h1, h2, _, h4, h5, h6⟩ := hall 0 (by decide)
  have hl : (cs.length : Int) = 50 := hlen.trans (by decide)
  exact ⟨σ1, cs, h, hrun, h1, h2, h4, h5, h6, hdeck, by exact_mod_cast hl, hstate⟩

end blackjack

/-! ## Lemmas on decks -/

namespace blackjack

open playdeck

theorem mem_pack (joker : Bool) (c : Card) :
    c ∈ NewDeckOfDecks.pack joker ↔ standardCard c ∨ (joker = true ∧ c = jokerCard) := by
  obtain ⟨su, va⟩ := c
  unfold NewDeckOfDecks.pack standardCard jokerCard SuitJoker ValueJoker
  simp only [List.mem_append, List.mem_flatMap, List.mem_map, List.mem_range', Card.mk.injEq]
  constructor
  · rintro (⟨s1, ⟨i, hi, rfl⟩, v1, ⟨j, hj, rfl⟩, h1, h2⟩ | hjk)
    · left; omega
    · right
      cases joker
      · simp at hjk
      · simpa using hjk
  · rintro (⟨h1, h2, h3, h4⟩ | ⟨hj, h1, h2⟩)
    · left
      exact ⟨su, ⟨su - 1, by omega, by omega⟩, va, ⟨va - 1, by omega, by omega⟩, rfl, rfl⟩
    · right
      simp [hj, h1, h2]

theorem pack_nodup (joker : Bool) : (NewDeckOfDecks.pack joker).Nodup := by
  cases joker <;> decide

theorem count_pack (joker : Bool) (c : Card) :
    (NewDeckOfDecks.pack joker).count c =
      if standardCard c ∨ (joker = true ∧ c = jokerCard) then 1 else 0 := by
  rw [List.count_eq_of_nodup (pack_nodup joker)]
  simp only [mem_pack]

theorem count_replicate_flatten (k : Nat) (l : List Card) (c : Card) :
    ((List.replicate k l).flatten).count c = k * l.count c := by
  induction k with
  | zero => simp
  | succ k ih =>
    rw [List.replicate_succ, List.flatten_cons, List.count_append, ih]
    ring

theorem length_replicate_flatten (k : Nat) (l : List Card) :
    ((List.replicate k l).flatten).length = k * l.length := by
  induction k with
  | zero => simp
  | succ k ih =>
    rw [List.replicate_succ, List.flatten_cons, List.length_append, ih]
    ring

theorem pack_length_joker (joker : Bool) :
    (NewDeckOfDecks.pack joker).length = if joker = true then 53 else 52 := by
  cases joker <;> decide

theorem count_eraseIdx (cs : List Card) (i : Nat) (hi : i < cs.length) (x : Card) :
    (cs.eraseIdx i).count x + (if cs[i] = x then 1 else 0) = cs.count x := by
  have hp := (perm_cons_eraseIdx cs i hi).count_eq x
  rw [hp, List.count_cons]
  by_cases hx : cs[i] = x
  · simp [hx]
  · simp [hx]

theorem count_set (cs : List Card) (k : Nat) (x c : Card) (hk : k < cs.length) :
    (cs.set k x).count c + (if cs[k] = c then 1 else 0) =
      cs.count c + (if x = c then 1 else 0) := by
  induction cs generalizing k with
  | nil => simp at hk
  | cons a as ih =>
    cases k with
    | zero =>
      simp only [List.set_cons_zero, List.count_cons, List.getElem_cons_zero, beq_iff_eq]
      omega
    | succ j =>
      have hj : j < as.length := by simpa using hk
      have := ih j hj
      simp only [List.set_cons_succ, List.count_cons, List.getElem_cons_succ, beq_iff_eq]
      omega

theorem swap_perm (cs : List Card) (i j : Nat) (hi : i < cs.length) (hj : j < cs.length) :
    ∃ cs1, Shuffle.swap cs i j = some cs1 ∧ List.Perm cs1 cs := by
  refine ⟨_, by unfold Shuffle.swap; rw [if_pos ⟨hi, hj⟩], ?_⟩
  rw [List.perm_iff_count]
  intro c
  rw [List.getD_eq_getElem _ _ hi, List.getD_eq_getElem _ _ hj]
  have hj1 : j < (cs.set i cs[j]).length := by simpa using hj
  have h1 := count_set (cs.set i cs[j]) j cs[i] c hj1
  have h2 := count_set cs i cs[j] c hi
  have h3 : (cs.set i cs[j])[j] = cs[j] := by
    rw [List.getElem_set]
    split <;> simp_all
  rw [h3] at h1
  omega

theorem swaps_perm (calls : List (Nat × Nat)) (cs : List Card)
    (hcalls : ∀ ij ∈ calls, ij.1 < cs.length ∧ ij.2 < cs.length) :
    ∃ cs1, Shuffle.swaps calls cs = some cs1 ∧ List.Perm cs1 cs := by
  induction calls generalizing cs with
  | nil => exact ⟨cs, rfl, List.Perm.refl _⟩
  | cons ij rest ih =>
    obtain ⟨i, j⟩ := ij
    obtain ⟨hi, hj⟩ := hcalls (i, j) (List.mem_cons_self _ _)
    obtain ⟨cs1, hs1, hp1⟩ := swap_perm cs i j hi hj
    obtain ⟨cs2, hs2, hp2⟩ := ih cs1 (fun ij hij => by
      rw [hp1.length_eq]
      exact hcalls ij (List.mem_cons_of_mem _ hij))
    exact ⟨cs2, by simp only [Shuffle.swaps, hs1, hs2], hp2.trans hp1⟩

end blackjack

/-! ## Decks: claims C22 to C26 -/

namespace blackjack

open playdeck

/-- C22: for a pack count n that is not negative, `NewDeckOfDecks n joker` is an
initialised deck that holds each of the 52 standard cards exactly n times, the
joker exactly n times when `joker` is true and not at all when it is false, and
no other card; its size is 53n with jokers and 52n without. -/
theorem C22_newDeckOfDecks_contents (n : Int) (joker : Bool) (hn : 0 ≤ n) :
    ∃ cs, (NewDeckOfDecks n joker).Cards = some cs ∧
      (∀ c, standardCard c → (cs.count c : Int) = n) ∧
      ((cs.count jokerCard : Int) = if joker = true then n else 0) ∧
      (∀ c, ¬ standardCard c → c ≠ jokerCard → cs.count c = 0) ∧
      ((cs.length : Int) = if joker = true then 53 * n else 52 * n) := by
  have hnat : ((n.toNat : Nat) : Int) = n := Int.toNat_of_nonneg hn
  have hjs : ¬ standardCard jokerCard := by decide
  refine ⟨_, rfl, ?_, ?_, ?_, ?_⟩
  · intro c hc
    rw [count_replicate_flatten, count_pack, if_pos (Or.inl hc)]
    simp [hnat]
  · rw [count_replicate_flatten, count_pack]
    cases joker
    · simp [hjs]
    · simp [hnat]
  · intro c hc hj
    rw [count_replicate_flatten, count_pack]
    simp [hc, hj]
  · rw [length_replicate_flatten, pack_length_joker]
    cases joker
    · simp only [Bool.false_eq_true, if_false]
      push_cast
      rw [hnat]; ring
    · simp only [if_true]
      push_cast
      rw [hnat]; ring

/-- C22 on the decks of the test `TestNewSingleDeck`: one pack holds 52 cards
without the joker and 53 with it, and the ace of spades once. -/
theorem C22_newDeckOfDecks_contents_witness :
    (∃ cs, (NewDeck false).Cards = some cs ∧ cs.length = 52 ∧
      cs.count ⟨SuitSpade, ValueAce⟩ = 1 ∧ cs.count jokerCard = 0) ∧
    (∃ cs, (NewDeck true).Cards = some cs ∧ cs.length = 53 ∧ cs.count jokerCard = 1) := by
  obtain ⟨cs0, h0, a0, j0, _, l0⟩ := C22_newDeckOfDecks_contents 1 false (by decide)
  obtain ⟨cs1, h1, _, j1, _, l1⟩ := C22_newDeckOfDecks_contents 1 true (by decide)
  refine ⟨⟨cs0, h0, ?_, ?_, ?_⟩, ⟨cs1, h1, ?_, ?_⟩⟩
  · simp at l0; exact_mod_cast l0
  · have := a0 ⟨SuitSpade, ValueAce⟩ (by decide)
    exact_mod_cast this
  · simp at j0; exact j0
  · simp at l1; exact_mod_cast l1
  · simp at j1; exact_mod_cast j1

/-- C23: on a deck that is not empty a draw succeeds and removes exactly one
position. `PullCard` returns the card at position 0 and `PullRandomCard` the
card at the chosen position `rnd % size`, which is below the size; the deck that
remains is the old sequence with that position erased, the rest in order. For
any position erased, the size drops by exactly 1, the count of the card that
was there drops by exactly 1, and every other card keeps its count. -/
theorem C23_draw_removes_one_position (d : Deck) (cs : List Card) (rnd : Nat)
    (hc : d.Cards = some cs) (hne : cs ≠ []) :
    (∃ c, cs[0]? = some c ∧ d.PullCard = ({ Cards := some (cs.eraseIdx 0) }, c, none)) ∧
    (∃ c, rnd % cs.length < cs.length ∧ cs[rnd % cs.length]? = some c ∧
      d.PullRandomCard rnd = ({ Cards := some (cs.eraseIdx (rnd % cs.length)) }, c, none)) ∧
    (∀ i c, cs[i]? = some c →
      (cs.eraseIdx i).length + 1 = cs.length ∧
      (cs.eraseIdx i).count c + 1 = cs.count c ∧
      ∀ x, x ≠ c → (cs.eraseIdx i).count x = cs.count x) := by
  have hlen : 0 < cs.length := List.length_pos.2 hne
  have hi : rnd % cs.length < cs.length := Nat.mod_lt _ hlen
  refine ⟨⟨cs.getD 0 { Suit := 0, Value := 0 }, ?_, ?_⟩,
    ⟨cs.getD (rnd % cs.length) { Suit := 0, Value := 0 }, hi, ?_, ?_⟩, ?_⟩
  · rw [List.getD_eq_getElem _ _ hlen, List.getElem?_eq_getElem hlen]
  · unfold Deck.PullCard
    have hl0 : cs.length ≠ 0 := by omega
    simp [hc, hl0, List.eraseIdx_eq_take_drop_succ]
  · rw [List.getD_eq_getElem _ _ hi, List.getElem?_eq_getElem hi]
  · exact PullRandomCard_nonempty d rnd cs hc hne
  · intro i c hget
    obtain ⟨hil, hic⟩ := List.getElem?_eq_some_iff.1 hget
    refine ⟨?_, ?_, ?_⟩
    · rw [List.length_eraseIdx, if_pos hil]; omega
    · have := count_eraseIdx cs i hil c
      rw [if_pos hic] at this
      exact this
    · intro x hx
      have := count_eraseIdx cs i hil x
      rw [if_neg (by rw [hic]; exact fun h => hx h.symm)] at this
      simpa using this

/-- C23 on the deck king of spades, ace of hearts, two of clubs: `PullCard`
returns the king and leaves ace, two; `PullRandomCard` with random number 4
(position 1) returns the ace and leaves king, two. -/
theorem C23_draw_removes_one_position_witness :
    (Deck.mk (some [⟨SuitSpade, ValueKing⟩, ⟨SuitHeart, ValueAce⟩, ⟨SuitClub, ValueTwo⟩])).PullCard
      = (⟨some [⟨SuitHeart, ValueAce⟩, ⟨SuitClub, ValueTwo⟩]⟩, ⟨SuitSpade, ValueKing⟩, none) ∧
    (Deck.mk (some [⟨SuitSpade, ValueKing⟩, ⟨SuitHeart, ValueAce⟩,
        ⟨SuitClub, ValueTwo⟩])).PullRandomCard 4
      = (⟨some [⟨SuitSpade, ValueKing⟩, ⟨SuitClub, ValueTwo⟩]⟩, ⟨SuitHeart, ValueAce⟩, none) := by
  obtain ⟨⟨c0, hc0, hp0⟩, ⟨c1, _, hc1, hp1⟩, _⟩ := C23_draw_removes_one_position
    (Deck.mk (some [⟨SuitSpade, ValueKing⟩, ⟨SuitHeart, ValueAce⟩, ⟨SuitClub, ValueTwo⟩]))
    [⟨SuitSpade, ValueKing⟩, ⟨SuitHeart, ValueAce⟩, ⟨SuitClub, ValueTwo⟩] 4 rfl (by decide)
  have e0 : c0 = ⟨SuitSpade, ValueKing⟩ := (Option.some.inj hc0).symm
  have e1 : c1 = ⟨SuitHeart, ValueAce⟩ := (Option.some.inj hc1).symm
  subst e0 e1
  exact ⟨hp0, hp1⟩

/-- C24: `PullRandomCard`, `PullCard` and `Shuffle` fail with
`ErrDeckUninitialized` on a deck without backing storage and with
`ErrDeckEmpty` on an initialised deck without cards; `PushCard` fails with
`ErrDeckUninitialized` on a deck without backing storage and returns no error
on any other deck. Every failing call returns the deck as it was. -/
theorem C24_deck_errors (d : Deck) (rnd : Nat) (calls : List (Nat × Nat)) (c : Card) :
    (d.Cards = none →
      d.PullRandomCard rnd = (d, { Suit := 0, Value := 0 }, some Error.ErrDeckUninitialized) ∧
      d.PullCard = (d, { Suit := 0, Value := 0 }, some Error.ErrDeckUninitialized) ∧
      d.Shuffle calls = some (d, some Error.ErrDeckUninitialized) ∧
      d.PushCard c = (d, some Error.ErrDeckUninitialized)) ∧
    (d.Cards = some [] →
      d.PullRandomCard rnd = (d, { Suit := 0, Value := 0 }, some Error.ErrDeckEmpty) ∧
      d.PullCard = (d, { Suit := 0, Value := 0 }, some Error.ErrDeckEmpty) ∧
      d.Shuffle calls = some (d, some Error.ErrDeckEmpty)) ∧
    (d.Cards ≠ none → (d.PushCard c).2 = none) ∧
    ((d.PullRandomCard rnd).2.2 ≠ none → (d.PullRandomCard rnd).1 = d) ∧
    (d.PullCard.2.2 ≠ none → d.PullCard.1 = d) ∧
    ((d.PushCard c).2 ≠ none → (d.PushCard c).1 = d) ∧
    (∀ r, d.Shuffle calls = some r → r.2 ≠ none → r.1 = d) := by
  cases hc : d.Cards with
  | none =>
    have h1 : d.PullRandomCard rnd =
        (d, { Suit := 0, Value := 0 }, some Error.ErrDeckUninitialized) := by
      unfold Deck.PullRandomCard; simp [hc]
    have h2 : d.PullCard = (d, { Suit := 0, Value := 0 }, some Error.ErrDeckUninitialized) := by
      unfold Deck.PullCard; simp [hc]
    have h3 : d.Shuffle calls = some (d, some Error.ErrDeckUninitialized) := by
      unfold Deck.Shuffle; simp [hc]
    have h4 : d.PushCard c = (d, some Error.ErrDeckUninitialized) := by
      unfold Deck.PushCard; simp [hc]
    rw [h1, h2, h3, h4]
    refine ⟨fun _ => ⟨rfl, rfl, rfl, rfl⟩, fun h => absurd h (by simp), fun h => absurd rfl h,
      fun _ => rfl, fun _ => rfl, fun _ => rfl, fun r hr _ => ?_⟩
    rw [← Option.some.inj hr]
  | some cs =>
    have h4 : d.PushCard c = ({ Cards := some (cs ++ [c]) }, none) := by
      unfold Deck.PushCard; simp [hc]
    cases cs with
    | nil =>
      have h1 : d.PullRandomCard rnd = (d, { Suit := 0, Value := 0 }, some Error.ErrDeckEmpty) :=
        PullRandomCard_empty d rnd hc
      have h2 : d.PullCard = (d, { Suit := 0, Value := 0 }, some Error.ErrDeckEmpty) := by
        unfold Deck.PullCard; simp [hc]
      have h3 : d.Shuffle calls = some (d, some Error.ErrDeckEmpty) := by
        unfold Deck.Shuffle; simp [hc]
      rw [h1, h2, h3, h4]
      refine ⟨fun h => absurd h (by simp), fun _ => ⟨rfl, rfl, rfl⟩, fun _ => rfl,
        fun _ => rfl, fun _ => rfl, fun h => absurd rfl h, fun r hr _ => ?_⟩
      rw [← Option.some.inj hr]
    | cons a as =>
      have h1 := PullRandomCard_nonempty d rnd (a :: as) hc (by simp)
      have h2 : d.PullCard = ({ Cards := some as }, a, none) := by
        unfold Deck.PullCard; simp [hc]
      rw [h1, h2, h4]
      refine ⟨fun h => absurd h (by simp), fun h => absurd h (by simp), fun _ => rfl,
        fun h => absurd rfl h, fun h => absurd rfl h, fun h => absurd rfl h, fun r hr hne => ?_⟩
      exfalso
      unfold Deck.Shuffle at hr
      simp only [hc, List.length_cons, Nat.succ_ne_zero, if_false] at hr
      cases hs : Shuffle.swaps calls (a :: as) with
      | none => simp [hs] at hr
      | some cs1 =>
        simp only [hs] at hr
        rw [← Option.some.inj hr] at hne
        exact hne rfl

/-- C24 on the decks of the tests: a deck without storage gives
`ErrDeckUninitialized` for all four operations, an initialised empty deck gives
`ErrDeckEmpty` for the two draws and for `Shuffle`. -/
theorem C24_deck_errors_witness :
    ((Deck.mk none).PullRandomCard 0).2.2 = some Error.ErrDeckUninitialized ∧
    (Deck.mk none).PullCard.2.2 = some Error.ErrDeckUninitialized ∧
    ((Deck.mk none).PushCard ⟨0, 0⟩).2 = some Error.ErrDeckUninitialized ∧
    (Deck.mk none).Shuffle [] = some (Deck.mk none, some Error.ErrDeckUninitialized) ∧
    ((Deck.mk (some [])).PullRandomCard 0).2.2 = some Error.ErrDeckEmpty ∧
    (Deck.mk (some [])).PullCard.2.2 = some Error.ErrDeckEmpty ∧
    (Deck.mk (some [])).Shuffle [] = some (Deck.mk (some []), some Error.ErrDeckEmpty) :=
  have w := (C24_deck_errors (Deck.mk none) 0 [] ⟨0, 0⟩).1 rfl
  have v := (C24_deck_errors (Deck.mk (some [])) 0 [] ⟨0, 0⟩).2.1 rfl
  ⟨congrArg (fun r => r.2.2) w.1, congrArg (fun r => r.2.2) w.2.1,
   congrArg (fun r => r.2) w.2.2.2, w.2.2.1,
   congrArg (fun r => r.2.2) v.1, congrArg (fun r => r.2.2) v.2.1, v.2.2⟩

/-- C25: on an initialised deck `PushCard c` succeeds for any card `c`, valid or
not, and the deck becomes the old sequence followed by `c`, one card longer. On
an empty deck, `PushCard c` followed by `PullCard`, or by `PullRandomCard` with
any random number, returns exactly `c` and leaves the deck empty again. -/
theorem C25_pushCard_appends (d : Deck) (cs : List Card) (c : Card) (hc : d.Cards = some cs) :
    d.PushCard c = ({ Cards := some (cs ++ [c]) }, none) ∧
    (cs ++ [c]).length = cs.length + 1 ∧
    ((Deck.mk (some [])).PushCard c).1.PullCard = (Deck.mk (some []), c, none) ∧
    (∀ rnd, ((Deck.mk (some [])).PushCard c).1.PullRandomCard rnd
      = (Deck.mk (some []), c, none)) := by
  refine ⟨?_, by simp, ?_, fun rnd => ?_⟩
  · unfold Deck.PushCard; simp [hc]
  · simp [Deck.PushCard, Deck.PullCard]
  · simp [Deck.PushCard, Deck.PullRandomCard, Nat.mod_one]

/-- C25 on the deck holding the king of spades: pushing a card of suit 9 and rank
77, not a valid card, succeeds and puts it last. -/
theorem C25_pushCard_appends_witness :
    (Deck.mk (some [⟨SuitSpade, ValueKing⟩])).PushCard ⟨9, 77⟩
      = (Deck.mk (some [⟨SuitSpade, ValueKing⟩, ⟨9, 77⟩]), none) :=
  (C25_pushCard_appends (Deck.mk (some [⟨SuitSpade, ValueKing⟩])) [⟨SuitSpade, ValueKing⟩]
    ⟨9, 77⟩ rfl).1

/-- C26: on a deck that is not empty, for any sequence of calls that the library
shuffle makes to the swap closure (each with both indexes below the size),
`Shuffle` returns no error and the new card sequence is a rearrangement of the
old one: same length and, for every card, the same number of copies. -/
theorem C26_shuffle_permutes (d : Deck) (cs : List Card) (calls : List (Nat × Nat))
    (hc : d.Cards = some cs) (hne : cs ≠ [])
    (hcalls : ∀ ij ∈ calls, ij.1 < cs.length ∧ ij.2 < cs.length) :
    ∃ cs1, d.Shuffle calls = some ({ Cards := some cs1 }, none) ∧
      List.Perm cs1 cs ∧ cs1.length = cs.length ∧ ∀ c, cs1.count c = cs.count c := by
  obtain ⟨cs1, hs, hp⟩ := swaps_perm calls cs hcalls
  refine ⟨cs1, ?_, hp, hp.length_eq, fun c => hp.count_eq c⟩
  have hl0 : cs.length ≠ 0 := fun h => hne (List.length_eq_zero.1 h)
  unfold Deck.Shuffle
  simp only [hc, hl0, if_false, hs]

/-- C26 on the deck king, ace, two with the calls (2, 0) and (1, 1): the result
is two, ace, king. -/
theorem C26_shuffle_permutes_witness :
    (Deck.mk (some [⟨SuitSpade, ValueKing⟩, ⟨SuitHeart, ValueAce⟩,
        ⟨SuitClub, ValueTwo⟩])).Shuffle [(2, 0), (1, 1)]
      = some (Deck.mk (some [⟨SuitClub, ValueTwo⟩, ⟨SuitHeart, ValueAce⟩,
          ⟨SuitSpade, ValueKing⟩]), none) := by
  obtain ⟨cs1, hs, _, _, _⟩ := C26_shuffle_permutes
    (Deck.mk (some [⟨SuitSpade, ValueKing⟩, ⟨SuitHeart, ValueAce⟩, ⟨SuitClub, ValueTwo⟩]))
    [⟨SuitSpade, ValueKing⟩, ⟨SuitHeart, ValueAce⟩, ⟨SuitClub, ValueTwo⟩] [(2, 0), (1, 1)]
    rfl (by decide) (by decide)
  rw [hs]
  exact hs.symm.trans (by decide)

end blackjack

/-! ## Closed form of the scores and the bust flag: claims C28 and C30 -/

namespace blackjack

open playdeck

theorem worstTotal_split (cs : List Card) :
    worstTotal cs = nonAceSum cs + (aceCount cs : Int) := by
  induction cs with
  | nil => simp [worstTotal, nonAceSum, aceCount]
  | cons c cs ih =>
    have hw : ∀ l : List Card, worstTotal (c :: l) = hardValue c + worstTotal l := by
      intro l; simp [worstTotal]
    by_cases ha : c.Value = 1
    · have hv : hardValue c = 1 := by simp [hardValue, ha]
      have hn : nonAceSum (c :: cs) = nonAceSum cs := by
        simp [nonAceSum, ha]
      have hk : aceCount (c :: cs) = aceCount cs + 1 := by
        simp [aceCount, List.countP_cons, ha]
      rw [hw, hn, hk, hv, ih]
      push_cast
      ring
    · have hn : nonAceSum (c :: cs) = hardValue c + nonAceSum cs := by
        simp [nonAceSum, ha, hw]
      have hk : aceCount (c :: cs) = aceCount cs := by
        simp [aceCount, List.countP_cons, ha]
      rw [hw, hn, hk, ih]
      ring

theorem EvalScore_keeps_bust_locked (h : Hand) (hinv : h.valid = false → h.locked = true) :
    h.EvalScore.1.valid = false → h.EvalScore.1.locked = true := by
  unfold Hand.EvalScore
  simp only
  split
  · exact hinv
  · split
    · exact hinv
    · split
      · exact fun _ => rfl
      · exact hinv

theorem Hit_keeps_bust_locked (σ : Heap) (h : Hand) (rnd : Nat)
    (hinv : h.valid = false → h.locked = true) :
    ∃ r, h.Hit σ rnd = some r ∧ (r.2.1.valid = false → r.2.1.locked = true) := by
  cases hp : h.canPlay σ with
  | some err => exact ⟨(σ, h, some err), Hit_of_canPlay_error σ h rnd err hp, hinv⟩
  | none =>
    have hpl := (canPlay_eq_none_iff σ h).1 hp
    have htd : hasTableAndDeck σ h = true := by
      unfold playable at hpl
      simp only [Bool.and_eq_true] at hpl
      exact hpl.1.1.1.1.1
    obtain ⟨d, hd⟩ := Option.isSome_iff_exists.1 ((hasTableAndDeck_eq σ h).symm.trans htd)
    obtain ⟨t, hT, hD⟩ := deckRef_eq_some σ h d hd
    rw [Hit_of_canPlay σ h rnd t d hT hD hp]
    rcases hpull : (σ.decks d).PullRandomCard rnd with ⟨deck, card, err⟩
    cases err with
    | some e => exact ⟨_, rfl, hinv⟩
    | none => exact ⟨_, rfl, EvalScore_keeps_bust_locked _ hinv⟩

theorem runOps_keeps_bust_locked (ops : List Op) (s : Heap × Hand)
    (hinv : s.2.valid = false → s.2.locked = true) :
    ∃ s1, runOps ops s = some s1 ∧ (s1.2.valid = false → s1.2.locked = true) := by
  induction ops generalizing s with
  | nil => exact ⟨s, rfl, hinv⟩
  | cons op ops ih =>
    have hstep : ∃ s1, op.apply s = some s1 ∧ (s1.2.valid = false → s1.2.locked = true) := by
      cases op with
      | Hit rnd =>
        obtain ⟨r, hr, hi⟩ := Hit_keeps_bust_locked s.1 s.2 rnd hinv
        exact ⟨(r.1, r.2.1), by simp [Op.apply, hr], hi⟩
      | Stick => exact ⟨_, rfl, fun _ => Stick_leaves_locked s.2⟩
      | EvalScore => exact ⟨_, rfl, EvalScore_keeps_bust_locked s.2 hinv⟩
      | Score => exact ⟨s, rfl, hinv⟩
    obtain ⟨s1, hs1, hi1⟩ := hstep
    obtain ⟨s2, hs2, hi2⟩ := ih s1 hi1
    exact ⟨s2, by simp only [runOps, hs1]; exact hs2, hi2⟩

/-- C28: for a hand of at least 2 valid non-joker cards with non-ace sum S and k
aces, `EvalScore` succeeds and stores worst = S + k, and best = worst + 10 when
k ≥ 1 and S ≤ 10, best = worst otherwise; so best − worst is 0 or 10: at most
one ace is counted as 11. -/
theorem C28_evalScore_closed_form (h : Hand) (hlen : 2 ≤ h.Cards.length)
    (hcards : ∀ c ∈ h.Cards, c.Value ≠ ValueJoker ∧ c.Valid = true) :
    h.EvalScore.2 = none ∧
    h.EvalScore.1.minScore = nonAceSum h.Cards + (aceCount h.Cards : Int) ∧
    h.EvalScore.1.score =
      (if 1 ≤ aceCount h.Cards ∧ nonAceSum h.Cards ≤ 10 then h.EvalScore.1.minScore + 10
       else h.EvalScore.1.minScore) ∧
    (h.EvalScore.1.score - h.EvalScore.1.minScore = 0 ∨
      h.EvalScore.1.score - h.EvalScore.1.minScore = 10) := by
  obtain ⟨hm, hs⟩ := EvalScore_scores h hlen hcards
  have hsplit := worstTotal_split h.Cards
  have hS : worstTotal h.Cards - (aceCount h.Cards : Int) = nonAceSum h.Cards := by
    rw [hsplit]; ring
  rw [hS] at hs
  refine ⟨EvalScore_no_error h hlen hcards, by rw [hm, hsplit], ?_, ?_⟩
  · rw [hs, hm]
    split <;> simp
  · rw [hs, hm]
    split <;> simp

/-- C28 on the hands of the claim: ace, king gives 21 and 11; ace, ace gives 12
and 2; nine, ace, ace gives 21; king, queen, ace gives 21. -/
theorem C28_evalScore_closed_form_witness :
    ((openHand [⟨SuitClub, ValueAce⟩, ⟨SuitClub, ValueKing⟩]).EvalScore.1.score = 21 ∧
      (openHand [⟨SuitClub, ValueAce⟩, ⟨SuitClub, ValueKing⟩]).EvalScore.1.minScore = 11) ∧
    ((openHand [⟨SuitSpade, ValueAce⟩, ⟨SuitHeart, ValueAce⟩]).EvalScore.1.score = 12 ∧
      (openHand [⟨SuitSpade, ValueAce⟩, ⟨SuitHeart, ValueAce⟩]).EvalScore.1.minScore = 2) ∧
    (openHand [⟨SuitSpade, ValueNine⟩, ⟨SuitSpade, ValueAce⟩,
      ⟨SuitHeart, ValueAce⟩]).EvalScore.1.score = 21 ∧
    (openHand [⟨SuitClub, ValueKing⟩, ⟨SuitSpade, ValueQueen⟩,
      ⟨SuitDiamond, ValueAce⟩]).EvalScore.1.score = 21 :=
  have w1 := C28_evalScore_closed_form
    (openHand [⟨SuitClub, ValueAce⟩, ⟨SuitClub, ValueKing⟩]) (by decide) (by decide)
  have w2 := C28_evalScore_closed_form
    (openHand [⟨SuitSpade, ValueAce⟩, ⟨SuitHeart, ValueAce⟩]) (by decide) (by decide)
  have w3 := C28_evalScore_closed_form
    (openHand [⟨SuitSpade, ValueNine⟩, ⟨SuitSpade, ValueAce⟩, ⟨SuitHeart, ValueAce⟩])
    (by decide) (by decide)
  have w4 := C28_evalScore_closed_form
    (openHand [⟨SuitClub, ValueKing⟩, ⟨SuitSpade, ValueQueen⟩, ⟨SuitDiamond, ValueAce⟩])
    (by decide) (by decide)
  ⟨⟨w1.2.2.1.trans (by decide), w1.2.1.trans (by decide)⟩,
   ⟨w2.2.2.1.trans (by decide), w2.2.1.trans (by decide)⟩,
   w3.2.2.1.trans (by decide), w4.2.2.1.trans (by decide)⟩

/-- C30: a hand made by a successful `newHand` and then changed only through
Hit, Stick, EvalScore (and read through Score), in any heap and with any random
draws, is in every state it reaches locked whenever it is not valid. -/
theorem C30_bust_implies_locked (σ : Heap) (player : Option Ref) (h0 : Hand)
    (hnew : newHand σ player = (h0, none)) (σ1 : Heap) (ops : List Op) :
    ∃ s, runOps ops (σ1, h0) = some s ∧ (s.2.valid = false → s.2.locked = true) := by
  have hv : h0.valid = true := by
    unfold newHand at hnew
    cases player with
    | none => simp at hnew
    | some p =>
      simp only at hnew
      cases hT : (σ.players p).Table with
      | none => simp [hT] at hnew
      | some t =>
        simp only [hT] at hnew
        rw [← (Prod.mk.inj hnew).1]
  exact runOps_keeps_bust_locked ops (σ1, h0) (fun hc => by rw [hv] at hc; exact Bool.noConfusion hc)

/-- C30 on the hand a seated player gets from `newHand`, after two hits that
draw a king and a queen and a third that draws a two: the hand is bust, not
valid, and locked. -/
theorem C30_bust_implies_locked_witness :
    ∃ s, runOps [Op.Hit 0, Op.Hit 0, Op.Hit 0]
        (gameHeap (some [⟨SuitSpade, ValueKing⟩, ⟨SuitSpade, ValueQueen⟩,
          ⟨SuitClub, ValueTwo⟩]) 1,
         (newHand (gameHeap none 1) (some 0)).1) = some s ∧
      s.2.valid = false ∧ s.2.locked = true := by
  obtain ⟨s, hs, hi⟩ := C30_bust_implies_locked (gameHeap none 1) (some 0)
    (newHand (gameHeap none 1) (some 0)).1 rfl
    (gameHeap (some [⟨SuitSpade, ValueKing⟩, ⟨SuitSpade, ValueQueen⟩, ⟨SuitClub, ValueTwo⟩]) 1)
    [Op.Hit 0, Op.Hit 0, Op.Hit 0]
  have hv : s.2.valid = false := by
    have h1 : (runOps [Op.Hit 0, Op.Hit 0, Op.Hit 0]
        (gameHeap (some [⟨SuitSpade, ValueKing⟩, ⟨SuitSpade, ValueQueen⟩,
          ⟨SuitClub, ValueTwo⟩]) 1,
         (newHand (gameHeap none 1) (some 0)).1)).map (fun r => r.2.valid) = some false := by
      decide
    rw [hs] at h1
    exact Option.some.inj h1
  exact ⟨s, hs, hv, hi hv⟩

end blackjack

/-! ## Membership of players: claim C21 -/

namespace blackjack

open playdeck

/-- The two outcomes of `Join`: a failure that leaves the heap alone, or the
player, not yet in the list, is appended and gets its table pointer set. -/
theorem Join_cases (σ : Heap) (t p : Ref) :
    (Table.Join σ t p).1 = σ ∨
    (p ∉ (σ.tables t).Players ∧
      (Table.Join σ t p).1 =
        { σ with
            tables := Function.update σ.tables t
              { σ.tables t with Players := (σ.tables t).Players ++ [p] },
            players := Function.update σ.players p { σ.players p with Table := some t } }) := by
  have hany : ((σ.tables t).Players.any (fun tp => p == tp)) = true ↔
      p ∈ (σ.tables t).Players := by
    simp [List.any_eq_true]
  unfold Table.Join
  by_cases hps : ((σ.tables t).playState != 0) = true
  · left; rw [if_pos hps]
  · rw [if_neg hps]
    by_cases hmem : ((σ.tables t).Players.any (fun tp => p == tp)) = true
    · left; rw [if_pos hmem]
    · right
      rw [if_neg hmem]
      exact ⟨fun h => hmem (hany.2 h), rfl⟩

/-- One `Join` keeps three facts: no player list has a repeat, every player is in
the list of the table its pointer names, and nobody leaves a list. -/
theorem Join_keeps_lists (σ : Heap) (t p : Ref)
    (h1 : ∀ t1, (σ.tables t1).Players.Nodup)
    (h2 : ∀ q t1, (σ.players q).Table = some t1 → q ∈ (σ.tables t1).Players) :
    (∀ t1, ((Table.Join σ t p).1.tables t1).Players.Nodup) ∧
    (∀ q t1, ((Table.Join σ t p).1.players q).Table = some t1 →
      q ∈ ((Table.Join σ t p).1.tables t1).Players) ∧
    (∀ q t1, q ∈ (σ.tables t1).Players → q ∈ ((Table.Join σ t p).1.tables t1).Players) := by
  rcases Join_cases σ t p with hsame | ⟨hnot, hjoin⟩
  · rw [hsame]
    exact ⟨h1, h2, fun _ _ h => h⟩
  · rw [hjoin]
    have hgrow : ∀ q t1, q ∈ (σ.tables t1).Players →
        q ∈ ((Function.update σ.tables t
          { σ.tables t with Players := (σ.tables t).Players ++ [p] }) t1).Players := by
      intro q t1 hq
      by_cases ht1 : t1 = t
      · subst ht1
        simp only [Function.update_same]
        exact List.mem_append_left _ hq
      · simpa only [Function.update_noteq ht1] using hq
    refine ⟨fun t1 => ?_, fun q t1 hq => ?_, hgrow⟩
    · by_cases ht1 : t1 = t
      · subst ht1
        simp only [Function.update_same]
        exact List.Nodup.append (h1 t1) (List.nodup_singleton p)
          (by simpa [List.disjoint_singleton] using hnot)
      · simp only [Function.update_noteq ht1]
        exact h1 t1
    · by_cases hqp : q = p
      · subst hqp
        simp only [Function.update_same] at hq
        rw [← Option.some.inj hq]
        simp
      · simp only [Function.update_noteq hqp] at hq
        exact hgrow q t1 (h2 q t1 hq)

/-- C21 as stated fails: two new tables 0 and 1 and a new player 0; the player
joins table 0 and then table 1, both calls succeed, and afterwards the player
is in the player lists of both tables. -/
theorem C21_player_in_two_tables :
    (Table.Join (NewPlayer (NewTable (NewTable emptyHeap 0 0 1) 1 1 1) 0) 0 0).2 = none ∧
    (Table.Join
      (Table.Join (NewPlayer (NewTable (NewTable emptyHeap 0 0 1) 1 1 1) 0) 0 0).1 1 0).2
      = none ∧
    0 ∈ ((runJoins [(0, 0), (1, 0)]
      (NewPlayer (NewTable (NewTable emptyHeap 0 0 1) 1 1 1) 0)).tables 0).Players ∧
    0 ∈ ((runJoins [(0, 0), (1, 0)]
      (NewPlayer (NewTable (NewTable emptyHeap 0 0 1) 1 1 1) 0)).tables 1).Players ∧
    ((runJoins [(0, 0), (1, 0)]
      (NewPlayer (NewTable (NewTable emptyHeap 0 0 1) 1 1 1) 0)).players 0).Table = some 1 := by
  decide

/-- From a state in which no player list has a repeat and every player is in the
list of the table its pointer names, after any sequence of `Join` calls on any
tables the same holds, and whoever was in a list is still in it. -/
theorem runJoins_keeps_lists (σ : Heap) (joins : List (Ref × Ref))
    (h1 : ∀ t, (σ.tables t).Players.Nodup)
    (h2 : ∀ p t, (σ.players p).Table = some t → p ∈ (σ.tables t).Players) :
    (∀ t, ((runJoins joins σ).tables t).Players.Nodup) ∧
    (∀ p t, ((runJoins joins σ).players p).Table = some t →
      p ∈ ((runJoins joins σ).tables t).Players) ∧
    (∀ p t, p ∈ (σ.tables t).Players → p ∈ ((runJoins joins σ).tables t).Players) := by
  induction joins generalizing σ with
  | nil => exact ⟨h1, h2, fun _ _ h => h⟩
  | cons tp rest ih =>
    obtain ⟨t, p⟩ := tp
    obtain ⟨k1, k2, k3⟩ := Join_keeps_lists σ t p h1 h2
    obtain ⟨r1, r2, r3⟩ := ih (Table.Join σ t p).1 k1 k2
    exact ⟨r1, r2, fun q t1 hq => r3 q t1 (k3 q t1 hq)⟩

theorem runJoins_append (js1 js2 : List (Ref × Ref)) (σ : Heap) :
    runJoins (js1 ++ js2) σ = runJoins js2 (runJoins js1 σ) := by
  induction js1 generalizing σ with
  | nil => rfl
  | cons tp rest ih =>
    obtain ⟨t, p⟩ := tp
    simp only [List.cons_append, runJoins]
    exact ih _

/-- The two outcomes of `Join` with the error: an error and the heap as it was,
or no error and the player appended and its pointer set. -/
theorem Join_result (σ : Heap) (t p : Ref) :
    ((Table.Join σ t p).2 ≠ none ∧ (Table.Join σ t p).1 = σ) ∨
    ((Table.Join σ t p).2 = none ∧
      (Table.Join σ t p).1 =
        { σ with
            tables := Function.update σ.tables t
              { σ.tables t with Players := (σ.tables t).Players ++ [p] },
            players := Function.update σ.players p { σ.players p with Table := some t } }) := by
  unfold Table.Join
  split
  · left; exact ⟨by simp, rfl⟩
  · split
    · left; exact ⟨by simp, rfl⟩
    · right; exact ⟨rfl, rfl⟩

theorem lastJoin_of_some (J : List (Ref × Ref)) (p : Ref) (a : Ref) :
    ∃ t, lastJoin J p (some a) = some t := by
  induction J generalizing a with
  | nil => exact ⟨a, rfl⟩
  | cons j rest ih =>
    obtain ⟨t0, q⟩ := j
    simp only [lastJoin]
    split
    · exact ih t0
    · exact ih a

theorem lastJoin_of_mem (J : List (Ref × Ref)) (p t : Ref) (start : Option Ref)
    (h : (t, p) ∈ J) : ∃ t1, lastJoin J p start = some t1 := by
  induction J generalizing start with
  | nil => exact absurd h (List.not_mem_nil _)
  | cons j rest ih =>
    obtain ⟨t0, q⟩ := j
    simp only [lastJoin]
    rcases List.mem_cons.1 h with heq | hmem
    · have hq : q = p := (Prod.mk.inj heq).2.symm
      rw [if_pos hq]
      exact lastJoin_of_some rest p t0
    · exact ih _ hmem

/-- After a sequence of `Join` calls the player list of a table is the old list
followed by the players whose `Join` on that table returned no error, in call
order, and the table pointer of a player is the table of its last call that
returned no error, or the old pointer when there is none. -/
theorem runJoins_exact (joins : List (Ref × Ref)) (σ : Heap) :
    (∀ t, ((runJoins joins σ).tables t).Players =
      (σ.tables t).Players ++ ((joined joins σ).filter (fun j => j.1 = t)).map (fun j => j.2)) ∧
    (∀ p, ((runJoins joins σ).players p).Table =
      lastJoin (joined joins σ) p (σ.players p).Table) := by
  induction joins generalizing σ with
  | nil => simp [runJoins, joined, lastJoin]
  | cons tp rest ih =>
    obtain ⟨t, p⟩ := tp
    obtain ⟨i1, i2⟩ := ih (Table.Join σ t p).1
    simp only [runJoins, joined]
    rcases Join_result σ t p with ⟨herr, hσ⟩ | ⟨hok, hσ⟩
    · rw [if_neg herr]
      rw [hσ] at i1 i2
      simp only [List.nil_append, hσ]
      exact ⟨i1, i2⟩
    · rw [if_pos hok]
      refine ⟨fun t1 => ?_, fun q => ?_⟩
      · rw [i1 t1, hσ]
        by_cases ht : t1 = t
        · subst ht
          simp
        · have ht2 : ¬ (t = t1) := fun h => ht h.symm
          simp [Function.update_noteq ht, ht2]
      · rw [i2 q, hσ]
        by_cases hq : q = p
        · subst hq
          simp [lastJoin]
        · have hq2 : ¬ (p = q) := fun h => hq h.symm
          simp [lastJoin, Function.update_noteq hq, hq2]

/-- C21, amended: start from a state in which no player is in any player list
and no player has a table pointer (new tables and new players), and make any
sequence of `Join` calls on any tables. Then the player list of every table has
no repeat and is exactly the players whose `Join` on that table returned no
error, in call order; the table pointer of a player is nil when none of its
calls returned no error and otherwise names the table of the last one that did;
every listed player has its pointer set, to a table whose list holds it; the
table a pointer names always lists the player; and a player who is in a list
after part of the calls is still in it after all of them, so that a player who
joins a second table is in both lists. -/
theorem C21_join_sequences (σ : Heap) (joins : List (Ref × Ref))
    (h1 : ∀ t, (σ.tables t).Players = [])
    (h2 : ∀ p, (σ.players p).Table = none) :
    (∀ t, ((runJoins joins σ).tables t).Players.Nodup) ∧
    (∀ t, ((runJoins joins σ).tables t).Players =
      ((joined joins σ).filter (fun j => j.1 = t)).map (fun j => j.2)) ∧
    (∀ p, ((runJoins joins σ).players p).Table = lastJoin (joined joins σ) p none) ∧
    (∀ p t, p ∈ ((runJoins joins σ).tables t).Players →
      ∃ t1, ((runJoins joins σ).players p).Table = some t1 ∧
        p ∈ ((runJoins joins σ).tables t1).Players) ∧
    (∀ p t, ((runJoins joins σ).players p).Table = some t →
      p ∈ ((runJoins joins σ).tables t).Players) ∧
    (∀ js1 js2, joins = js1 ++ js2 → ∀ p t, p ∈ ((runJoins js1 σ).tables t).Players →
      p ∈ ((runJoins joins σ).tables t).Players) := by
  have hnd : ∀ t, (σ.tables t).Players.Nodup := fun t => by rw [h1 t]; exact List.nodup_nil
  have hptr : ∀ p t, (σ.players p).Table = some t → p ∈ (σ.tables t).Players := by
    intro p t hp
    rw [h2 p] at hp
    exact absurd hp (by simp)
  obtain ⟨k1, k2, _⟩ := runJoins_keeps_lists σ joins hnd hptr
  obtain ⟨e1, e2⟩ := runJoins_exact joins σ
  have hlist : ∀ t, ((runJoins joins σ).tables t).Players =
      ((joined joins σ).filter (fun j => j.1 = t)).map (fun j => j.2) := by
    intro t
    rw [e1 t, h1 t, List.nil_append]
  have hlast : ∀ p, ((runJoins joins σ).players p).Table = lastJoin (joined joins σ) p none := by
    intro p
    rw [e2 p, h2 p]
  refine ⟨k1, hlist, hlast, fun p t hp => ?_, k2, fun js1 js2 hj p t hp => ?_⟩
  · rw [hlist t] at hp
    obtain ⟨j, hj, hjp⟩ := List.mem_map.1 hp
    have hjm := (List.mem_filter.1 hj).1
    have hjt : j.1 = t := by simpa using (List.mem_filter.1 hj).2
    have hmem : (t, p) ∈ joined joins σ := by
      rw [← hjt, ← hjp]
      exact hjm
    obtain ⟨t1, ht1⟩ := lastJoin_of_mem (joined joins σ) p t none hmem
    have hptr1 : ((runJoins joins σ).players p).Table = some t1 := by rw [hlast p, ht1]
    exact ⟨t1, hptr1, k2 p t1 hptr1⟩
  · obtain ⟨m1, m2, _⟩ := runJoins_keeps_lists σ js1 hnd hptr
    rw [hj, runJoins_append]
    exact (runJoins_keeps_lists (runJoins js1 σ) js2 m1 m2).2.2 p t hp

/-- C21, amended, on two new tables and one new player who joins table 0, then
table 1, then table 0 again (refused): the player is in the lists of both
tables, once in each, and its table pointer names table 1, joined last. -/
theorem C21_join_sequences_witness :
    ((runJoins [(0, 0), (1, 0), (0, 0)]
      (NewPlayer (NewTable (NewTable emptyHeap 0 0 1) 1 1 1) 0)).tables 0).Players = [0] ∧
    ((runJoins [(0, 0), (1, 0), (0, 0)]
      (NewPlayer (NewTable (NewTable emptyHeap 0 0 1) 1 1 1) 0)).tables 1).Players = [0] ∧
    ((runJoins [(0, 0), (1, 0), (0, 0)]
      (NewPlayer (NewTable (NewTable emptyHeap 0 0 1) 1 1 1) 0)).players 0).Table = some 1 :=
  have w := C21_join_sequences (NewPlayer (NewTable (NewTable emptyHeap 0 0 1) 1 1 1) 0)
    [(0, 0), (1, 0), (0, 0)]
    (fun t => by
      by_cases h0 : t = 0
      · subst h0; decide
      · by_cases h1 : t = 1
        · subst h1; decide
        · simp [NewPlayer, NewTable, emptyHeap, Function.update_noteq h0,
            Function.update_noteq h1])
    (fun p => by
      by_cases h0 : p = 0
      · subst h0; simp [NewPlayer]
      · simp [NewPlayer, NewTable, emptyHeap, Function.update_noteq h0])
  ⟨by rw [w.2.1 0]; decide, by rw [w.2.1 1]; decide, by rw [w.2.2.1 0]; decide⟩

end blackjack

/-! ## Lemmas on the conservation of cards -/

namespace blackjack

open playdeck

theorem count_flatMap_update (all : List Ref) (hnd : all.Nodup) (p : Ref) (hp : p ∈ all)
    (f g : Ref → List Card) (hg : ∀ q, q ≠ p → g q = f q) (c : Card) :
    (all.flatMap g).count c + (f p).count c = (all.flatMap f).count c + (g p).count c := by
  induction all with
  | nil => exact absurd hp (List.not_mem_nil p)
  | cons a as ih =>
    obtain ⟨hna, hnas⟩ := List.nodup_cons.1 hnd
    simp only [List.flatMap_cons, List.count_append]
    by_cases hap : a = p
    · subst hap
      have hsame : as.flatMap g = as.flatMap f := by
        apply List.flatMap_congr
        intro q hq
        exact hg q (fun h => hna (h ▸ hq))
      rw [hsame]
      omega
    · have hpas : p ∈ as := by
        rcases List.mem_cons.1 hp with h | h
        · exact absurd h.symm hap
        · exact h
      have := ih hnas hpas
      rw [hg a hap]
      omega

theorem count_flatMap_set (l : List Hand) (i : Nat) (hi : i < l.length) (x : Hand) (c : Card) :
    ((l.set i x).flatMap (fun h => h.Cards)).count c + (l[i].Cards).count c =
      (l.flatMap (fun h => h.Cards)).count c + (x.Cards).count c := by
  induction l generalizing i with
  | nil => simp at hi
  | cons a as ih =>
    cases i with
    | zero =>
      simp only [List.set_cons_zero, List.flatMap_cons, List.count_append,
        List.getElem_cons_zero]
      omega
    | succ j =>
      have hj : j < as.length := by simpa using hi
      have := ih j hj
      simp only [List.set_cons_succ, List.flatMap_cons, List.count_append,
        List.getElem_cons_succ]
      omega

theorem deck_eq_of_cards (d : Deck) (cs : Option (List Card)) (hc : d.Cards = cs) :
    d = { Cards := cs } := by
  cases d
  simp only at hc
  rw [hc]

theorem heap_decks_update_self (σ : Heap) (d : Ref) (cs : List Card)
    (hc : (σ.decks d).Cards = some cs) :
    σ.decks = Function.update σ.decks d { Cards := some cs } := by
  rw [← deck_eq_of_cards (σ.decks d) (some cs) hc, Function.update_eq_self]

/-- Common step: the hands of one listed player are replaced and the deck of the
table is replaced so that, card for card, what the hands gained the deck lost. -/
theorem conserved_step (σ σ1 : Heap) (t d : Ref) (fresh : List Card) (p : Ref)
    (newHands : List Hand) (cs cs1 : List Card)
    (hinv : cardsConserved σ t d fresh) (hp : p ∈ (σ.tables t).Players)
    (hc : (σ.decks d).Cards = some cs)
    (ht : σ1.tables = σ.tables)
    (hpl : σ1.players = Function.update σ.players p { σ.players p with Hands := newHands })
    (hd : σ1.decks = Function.update σ.decks d { Cards := some cs1 })
    (hT : ∀ h ∈ newHands, h.Table = some t)
    (hcount : ∀ c, (newHands.flatMap (fun h => h.Cards)).count c + cs1.count c =
      ((σ.players p).Hands.flatMap (fun h => h.Cards)).count c + cs.count c) :
    cardsConserved σ1 t d fresh := by
  obtain ⟨i2, _, i4, i5⟩ := hinv
  refine ⟨by rw [ht]; exact i2, ⟨cs1, by rw [hd]; simp⟩, ?_, ?_⟩
  · intro q hq
    rw [ht] at hq
    rw [hpl]
    by_cases hqp : q = p
    · subst hqp
      simp only [Function.update_same]
      exact ⟨(i4 q hq).1, hT⟩
    · simp only [Function.update_noteq hqp]
      exact i4 q hq
  · intro c
    rw [← i5 c]
    have hdeck1 : deckCards σ1 t = cs1 := by
      simp [deckCards, ht, i2, hd]
    have hdeck : deckCards σ t = cs := by
      simp [deckCards, i2, hc]
    have hother : ∀ q, q ≠ p → playerCards σ1 q = playerCards σ q := by
      intro q hq
      simp [playerCards, hpl, Function.update_noteq hq]
    have hself : playerCards σ1 p = newHands.flatMap (fun h => h.Cards) := by
      simp [playerCards, hpl]
    have hA := count_flatMap_update (σ.tables t).Players.dedup (List.nodup_dedup _) p
      (List.mem_dedup.2 hp)
      (playerCards σ) (playerCards σ1) hother c
    have hB := hcount c
    simp only [tableCards, List.count_append, hdeck1, hdeck, ht]
    rw [hself] at hA
    have hP : playerCards σ p = (σ.players p).Hands.flatMap (fun h => h.Cards) := rfl
    rw [hP] at hA
    omega

/-- A draw through `addCard` from an initialised deck moves at most one card
from the deck to the hand and loses none. -/
theorem addCard_conserves (σ : Heap) (h : Hand) (rnd : Nat) (t d : Ref) (cs : List Card)
    (hT : h.Table = some t) (hD : (σ.tables t).Deck = some d)
    (hc : (σ.decks d).Cards = some cs) :
    ∃ σ1 h1 e cs1, h.addCard σ rnd = some (σ1, h1, e) ∧
      σ1.tables = σ.tables ∧ σ1.players = σ.players ∧
      σ1.decks = Function.update σ.decks d { Cards := some cs1 } ∧
      h1.Table = h.Table ∧
      ∀ c, h1.Cards.count c + cs1.count c = h.Cards.count c + cs.count c := by
  by_cases hne : cs = []
  · subst hne
    exact ⟨σ, h, some Error.ErrDeckEmpty, [], addCard_empty σ h rnd t d hT hD hc, rfl, rfl,
      heap_decks_update_self σ d [] hc, rfl, fun _ => rfl⟩
  · have hi : rnd % cs.length < cs.length := Nat.mod_lt _ (List.length_pos.2 hne)
    refine ⟨_, _, none, _, addCard_drawn σ h rnd t d cs hT hD hc hne, rfl, rfl,
      rfl, rfl, fun c => ?_⟩
    have hce := count_eraseIdx cs (rnd % cs.length) hi c
    rw [List.getD_eq_getElem _ _ hi]
    simp only [List.count_append, List.count_cons, List.count_nil, beq_iff_eq]
    omega

theorem Stick_frame (h : Hand) :
    h.Stick.1.Cards = h.Cards ∧ h.Stick.1.Table = h.Table := by
  cases hl : h.locked with
  | true => rw [Stick_locked h hl]; exact ⟨rfl, rfl⟩
  | false =>
    rw [Stick_unlocked h hl]
    exact ⟨(EvalScore_frame _).1, (EvalScore_frame _).2.1⟩

/-- `Hit` on a hand of a table with an initialised deck never panics, moves at
most one card from that deck to the hand and loses none. -/
theorem Hit_conserves (σ : Heap) (h : Hand) (rnd : Nat) (t d : Ref) (cs : List Card)
    (hT : h.Table = some t) (hD : (σ.tables t).Deck = some d)
    (hc : (σ.decks d).Cards = some cs) :
    ∃ σ1 h1 e cs1, h.Hit σ rnd = some (σ1, h1, e) ∧
      σ1.tables = σ.tables ∧ σ1.players = σ.players ∧
      σ1.decks = Function.update σ.decks d { Cards := some cs1 } ∧
      h1.Table = some t ∧
      ∀ c, h1.Cards.count c + cs1.count c = h.Cards.count c + cs.count c := by
  cases hp : h.canPlay σ with
  | some err =>
    exact ⟨σ, h, some err, cs, Hit_of_canPlay_error σ h rnd err hp, rfl, rfl,
      heap_decks_update_self σ d cs hc, hT, fun _ => rfl⟩
  | none =>
    obtain ⟨σa, ha, e, csa, hadd, hta, hpa, hda, hTa, hca⟩ :=
      addCard_conserves σ h rnd t d cs hT hD hc
    cases e with
    | some err =>
      refine ⟨σa, ha, some err, csa, ?_, hta, hpa, hda, hTa.trans hT, hca⟩
      unfold Hand.Hit
      simp only [hp, hadd]
    | none =>
      refine ⟨σa, ha.EvalScore.1, ha.EvalScore.2, csa, ?_, hta, hpa, hda, ?_, ?_⟩
      · unfold Hand.Hit
        simp only [hp, hadd]
      · rw [(EvalScore_frame ha).2.1, hTa, hT]
      · rw [(EvalScore_frame ha).1]
        exact hca

/-- One call of `Hit` or `Stick` on a hand of a listed player keeps the cards of
the table conserved, and does not panic. -/
theorem HandCall_conserves (call : HandCall) (σ : Heap) (t d : Ref) (fresh : List Card)
    (hinv : cardsConserved σ t d fresh) (hp : call.player ∈ (σ.tables t).Players) :
    ∃ σ1, call.apply σ = some σ1 ∧ cardsConserved σ1 t d fresh ∧
      (σ1.tables t).Players = (σ.tables t).Players := by
  obtain ⟨cs, hc⟩ := hinv.2.1
  cases call with
  | Hit p i rnd =>
    simp only [HandCall.player] at hp
    cases hget : (σ.players p).Hands[i]? with
    | none => exact ⟨σ, by simp only [HandCall.apply, hget], hinv, rfl⟩
    | some h =>
      obtain ⟨hi, hih⟩ := List.getElem?_eq_some_iff.1 hget
      have hTh : h.Table = some t := (hinv.2.2.1 p hp).2 h (hih ▸ List.getElem_mem hi)
      obtain ⟨σ1, h1, e, cs1, hhit, ht1, hp1, hd1, hT1, hc1⟩ :=
        Hit_conserves σ h rnd t d cs hTh hinv.1 hc
      refine ⟨Player.storeHand σ1 p i h1, by simp only [HandCall.apply, hget, hhit], ?_,
        by simp [Player.storeHand, ht1]⟩
      refine conserved_step σ (Player.storeHand σ1 p i h1) t d fresh p
        ((σ.players p).Hands.set i h1) cs cs1 hinv hp hc
        (by simp [Player.storeHand, ht1]) (by simp [Player.storeHand, hp1])
        (by simp [Player.storeHand, hd1]) ?_ ?_
      · intro x hx
        rcases List.mem_or_eq_of_mem_set hx with hx1 | hx1
        · exact (hinv.2.2.1 p hp).2 x hx1
        · rw [hx1]; exact hT1
      · intro c
        have hB := count_flatMap_set (σ.players p).Hands i hi h1 c
        have hC := hc1 c
        rw [hih] at hB
        omega
  | Stick p i =>
    simp only [HandCall.player] at hp
    cases hget : (σ.players p).Hands[i]? with
    | none => exact ⟨σ, by simp only [HandCall.apply, hget], hinv, rfl⟩
    | some h =>
      obtain ⟨hi, hih⟩ := List.getElem?_eq_some_iff.1 hget
      have hTh : h.Table = some t := (hinv.2.2.1 p hp).2 h (hih ▸ List.getElem_mem hi)
      refine ⟨Player.storeHand σ p i h.Stick.1, by simp only [HandCall.apply, hget], ?_,
        by simp [Player.storeHand]⟩
      refine conserved_step σ (Player.storeHand σ p i h.Stick.1) t d fresh p
        ((σ.players p).Hands.set i h.Stick.1) cs cs hinv hp hc
        (by simp [Player.storeHand]) (by simp [Player.storeHand])
        (by simp only [Player.storeHand]; exact heap_decks_update_self σ d cs hc) ?_ ?_
      · intro x hx
        rcases List.mem_or_eq_of_mem_set hx with hx1 | hx1
        · exact (hinv.2.2.1 p hp).2 x hx1
        · rw [hx1, (Stick_frame h).2]; exact hTh
      · intro c
        have hB := count_flatMap_set (σ.players p).Hands i hi h.Stick.1 c
        rw [hih, (Stick_frame h).1] at hB
        omega

theorem runHandCalls_conserves (calls : List HandCall) (σ : Heap) (t d : Ref)
    (fresh : List Card) (hinv : cardsConserved σ t d fresh)
    (hcalls : ∀ c ∈ calls, c.player ∈ (σ.tables t).Players) :
    ∃ σ1, runHandCalls calls σ = some σ1 ∧ cardsConserved σ1 t d fresh := by
  induction calls generalizing σ with
  | nil => exact ⟨σ, rfl, hinv⟩
  | cons c rest ih =>
    obtain ⟨σa, ha, hinva, hpa⟩ :=
      HandCall_conserves c σ t d fresh hinv (hcalls c (List.mem_cons_self _ _))
    obtain ⟨σ1, h1, hinv1⟩ := ih σa hinva (fun x hx => by
      rw [hpa]; exact hcalls x (List.mem_cons_of_mem _ hx))
    exact ⟨σ1, by simp only [runHandCalls, ha, h1], hinv1⟩

/-- One turn of the player loop of `Deal` for a listed player keeps the cards of
the table conserved, whether or not the draws succeed. -/
theorem Deal_player_conserves (σ : Heap) (p : Ref) (r0 r1 : Nat) (err : List Error)
    (t d : Ref) (fresh : List Card)
    (hinv : cardsConserved σ t d fresh) (hp : p ∈ (σ.tables t).Players) :
    ∃ σ1 err1, Deal.player σ p r0 r1 err = some (σ1, err1) ∧ cardsConserved σ1 t d fresh ∧
      σ1.tables = σ.tables := by
  obtain ⟨cs, hc⟩ := hinv.2.1
  have hpT : (σ.players p).Table = some t := (hinv.2.2.1 p hp).1
  obtain ⟨σ2, h1, e0, cs1, hadd0, ht2, hp2, hd2, hT1, hc1⟩ :=
    addCard_conserves
      { σ with
          players := Function.update σ.players p
            { σ.players p with
              Hands := (σ.players p).Hands ++
                [{ Hand.zero with Table := some t, Player := some p, valid := true }] } }
      { Hand.zero with Table := some t, Player := some p, valid := true } r0 t d cs rfl
      hinv.1 hc
  obtain ⟨σ3, h2, e1, cs2, hadd1, ht3, hp3, hd3, hT2, hc2⟩ :=
    addCard_conserves σ2 h1 r1 t d cs1 hT1 (by rw [ht2]; exact hinv.1)
      (by rw [hd2]; simp)
  refine ⟨Player.setNewestHand σ3 p h2.EvalScore.1,
    appendErr (appendErr (appendErr err e0) e1) h2.EvalScore.2, ?_, ?_, ?_⟩
  · unfold Deal.player
    rw [Player_newHand_seated σ p t hpT]
    simp only [hadd0, hadd1]
  · refine conserved_step σ (Player.setNewestHand σ3 p h2.EvalScore.1) t d fresh p
      ((σ.players p).Hands ++ [h2.EvalScore.1]) cs cs2 hinv hp hc
      (by simp only [Player.setNewestHand, ht3, ht2])
      (by simp only [Player.setNewestHand, hp3, hp2, Function.update_same,
            List.dropLast_concat, Function.update_idem])
      (by simp only [Player.setNewestHand, hd3, hd2, Function.update_idem]) ?_ ?_
    · intro x hx
      rcases List.mem_append.1 hx with hx1 | hx1
      · exact (hinv.2.2.1 p hp).2 x hx1
      · rw [List.mem_singleton.1 hx1, (EvalScore_frame h2).2.1, hT2, hT1]
    · intro c
      have e1 := hc1 c
      have e2 := hc2 c
      simp only [List.flatMap_append, List.flatMap_cons, List.flatMap_nil, List.append_nil,
        List.count_append, (EvalScore_frame h2).1]
      simp only [Hand.zero, List.count_nil] at e1
      omega
  · simp only [Player.setNewestHand, ht3, ht2]

theorem Deal_players_conserves (ps : List Ref) (i : Nat) (rnd : Nat → Nat) (σ : Heap)
    (err : List Error) (t d : Ref) (fresh : List Card)
    (hinv : cardsConserved σ t d fresh) (hps : ∀ p ∈ ps, p ∈ (σ.tables t).Players) :
    ∃ σ1 err1, Deal.players ps i rnd σ err = some (σ1, err1) ∧ cardsConserved σ1 t d fresh ∧
      σ1.tables = σ.tables := by
  induction ps generalizing i σ err with
  | nil => exact ⟨σ, err, by simp [Deal.players], hinv, rfl⟩
  | cons p ps ih =>
    obtain ⟨σa, erra, hrun, hinva, hta⟩ :=
      Deal_player_conserves σ p (rnd (2 * i)) (rnd (2 * i + 1)) err t d fresh hinv
        (hps p (List.mem_cons_self _ _))
    obtain ⟨σ1, err1, hrun1, hinv1, ht1⟩ := ih (i + 1) σa erra hinva
      (fun q hq => by rw [hta]; exact hps q (List.mem_cons_of_mem _ hq))
    exact ⟨σ1, err1, by simp only [Deal.players, hrun, hrun1], hinv1, ht1.trans hta⟩

theorem flatMap_nil_of_forall (ps : List Ref) (f : Ref → List Card)
    (h : ∀ p ∈ ps, f p = []) : ps.flatMap f = [] := by
  induction ps with
  | nil => rfl
  | cons a as ih =>
    rw [List.flatMap_cons, h a (List.mem_cons_self _ _),
      ih (fun p hp => h p (List.mem_cons_of_mem _ hp))]
    rfl

/-- At the start of the player loop of `Deal`, with the players all seated at
the table, the cards of the table are exactly those of the new deck. -/
theorem dealStart_conserved (σ : Heap) (t newDeck : Ref)
    (hseated : ∀ p ∈ (σ.tables t).Players, (σ.players p).Table = some t) :
    cardsConserved (dealStart σ t newDeck) t newDeck
      ((List.replicate (σ.tables t).sDecks.toNat (NewDeckOfDecks.pack false)).flatten) := by
  have hP : ((dealStart σ t newDeck).tables t).Players = (σ.tables t).Players := by
    simp [dealStart]
  have hD : ((dealStart σ t newDeck).tables t).Deck = some newDeck := by
    simp [dealStart]
  have hC : ((dealStart σ t newDeck).decks newDeck).Cards =
      some ((List.replicate (σ.tables t).sDecks.toNat (NewDeckOfDecks.pack false)).flatten) := by
    simp [dealStart, NewDeckOfDecks]
  refine ⟨hD, ⟨_, hC⟩, ?_, ?_⟩
  · intro p hp
    rw [hP] at hp
    simp [dealStart, hp, hseated p hp]
  · intro c
    have hnil : ((dealStart σ t newDeck).tables t).Players.dedup.flatMap
        (playerCards (dealStart σ t newDeck)) = [] := by
      apply flatMap_nil_of_forall
      intro p hp
      rw [hP] at hp
      have hp := List.mem_dedup.1 hp
      simp [playerCards, dealStart, hp]
    simp only [tableCards, hnil, List.nil_append, deckCards, hD, hC, Option.getD_some]

theorem conserved_playState (σ : Heap) (t d : Ref) (fresh : List Card) (ps : Nat)
    (hinv : cardsConserved σ t d fresh) :
    cardsConserved
      { σ with tables := Function.update σ.tables t { σ.tables t with playState := ps } }
      t d fresh := by
  obtain ⟨i2, i3, i4, i5⟩ := hinv
  refine ⟨by simpa using i2, i3, ?_, ?_⟩
  · intro p hp
    exact i4 p (by simpa using hp)
  · intro c
    rw [← i5 c]
    have hpc : playerCards
        { σ with tables := Function.update σ.tables t { σ.tables t with playState := ps } } =
        playerCards σ := rfl
    simp [tableCards, deckCards, hpc]

end blackjack

/-! ## No card is dealt twice: claim C29 -/

namespace blackjack

open playdeck

/-- C29: after a `Deal` that reports no errors on a table of n packs whose
players are all seated at it, any later sequence of `Hit` and `Stick` calls on
hands of those players runs without a panic, and afterwards the cards in all
the hands of the players together with the cards left in the deck of the table
are a rearrangement of the newly built deck of n packs: each of the 52 standard
cards exactly n times and no other card. -/
theorem C29_no_card_dealt_twice (σ : Heap) (t newDeck : Ref) (rnd : Nat → Nat) (σ1 : Heap)
    (calls : List HandCall)
    (hseated : ∀ p ∈ (σ.tables t).Players, (σ.players p).Table = some t)
    (hdeal : Table.Deal σ t newDeck rnd = some (σ1, []))
    (hcalls : ∀ c ∈ calls, c.player ∈ (σ.tables t).Players) :
    ∃ σ2 fresh, runHandCalls calls σ1 = some σ2 ∧
      (NewDeckOfDecks (σ.tables t).sDecks false).Cards = some fresh ∧
      List.Perm (tableCards σ2 t) fresh ∧
      ∀ c, (tableCards σ2 t).count c =
        if standardCard c then (σ.tables t).sDecks.toNat else 0 := by
  have hps : (σ.tables t).playState = 0 ∨ (σ.tables t).playState = 3 := by
    by_contra hno
    have hboth : (σ.tables t).playState ≠ 0 ∧ (σ.tables t).playState ≠ 3 :=
      ⟨fun h => hno (Or.inl h), fun h => hno (Or.inr h)⟩
    unfold Table.Deal at hdeal
    rw [Reset_fails σ t hboth] at hdeal
    simp at hdeal
  have hstart := dealStart_conserved σ t newDeck hseated
  obtain ⟨σL, errL, hrun, hinvL, htL⟩ :=
    Deal_players_conserves (σ.tables t).Players 0 rnd (dealStart σ t newDeck) [] t newDeck _
      hstart (fun p hp => by simpa [dealStart] using hp)
  rw [Deal_of_reset σ t newDeck rnd hps, hrun] at hdeal
  simp only [Option.some.injEq, Prod.mk.injEq] at hdeal
  have hinv1 : cardsConserved σ1 t newDeck
      ((List.replicate (σ.tables t).sDecks.toNat (NewDeckOfDecks.pack false)).flatten) := by
    rw [← hdeal.1]
    exact conserved_playState σL t newDeck _ 1 hinvL
  have hP1 : (σ1.tables t).Players = (σ.tables t).Players := by
    rw [← hdeal.1]
    simp [htL, dealStart]
  obtain ⟨σ2, hcallsrun, hinv2⟩ := runHandCalls_conserves calls σ1 t newDeck _ hinv1
    (fun c hc => by rw [hP1]; exact hcalls c hc)
  refine ⟨σ2, _, hcallsrun, rfl, List.perm_iff_count.2 hinv2.2.2.2, fun c => ?_⟩
  rw [hinv2.2.2.2 c, count_replicate_flatten, count_pack]
  simp

theorem C29_no_card_dealt_twice_witness :
    ∃ σ1 σ2,
      Table.Deal (gameHeap none 0) 0 1 (fun i => 3 * i + 1) = some (σ1, []) ∧
      runHandCalls [HandCall.Hit 0 0 5, HandCall.Stick 0 0] σ1 = some σ2 ∧
      (tableCards σ2 0).count { Suit := SuitSpade, Value := ValueAce } = 1 ∧
      (tableCards σ2 0).count jokerCard = 0 := by
  have hdeal : Table.Deal (gameHeap none 0) 0 1 (fun i => 3 * i + 1) =
      some (((Table.Deal (gameHeap none 0) 0 1 (fun i => 3 * i + 1)).getD
        (gameHeap none 0, [])).1, []) := rfl
  obtain ⟨σ2, _, h1, _, _, h4⟩ :=
    C29_no_card_dealt_twice (gameHeap none 0) 0 1 (fun i => 3 * i + 1) _
      [HandCall.Hit 0 0 5, HandCall.Stick 0 0]
      (by decide) hdeal (by decide)
  exact ⟨_, σ2, hdeal, h1, by rw [h4]; rfl, by rw [h4]; rfl⟩

end blackjack

/-! ## Lemmas on the locks -/

namespace blackjack

theorem runLocks_append (a b : List LockCall) (L : LockState) :
    runLocks (a ++ b) L = (runLocks a L).bind (runLocks b) := by
  induction a generalizing L with
  | nil => rfl
  | cons c rest ih =>
    cases h : L.call c with
    | none => simp [runLocks, h]
    | some L1 => simp [runLocks, h, ih]

theorem locksLeft_nil : locksLeft [] [] := by
  intro L L1 h
  simp only [runLocks, Option.some.injEq] at h
  subst h
  simp

theorem locksLeft_append (a b : List LockCall) (hs1 hs2 : List Nat)
    (ha : locksLeft a hs1) (hb : locksLeft b hs2) : locksLeft (a ++ b) (hs2 ++ hs1) := by
  intro L L2 h
  rw [runLocks_append] at h
  cases h1 : runLocks a L with
  | none => simp [h1] at h
  | some L1 =>
    rw [h1] at h
    simp only [Option.some_bind] at h
    obtain ⟨r1, w1⟩ := ha L L1 h1
    obtain ⟨r2, w2⟩ := hb L1 L2 h
    exact ⟨by rw [r2, r1], by rw [w2, w1]; simp⟩

theorem locksLeft_lock (h : Nat) : locksLeft [LockCall.Lock (Mutex.hand h)] [h] := by
  intro L L1 hr
  by_cases hheld : Mutex.hand h ∈ L.writers ∨ Mutex.hand h ∈ L.readers
  · simp [runLocks, LockState.call, hheld] at hr
  · simp only [runLocks, LockState.call, if_neg hheld, Option.some.injEq] at hr
    subst hr
    simp

/-- A write lock taken first and released last adds nothing to what the calls
in between leave locked, when those leave no lock on the same mutex. -/
theorem locksLeft_wrap (m : Mutex) (calls : List LockCall) (hs : List Nat)
    (hm : ∀ h ∈ hs, m ≠ Mutex.hand h) (hin : locksLeft calls hs) :
    locksLeft ([LockCall.Lock m] ++ calls ++ [LockCall.Unlock m]) hs := by
  intro L L2 hr
  rw [runLocks_append, runLocks_append] at hr
  by_cases hheld : m ∈ L.writers ∨ m ∈ L.readers
  · simp [runLocks, LockState.call, hheld] at hr
  · have h0 : runLocks [LockCall.Lock m] L = some { L with writers := m :: L.writers } := by
      simp [runLocks, LockState.call, hheld]
    rw [h0] at hr
    simp only [Option.some_bind] at hr
    cases h1 : runLocks calls { L with writers := m :: L.writers } with
    | none => simp [h1] at hr
    | some L1 =>
      rw [h1] at hr
      obtain ⟨r1, w1⟩ := hin _ L1 h1
      have hmem : m ∈ L1.writers := by rw [w1]; simp
      have hnot : m ∉ hs.map Mutex.hand := by
        intro hmm
        obtain ⟨h, hh, he⟩ := List.mem_map.1 hmm
        exact hm h hh he.symm
      simp only [Option.some_bind, runLocks, LockState.call, if_pos hmem,
        Option.some.injEq] at hr
      subst hr
      refine ⟨r1, ?_⟩
      show L1.writers.erase m = _
      rw [w1, List.erase_append_right _ hnot, List.erase_cons_head]

/-- A read lock taken first and released last adds nothing either. -/
theorem locksLeft_rwrap (m : Mutex) (calls : List LockCall) (hs : List Nat)
    (hin : locksLeft calls hs) :
    locksLeft ([LockCall.RLock m] ++ calls ++ [LockCall.RUnlock m]) hs := by
  intro L L2 hr
  rw [runLocks_append, runLocks_append] at hr
  by_cases hheld : m ∈ L.writers
  · simp [runLocks, LockState.call, hheld] at hr
  · have h0 : runLocks [LockCall.RLock m] L = some { L with readers := m :: L.readers } := by
      simp [runLocks, LockState.call, hheld]
    rw [h0] at hr
    simp only [Option.some_bind] at hr
    cases h1 : runLocks calls { L with readers := m :: L.readers } with
    | none => simp [h1] at hr
    | some L1 =>
      rw [h1] at hr
      obtain ⟨r1, w1⟩ := hin _ L1 h1
      have hmem : m ∈ L1.readers := by rw [r1]; simp
      simp only [Option.some_bind, runLocks, LockState.call, if_pos hmem,
        Option.some.injEq] at hr
      subst hr
      refine ⟨?_, w1⟩
      show L1.readers.erase m = _
      rw [r1, List.erase_cons_head]

theorem locksLeft_pair (m : Mutex) :
    locksLeft [LockCall.Lock m, LockCall.Unlock m] [] :=
  locksLeft_wrap m [] [] (fun _ h => absurd h (List.not_mem_nil _)) locksLeft_nil

theorem locksLeft_rpair (m : Mutex) :
    locksLeft [LockCall.RLock m, LockCall.RUnlock m] [] :=
  locksLeft_rwrap m [] [] locksLeft_nil

theorem locksLeft_flatMap {α : Type} (xs : List α) (f : α → List LockCall)
    (g : α → List Nat) (h : ∀ x ∈ xs, locksLeft (f x) (g x)) :
    locksLeft (xs.flatMap f) (xs.reverse.flatMap g) := by
  induction xs with
  | nil => exact locksLeft_nil
  | cons x rest ih =>
    have h1 := locksLeft_append (f x) (rest.flatMap f) (g x) (rest.reverse.flatMap g)
      (h x (List.mem_cons_self _ _)) (ih (fun y hy => h y (List.mem_cons_of_mem _ hy)))
    have he : (x :: rest).reverse.flatMap g = rest.reverse.flatMap g ++ g x := by
      simp [List.flatMap_append]
    rw [List.flatMap_cons, he]
    exact h1

theorem locksLeft_flatMap_nil {α : Type} (xs : List α) (f : α → List LockCall)
    (h : ∀ x ∈ xs, locksLeft (f x) []) : locksLeft (xs.flatMap f) [] := by
  induction xs with
  | nil => exact locksLeft_nil
  | cons x rest ih =>
    rw [List.flatMap_cons]
    exact locksLeft_append (f x) (rest.flatMap f) [] []
      (h x (List.mem_cons_self _ _)) (ih (fun y hy => h y (List.mem_cons_of_mem _ hy)))

theorem locksLeft_lockHands (hands : List Nat) :
    locksLeft (hands.map (fun h => LockCall.Lock (Mutex.hand h))) hands.reverse := by
  induction hands with
  | nil => exact locksLeft_nil
  | cons h rest ih =>
    rw [List.reverse_cons]
    exact locksLeft_append [LockCall.Lock (Mutex.hand h)] _ [h] rest.reverse
      (locksLeft_lock h) ih

theorem locksLeft_canPlay (h : Nat) (player : Option Ref) :
    locksLeft (locks.canPlay h player) [] := by
  unfold locks.canPlay
  apply locksLeft_rwrap
  cases player with
  | none => exact locksLeft_nil
  | some p => exact locksLeft_rpair _

theorem locksLeft_addCard (h : Nat) (d : Ref) : locksLeft (locks.addCard h d) [] := by
  unfold locks.addCard
  exact locksLeft_wrap _ _ [] (fun _ hh => absurd hh (List.not_mem_nil _)) (locksLeft_pair _)

theorem locksLeft_Hit (h : Nat) (player : Option Ref) (d : Ref) (played drawn : Bool) :
    locksLeft (locks.Hit h player d played drawn) [] := by
  unfold locks.Hit
  apply locksLeft_append _ _ [] [] (locksLeft_canPlay h player)
  cases played with
  | false => exact locksLeft_nil
  | true =>
    apply locksLeft_append _ _ [] [] (locksLeft_addCard h d)
    cases drawn with
    | false => exact locksLeft_nil
    | true => exact locksLeft_pair _

theorem locksLeft_Stick (h : Nat) (wasLocked : Bool) :
    locksLeft (locks.Stick h wasLocked) [] := by
  unfold locks.Stick
  apply locksLeft_append _ _ [] [] (locksLeft_pair _)
  cases wasLocked with
  | false => exact locksLeft_pair _
  | true => exact locksLeft_nil

theorem locksLeft_clearHands (p : Ref) (hands : List Nat) :
    locksLeft (locks.clearHands p hands) hands.reverse := by
  unfold locks.clearHands
  exact locksLeft_wrap _ _ _ (fun _ _ he => Mutex.noConfusion he) (locksLeft_lockHands hands)

theorem locksLeft_Reset (t : Ref) (inPlay : Bool) (seats : List Seat) :
    locksLeft (locks.Reset t inPlay seats)
      (if inPlay then [] else seats.reverse.flatMap (fun s => s.hands.reverse)) := by
  unfold locks.Reset
  apply locksLeft_wrap _ _ _ (fun _ _ he => Mutex.noConfusion he)
  cases inPlay with
  | true => exact locksLeft_nil
  | false =>
    exact locksLeft_flatMap seats _ (fun s => s.hands.reverse)
      (fun s _ => locksLeft_clearHands s.player s.hands)

theorem locksLeft_Deal_seat (s : Seat) : locksLeft (locks.Deal.seat s) [] := by
  unfold locks.Deal.seat
  apply locksLeft_append _ _ [] [] (locksLeft_pair _)
  cases s.seated with
  | false => exact locksLeft_nil
  | true =>
    exact locksLeft_append _ _ [] []
      (locksLeft_append _ _ [] [] (locksLeft_addCard _ _) (locksLeft_addCard _ _))
      (locksLeft_pair _)

theorem locksLeft_Deal (t : Ref) (inPlay : Bool) (seats : List Seat) :
    locksLeft (locks.Deal t inPlay seats)
      (if inPlay then [] else seats.reverse.flatMap (fun s => s.hands.reverse)) := by
  unfold locks.Deal
  apply locksLeft_append _ _ _ [] (locksLeft_Reset t inPlay seats)
  cases inPlay with
  | true => exact locksLeft_nil
  | false =>
    exact locksLeft_wrap _ _ [] (fun _ hh => absurd hh (List.not_mem_nil _))
      (locksLeft_flatMap_nil seats _ (fun s _ => locksLeft_Deal_seat s))

/-- Every core operation that returns leaves locked exactly the hands that it
discards. -/
theorem CoreOp_locksLeft (op : CoreOp) : locksLeft op.locks op.discarded := by
  cases op with
  | PullRandomCard d => exact locksLeft_pair _
  | PullCard d => exact locksLeft_pair _
  | PushCard d => exact locksLeft_pair _
  | Shuffle d => exact locksLeft_pair _
  | Hit h player d played drawn => exact locksLeft_Hit h player d played drawn
  | Stick h wasLocked => exact locksLeft_Stick h wasLocked
  | EvalScore h => exact locksLeft_pair _
  | Score h => exact locksLeft_rpair _
  | newHand p => exact locksLeft_pair _
  | clearHands p hands => exact locksLeft_clearHands p hands
  | Join t p =>
    exact locksLeft_wrap (Mutex.table t) [LockCall.Lock (Mutex.player p),
      LockCall.Unlock (Mutex.player p)] [] (fun _ hh => absurd hh (List.not_mem_nil _))
      (locksLeft_pair _)
  | Reset t inPlay seats => exact locksLeft_Reset t inPlay seats
  | Deal t inPlay seats => exact locksLeft_Deal t inPlay seats
  | EndRound t => exact locksLeft_pair _

/-- An operation that is not `clearHands`, `Reset` or `Deal`, started with no
mutex held, returns with no mutex held. -/
theorem CoreOp_returns (op : CoreOp) (h : op.clears = false) :
    runLocks op.locks LockState.free = some LockState.free := by
  cases op with
  | PullRandomCard d => simp [CoreOp.locks, locks.PullRandomCard, runLocks, LockState.call,
      LockState.free]
  | PullCard d => simp [CoreOp.locks, locks.PullCard, runLocks, LockState.call, LockState.free]
  | PushCard d => simp [CoreOp.locks, locks.PushCard, runLocks, LockState.call, LockState.free]
  | Shuffle d => simp [CoreOp.locks, locks.Shuffle, runLocks, LockState.call, LockState.free]
  | Hit h player d played drawn =>
    cases player <;> cases played <;> cases drawn <;>
      simp [CoreOp.locks, locks.Hit, locks.canPlay, locks.addCard, locks.PullRandomCard,
        locks.EvalScore, runLocks, LockState.call, LockState.free]
  | Stick h wasLocked =>
    cases wasLocked <;>
      simp [CoreOp.locks, locks.Stick, locks.lockHand, locks.EvalScore, runLocks,
        LockState.call, LockState.free]
  | EvalScore h => simp [CoreOp.locks, locks.EvalScore, runLocks, LockState.call, LockState.free]
  | Score h => simp [CoreOp.locks, locks.Score, runLocks, LockState.call, LockState.free]
  | newHand p => simp [CoreOp.locks, locks.newHand, runLocks, LockState.call, LockState.free]
  | clearHands p hands => simp [CoreOp.clears] at h
  | Join t p => simp [CoreOp.locks, locks.Join, runLocks, LockState.call, LockState.free]
  | Reset t inPlay seats => simp [CoreOp.clears] at h
  | Deal t inPlay seats => simp [CoreOp.clears] at h
  | EndRound t => simp [CoreOp.locks, locks.EndRound, runLocks, LockState.call, LockState.free]

theorem CoreOps_return (ops : List CoreOp) (h : ∀ op ∈ ops, op.clears = false) :
    runLocks (ops.flatMap CoreOp.locks) LockState.free = some LockState.free := by
  induction ops with
  | nil => rfl
  | cons op rest ih =>
    rw [List.flatMap_cons, runLocks_append, CoreOp_returns op (h op (List.mem_cons_self _ _))]
    exact ih (fun o ho => h o (List.mem_cons_of_mem _ ho))

end blackjack

/-! ## Lemmas on operations that return and operations that block -/

namespace blackjack

theorem runLocks_append_none (a b : List LockCall) (L : LockState)
    (h : runLocks a L = none) : runLocks (a ++ b) L = none := by
  rw [runLocks_append, h]
  rfl

theorem runLocks_append_some (a b : List LockCall) (L L1 : LockState)
    (h : runLocks a L = some L1) : runLocks (a ++ b) L = runLocks b L1 := by
  rw [runLocks_append, h]
  rfl

theorem mem_hands (h : Nat) (H : List Nat) : Mutex.hand h ∈ H.map Mutex.hand ↔ h ∈ H := by
  simp

/-- A write lock taken first and released last around calls that run to their
end and leave the mutexes `W1` held on top. -/
theorem wrap_runs (m : Mutex) (calls : List LockCall) (W W1 : List Mutex)
    (hm : m ∉ W) (hm1 : m ∉ W1)
    (hin : runLocks calls (heldLocks (m :: W)) = some (heldLocks (W1 ++ m :: W))) :
    runLocks ([LockCall.Lock m] ++ calls ++ [LockCall.Unlock m]) (heldLocks W) =
      some (heldLocks (W1 ++ W)) := by
  have h0 : runLocks [LockCall.Lock m] (heldLocks W) = some (heldLocks (m :: W)) := by
    simp [runLocks, LockState.call, heldLocks, hm]
  rw [runLocks_append_some _ _ _ _ (by rw [runLocks_append_some _ _ _ _ h0]; exact hin)]
  have hmem : m ∈ W1 ++ m :: W := by simp
  simp only [runLocks, LockState.call, heldLocks, if_pos hmem]
  rw [List.erase_append_right _ hm1, List.erase_cons_head]

theorem wrap_blocks (m : Mutex) (calls : List LockCall) (W : List Mutex)
    (hin : runLocks calls (heldLocks (m :: W)) = none) :
    runLocks ([LockCall.Lock m] ++ calls ++ [LockCall.Unlock m]) (heldLocks W) = none := by
  apply runLocks_append_none
  by_cases hm : m ∈ W
  · apply runLocks_append_none
    simp [runLocks, LockState.call, heldLocks, hm]
  · have h0 : runLocks [LockCall.Lock m] (heldLocks W) = some (heldLocks (m :: W)) := by
      simp [runLocks, LockState.call, heldLocks, hm]
    rw [runLocks_append_some _ _ _ _ h0]
    exact hin

theorem pair_runs (m : Mutex) (W : List Mutex) (hm : m ∉ W) :
    runLocks [LockCall.Lock m, LockCall.Unlock m] (heldLocks W) = some (heldLocks W) := by
  simp [runLocks, LockState.call, heldLocks, hm]

theorem pair_blocks (m : Mutex) (W : List Mutex) (hm : m ∈ W) :
    runLocks [LockCall.Lock m, LockCall.Unlock m] (heldLocks W) = none := by
  simp [runLocks, LockState.call, heldLocks, hm]

theorem addCard_runs (h : Nat) (d : Ref) (W : List Mutex)
    (hh : Mutex.hand h ∉ W) (hd : Mutex.deck d ∉ W) :
    runLocks (locks.addCard h d) (heldLocks W) = some (heldLocks W) := by
  simp [locks.addCard, locks.PullRandomCard, runLocks, LockState.call, heldLocks, hh, hd]

theorem addCard_blocks (h : Nat) (d : Ref) (W : List Mutex) (hh : Mutex.hand h ∈ W) :
    runLocks (locks.addCard h d) (heldLocks W) = none := by
  simp [locks.addCard, locks.PullRandomCard, runLocks, LockState.call, heldLocks, hh]

theorem Hit_runs (h : Nat) (player : Option Ref) (d : Ref) (played drawn : Bool)
    (W : List Mutex) (hh : Mutex.hand h ∉ W) (hd : Mutex.deck d ∉ W)
    (hp : ∀ p, Mutex.player p ∉ W) :
    runLocks (locks.Hit h player d played drawn) (heldLocks W) = some (heldLocks W) := by
  cases player with
  | none =>
    cases played <;> cases drawn <;>
      simp [locks.Hit, locks.canPlay, locks.addCard, locks.PullRandomCard, locks.EvalScore,
        runLocks, LockState.call, heldLocks, hh, hd]
  | some p =>
    have hpp := hp p
    cases played <;> cases drawn <;>
      simp [locks.Hit, locks.canPlay, locks.addCard, locks.PullRandomCard, locks.EvalScore,
        runLocks, LockState.call, heldLocks, hh, hd, hpp]

theorem Hit_blocks (h : Nat) (player : Option Ref) (d : Ref) (played drawn : Bool)
    (W : List Mutex) (hh : Mutex.hand h ∈ W) :
    runLocks (locks.Hit h player d played drawn) (heldLocks W) = none := by
  simp [locks.Hit, locks.canPlay, runLocks, LockState.call, heldLocks, hh]

theorem Stick_runs (h : Nat) (wasLocked : Bool) (W : List Mutex) (hh : Mutex.hand h ∉ W) :
    runLocks (locks.Stick h wasLocked) (heldLocks W) = some (heldLocks W) := by
  cases wasLocked <;>
    simp [locks.Stick, locks.lockHand, locks.EvalScore, runLocks, LockState.call, heldLocks, hh]

theorem Stick_blocks (h : Nat) (wasLocked : Bool) (W : List Mutex) (hh : Mutex.hand h ∈ W) :
    runLocks (locks.Stick h wasLocked) (heldLocks W) = none := by
  simp [locks.Stick, locks.lockHand, runLocks, LockState.call, heldLocks, hh]

theorem Score_runs (h : Nat) (W : List Mutex) (hh : Mutex.hand h ∉ W) :
    runLocks (locks.Score h) (heldLocks W) = some (heldLocks W) := by
  simp [locks.Score, runLocks, LockState.call, heldLocks, hh]

theorem Score_blocks (h : Nat) (W : List Mutex) (hh : Mutex.hand h ∈ W) :
    runLocks (locks.Score h) (heldLocks W) = none := by
  simp [locks.Score, runLocks, LockState.call, heldLocks, hh]

/-- Locking hands one after the other goes through when they are distinct and
none of them is held. -/
theorem lockHands_runs (hands : List Nat) (W : List Mutex)
    (hh : ∀ h ∈ hands, Mutex.hand h ∉ W) (hnd : hands.Nodup) :
    runLocks (hands.map (fun h => LockCall.Lock (Mutex.hand h))) (heldLocks W) =
      some (heldLocks (hands.reverse.map Mutex.hand ++ W)) := by
  induction hands generalizing W with
  | nil => rfl
  | cons a rest ih =>
    obtain ⟨hna, hnd1⟩ := List.nodup_cons.1 hnd
    have ha := hh a (List.mem_cons_self _ _)
    have h0 : (heldLocks W).call (LockCall.Lock (Mutex.hand a)) =
        some (heldLocks (Mutex.hand a :: W)) := by
      simp [LockState.call, heldLocks, ha]
    simp only [List.map_cons, runLocks, h0]
    rw [ih (Mutex.hand a :: W) (fun h hr => ?_) hnd1]
    · simp
    · intro hc
      rcases List.mem_cons.1 hc with heq | hw
      · have : h = a := Mutex.hand.inj heq
        exact hna (this ▸ hr)
      · exact hh h (List.mem_cons_of_mem _ hr) hw

theorem lockHands_blocks (hands : List Nat) (W : List Mutex)
    (hin : ∃ h ∈ hands, Mutex.hand h ∈ W) :
    runLocks (hands.map (fun h => LockCall.Lock (Mutex.hand h))) (heldLocks W) = none := by
  induction hands generalizing W with
  | nil =>
    obtain ⟨h, hh, _⟩ := hin
    exact absurd hh (List.not_mem_nil _)
  | cons a rest ih =>
    by_cases ha : Mutex.hand a ∈ W
    · simp [runLocks, LockState.call, heldLocks, ha]
    · have h0 : (heldLocks W).call (LockCall.Lock (Mutex.hand a)) =
          some (heldLocks (Mutex.hand a :: W)) := by
        simp [LockState.call, heldLocks, ha]
      simp only [List.map_cons, runLocks, h0]
      apply ih
      obtain ⟨h, hh, hw⟩ := hin
      rcases List.mem_cons.1 hh with heq | hr
      · exact absurd (heq ▸ hw) ha
      · exact ⟨h, hr, List.mem_cons_of_mem _ hw⟩

theorem clearHands_runs (p : Ref) (hands : List Nat) (W : List Mutex)
    (hp : Mutex.player p ∉ W) (hh : ∀ h ∈ hands, Mutex.hand h ∉ W) (hnd : hands.Nodup) :
    runLocks (locks.clearHands p hands) (heldLocks W) =
      some (heldLocks (hands.reverse.map Mutex.hand ++ W)) := by
  unfold locks.clearHands
  apply wrap_runs _ _ _ _ hp (by simp)
  apply lockHands_runs _ _ _ hnd
  intro h hr hc
  rcases List.mem_cons.1 hc with heq | hw
  · exact Mutex.noConfusion heq
  · exact hh h hr hw

theorem clearHands_blocks (p : Ref) (hands : List Nat) (W : List Mutex)
    (hin : ∃ h ∈ hands, Mutex.hand h ∈ W) :
    runLocks (locks.clearHands p hands) (heldLocks W) = none := by
  unfold locks.clearHands
  apply wrap_blocks
  apply lockHands_blocks
  obtain ⟨h, hh, hw⟩ := hin
  exact ⟨h, hh, List.mem_cons_of_mem _ hw⟩

/-- What a sequence of calls that is known to leave the hands `hs` locked gives
when started with write locks only: nothing, or those hands on top. -/
theorem locksLeft_held (calls : List LockCall) (hs : List Nat) (W : List Mutex)
    (hl : locksLeft calls hs) :
    runLocks calls (heldLocks W) = none ∨
    runLocks calls (heldLocks W) = some (heldLocks (hs.map Mutex.hand ++ W)) := by
  cases hr : runLocks calls (heldLocks W) with
  | none => exact Or.inl rfl
  | some L1 =>
    obtain ⟨r1, w1⟩ := hl _ L1 hr
    right
    cases L1 with
    | mk w r =>
      simp only [heldLocks] at r1 w1 ⊢
      rw [r1, w1]

end blackjack

/-! ## Lemmas on table operations that return and that block -/

namespace blackjack

theorem mem_discarded_seats (seats : List Seat) (h : Nat) :
    h ∈ seats.reverse.flatMap (fun s => s.hands.reverse) ↔
      h ∈ seats.flatMap (fun s => s.hands) := by
  simp [List.mem_flatMap]

/-- The loop of `Reset` over the players goes through when no hand to discard is
held and the hands are distinct. -/
theorem resetLoop_runs (seats : List Seat) (W : List Mutex)
    (hp : ∀ p, Mutex.player p ∉ W)
    (hh : ∀ s ∈ seats, ∀ h ∈ s.hands, Mutex.hand h ∉ W)
    (hnd : (seats.flatMap (fun s => s.hands)).Nodup) :
    runLocks (seats.flatMap (fun s => locks.clearHands s.player s.hands)) (heldLocks W) =
      some (heldLocks
        ((seats.reverse.flatMap (fun s => s.hands.reverse)).map Mutex.hand ++ W)) := by
  induction seats generalizing W with
  | nil => rfl
  | cons s rest ih =>
    rw [List.flatMap_cons] at hnd ⊢
    obtain ⟨nd1, nd2, hdis⟩ := List.nodup_append.1 hnd
    rw [runLocks_append_some _ _ _ _
      (clearHands_runs s.player s.hands W (hp _) (hh s (List.mem_cons_self _ _)) nd1)]
    rw [ih (s.hands.reverse.map Mutex.hand ++ W) (fun p hc => ?_) (fun s1 hs1 h hh1 hc => ?_) nd2]
    · congr 2
      simp [List.flatMap_append]
    · rcases List.mem_append.1 hc with hc1 | hc2
      · obtain ⟨x, _, hx⟩ := List.mem_map.1 hc1
        exact Mutex.noConfusion hx
      · exact hp p hc2
    · rcases List.mem_append.1 hc with hc1 | hc2
      · have hin : h ∈ s.hands := by
          have := (mem_hands h s.hands.reverse).1 hc1
          exact List.mem_reverse.1 this
        exact hdis hin (List.mem_flatMap.2 ⟨s1, hs1, hh1⟩)
      · exact hh s1 (List.mem_cons_of_mem _ hs1) h hh1 hc2

theorem resetLoop_blocks (seats : List Seat) (W : List Mutex)
    (hin : ∃ s ∈ seats, ∃ h ∈ s.hands, Mutex.hand h ∈ W) :
    runLocks (seats.flatMap (fun s => locks.clearHands s.player s.hands)) (heldLocks W) =
      none := by
  induction seats generalizing W with
  | nil =>
    obtain ⟨s, hs, _⟩ := hin
    exact absurd hs (List.not_mem_nil _)
  | cons s rest ih =>
    rw [List.flatMap_cons]
    by_cases hfirst : ∃ h ∈ s.hands, Mutex.hand h ∈ W
    · exact runLocks_append_none _ _ _ (clearHands_blocks s.player s.hands W hfirst)
    · rcases locksLeft_held _ _ W (locksLeft_clearHands s.player s.hands) with hn | hsome
      · exact runLocks_append_none _ _ _ hn
      · rw [runLocks_append_some _ _ _ _ hsome]
        apply ih
        obtain ⟨s1, hs1, h, hh1, hw⟩ := hin
        rcases List.mem_cons.1 hs1 with heq | hr
        · subst heq
          exact absurd ⟨h, hh1, hw⟩ hfirst
        · exact ⟨s1, hr, h, hh1, List.mem_append_right _ hw⟩

theorem Reset_runs (t : Ref) (inPlay : Bool) (seats : List Seat) (W : List Mutex)
    (ht : Mutex.table t ∉ W) (hp : ∀ p, Mutex.player p ∉ W)
    (hh : inPlay = false → ∀ s ∈ seats, ∀ h ∈ s.hands, Mutex.hand h ∉ W)
    (hnd : inPlay = false → (seats.flatMap (fun s => s.hands)).Nodup) :
    runLocks (locks.Reset t inPlay seats) (heldLocks W) =
      some (heldLocks
        ((if inPlay then [] else seats.reverse.flatMap (fun s => s.hands.reverse)).map
          Mutex.hand ++ W)) := by
  unfold locks.Reset
  cases inPlay with
  | true => simp [runLocks, LockState.call, heldLocks, ht]
  | false =>
    simp only [Bool.false_eq_true, if_false]
    apply wrap_runs _ _ _ _ ht
    · intro hc
      obtain ⟨x, _, hx⟩ := List.mem_map.1 hc
      exact Mutex.noConfusion hx
    · apply resetLoop_runs _ _ _ _ (hnd rfl)
      · intro p hc
        rcases List.mem_cons.1 hc with heq | hw
        · exact Mutex.noConfusion heq
        · exact hp p hw
      · intro s hs h hh1 hc
        rcases List.mem_cons.1 hc with heq | hw
        · exact Mutex.noConfusion heq
        · exact hh rfl s hs h hh1 hw

theorem Reset_blocks (t : Ref) (seats : List Seat) (W : List Mutex)
    (hin : ∃ s ∈ seats, ∃ h ∈ s.hands, Mutex.hand h ∈ W) :
    runLocks (locks.Reset t false seats) (heldLocks W) = none := by
  unfold locks.Reset
  simp only [Bool.false_eq_true, if_false]
  apply wrap_blocks
  apply resetLoop_blocks
  obtain ⟨s, hs, h, hh1, hw⟩ := hin
  exact ⟨s, hs, h, hh1, List.mem_cons_of_mem _ hw⟩

theorem dealSeat_runs (s : Seat) (W : List Mutex)
    (hp : Mutex.player s.player ∉ W) (hd : Mutex.deck s.deck ∉ W)
    (hh : s.seated = true → Mutex.hand s.newHand ∉ W) :
    runLocks (locks.Deal.seat s) (heldLocks W) = some (heldLocks W) := by
  unfold locks.Deal.seat
  cases hs : s.seated with
  | false => simp [locks.newHand, runLocks, LockState.call, heldLocks, hp]
  | true =>
    have hn := hh hs
    simp [locks.newHand, locks.addCard, locks.PullRandomCard, locks.EvalScore, runLocks,
      LockState.call, heldLocks, hp, hd, hn]

theorem dealSeat_blocks (s : Seat) (W : List Mutex)
    (hs : s.seated = true) (hin : Mutex.hand s.newHand ∈ W) :
    runLocks (locks.Deal.seat s) (heldLocks W) = none := by
  unfold locks.Deal.seat
  by_cases hp : Mutex.player s.player ∈ W
  · simp [locks.newHand, runLocks, LockState.call, heldLocks, hp]
  · simp [locks.newHand, locks.addCard, runLocks, LockState.call, heldLocks, hp, hs, hin]

theorem dealLoop_runs (seats : List Seat) (W : List Mutex)
    (hp : ∀ p, Mutex.player p ∉ W) (hd : ∀ d, Mutex.deck d ∉ W)
    (hh : ∀ s ∈ seats, s.seated = true → Mutex.hand s.newHand ∉ W) :
    runLocks (seats.flatMap locks.Deal.seat) (heldLocks W) = some (heldLocks W) := by
  induction seats with
  | nil => rfl
  | cons s rest ih =>
    rw [List.flatMap_cons, runLocks_append_some _ _ _ _
      (dealSeat_runs s W (hp _) (hd _) (hh s (List.mem_cons_self _ _)))]
    exact ih (fun s1 hs1 => hh s1 (List.mem_cons_of_mem _ hs1))

theorem dealLoop_blocks (seats : List Seat) (W : List Mutex)
    (hp : ∀ p, Mutex.player p ∉ W) (hd : ∀ d, Mutex.deck d ∉ W)
    (hin : ∃ s ∈ seats, s.seated = true ∧ Mutex.hand s.newHand ∈ W) :
    runLocks (seats.flatMap locks.Deal.seat) (heldLocks W) = none := by
  induction seats with
  | nil =>
    obtain ⟨s, hs, _⟩ := hin
    exact absurd hs (List.not_mem_nil _)
  | cons s rest ih =>
    rw [List.flatMap_cons]
    by_cases hfirst : s.seated = true ∧ Mutex.hand s.newHand ∈ W
    · exact runLocks_append_none _ _ _ (dealSeat_blocks s W hfirst.1 hfirst.2)
    · rw [runLocks_append_some _ _ _ _
        (dealSeat_runs s W (hp _) (hd _) (fun hs hc => hfirst ⟨hs, hc⟩))]
      apply ih
      obtain ⟨s1, hs1, hseat, hw⟩ := hin
      rcases List.mem_cons.1 hs1 with heq | hr
      · subst heq
        exact absurd ⟨hseat, hw⟩ hfirst
      · exact ⟨s1, hr, hseat, hw⟩

theorem Deal_runs (t : Ref) (inPlay : Bool) (seats : List Seat) (W : List Mutex)
    (ht : Mutex.table t ∉ W) (hp : ∀ p, Mutex.player p ∉ W) (hd : ∀ d, Mutex.deck d ∉ W)
    (hh : inPlay = false → ∀ s ∈ seats, ∀ h ∈ s.hands, Mutex.hand h ∉ W)
    (hnd : inPlay = false → (seats.flatMap (fun s => s.hands)).Nodup)
    (hnew : inPlay = false → ∀ s ∈ seats, s.seated = true →
      s.newHand ∉ seats.flatMap (fun s => s.hands) ∧ Mutex.hand s.newHand ∉ W) :
    runLocks (locks.Deal t inPlay seats) (heldLocks W) =
      some (heldLocks
        ((if inPlay then [] else seats.reverse.flatMap (fun s => s.hands.reverse)).map
          Mutex.hand ++ W)) := by
  unfold locks.Deal
  rw [runLocks_append_some _ _ _ _ (Reset_runs t inPlay seats W ht hp hh hnd)]
  cases inPlay with
  | true => rfl
  | false =>
    simp only [Bool.false_eq_true, if_false]
    have hnot : ∀ m, (∀ h, m ≠ Mutex.hand h) → m ∉ W →
        m ∉ (seats.reverse.flatMap (fun s => s.hands.reverse)).map Mutex.hand ++ W := by
      intro m hm hw hc
      rcases List.mem_append.1 hc with hc1 | hc2
      · obtain ⟨x, _, hx⟩ := List.mem_map.1 hc1
        exact hm x hx.symm
      · exact hw hc2
    have hcons : ∀ m, m ≠ Mutex.table t →
        m ∉ (seats.reverse.flatMap (fun s => s.hands.reverse)).map Mutex.hand ++ W →
        m ∉ Mutex.table t ::
          ((seats.reverse.flatMap (fun s => s.hands.reverse)).map Mutex.hand ++ W) := by
      intro m hm hw hc
      rcases List.mem_cons.1 hc with heq | hr
      · exact hm heq
      · exact hw hr
    have key := wrap_runs (Mutex.table t) (seats.flatMap locks.Deal.seat)
      ((seats.reverse.flatMap (fun s => s.hands.reverse)).map Mutex.hand ++ W) []
      (hnot _ (fun _ he => Mutex.noConfusion he) ht) (List.not_mem_nil _)
      (dealLoop_runs seats _
        (fun p => hcons _ (fun he => Mutex.noConfusion he)
          (hnot _ (fun _ he => Mutex.noConfusion he) (hp p)))
        (fun d => hcons _ (fun he => Mutex.noConfusion he)
          (hnot _ (fun _ he => Mutex.noConfusion he) (hd d)))
        (fun s hs hseat => hcons _ (fun he => Mutex.noConfusion he) (fun hc => by
          rcases List.mem_append.1 hc with hc1 | hc2
          · have h1 := (mem_hands _ _).1 hc1
            exact (hnew rfl s hs hseat).1 ((mem_discarded_seats seats _).1 h1)
          · exact (hnew rfl s hs hseat).2 hc2)))
    exact key

theorem Deal_blocks (t : Ref) (seats : List Seat) (W : List Mutex)
    (hp : ∀ p, Mutex.player p ∉ W) (hd : ∀ d, Mutex.deck d ∉ W)
    (hin : (∃ s ∈ seats, ∃ h ∈ s.hands, Mutex.hand h ∈ W) ∨
      (∃ s ∈ seats, s.seated = true ∧ Mutex.hand s.newHand ∈ W)) :
    runLocks (locks.Deal t false seats) (heldLocks W) = none := by
  unfold locks.Deal
  rcases hin with hin | hin
  · exact runLocks_append_none _ _ _ (Reset_blocks t seats W hin)
  · rcases locksLeft_held _ _ W (locksLeft_Reset t false seats) with hn | hsome
    · exact runLocks_append_none _ _ _ hn
    · rw [runLocks_append_some _ _ _ _ hsome]
      simp only [Bool.false_eq_true, if_false]
      apply wrap_blocks
      apply dealLoop_blocks
      · intro p hc
        rcases List.mem_cons.1 hc with heq | hr
        · exact Mutex.noConfusion heq
        · rcases List.mem_append.1 hr with hc1 | hc2
          · obtain ⟨x, _, hx⟩ := List.mem_map.1 hc1
            exact Mutex.noConfusion hx
          · exact hp p hc2
      · intro d hc
        rcases List.mem_cons.1 hc with heq | hr
        · exact Mutex.noConfusion heq
        · rcases List.mem_append.1 hr with hc1 | hc2
          · obtain ⟨x, _, hx⟩ := List.mem_map.1 hc1
            exact Mutex.noConfusion hx
          · exact hd d hc2
      · obtain ⟨s, hs, hseat, hw⟩ := hin
        exact ⟨s, hs, hseat, List.mem_cons_of_mem _ (List.mem_append_right _ hw)⟩

end blackjack

/-! ## Lemmas on core operations that return and that block -/

namespace blackjack

theorem deck_not_hand (d : Ref) (H : List Nat) : Mutex.deck d ∉ H.map Mutex.hand := by
  intro hc
  obtain ⟨x, _, hx⟩ := List.mem_map.1 hc
  exact Mutex.noConfusion hx

theorem table_not_hand (t : Ref) (H : List Nat) : Mutex.table t ∉ H.map Mutex.hand := by
  intro hc
  obtain ⟨x, _, hx⟩ := List.mem_map.1 hc
  exact Mutex.noConfusion hx

theorem player_not_hand (p : Ref) (H : List Nat) : Mutex.player p ∉ H.map Mutex.hand := by
  intro hc
  obtain ⟨x, _, hx⟩ := List.mem_map.1 hc
  exact Mutex.noConfusion hx

/-- An operation that acquires no hand among the held ones returns, and leaves
held the hands it discards and those held before. -/
theorem CoreOp_runs (op : CoreOp) (H : List Nat) (hwf : op.wellFormed = true)
    (hfree : ∀ h ∈ op.acquired, h ∉ H) :
    runLocks op.locks (heldHands H) = some (heldHands (op.discarded ++ H)) := by
  have hhand : ∀ h ∈ op.acquired, Mutex.hand h ∉ H.map Mutex.hand :=
    fun h hh hc => hfree h hh ((mem_hands h H).1 hc)
  cases op with
  | PullRandomCard d => exact pair_runs _ _ (deck_not_hand d H)
  | PullCard d => exact pair_runs _ _ (deck_not_hand d H)
  | PushCard d => exact pair_runs _ _ (deck_not_hand d H)
  | Shuffle d => exact pair_runs _ _ (deck_not_hand d H)
  | Hit h player d played drawn =>
    exact Hit_runs h player d played drawn _ (hhand h (List.mem_singleton.2 rfl))
      (deck_not_hand d H) (fun p => player_not_hand p H)
  | Stick h wasLocked => exact Stick_runs h wasLocked _ (hhand h (List.mem_singleton.2 rfl))
  | EvalScore h => exact pair_runs _ _ (hhand h (List.mem_singleton.2 rfl))
  | Score h => exact Score_runs h _ (hhand h (List.mem_singleton.2 rfl))
  | newHand p => exact pair_runs _ _ (player_not_hand p H)
  | clearHands p hands =>
    have hnd : hands.Nodup := by simpa [CoreOp.wellFormed] using hwf
    have key := clearHands_runs p hands _ (player_not_hand p H) (fun h hh => hhand h hh) hnd
    simpa [heldHands, CoreOp.locks, CoreOp.discarded] using key
  | Join t p =>
    have key := wrap_runs (Mutex.table t)
      [LockCall.Lock (Mutex.player p), LockCall.Unlock (Mutex.player p)] (H.map Mutex.hand) []
      (table_not_hand t H) (List.not_mem_nil _)
      (pair_runs _ _ (fun hc => by
        rcases List.mem_cons.1 hc with heq | hr
        · exact Mutex.noConfusion heq
        · exact player_not_hand p H hr))
    exact key
  | Reset t inPlay seats =>
    have key := Reset_runs t inPlay seats _ (table_not_hand t H) (fun p => player_not_hand p H)
      (fun hip s hs h hh => hhand h (by
        simp only [CoreOp.acquired, hip, Bool.false_eq_true, if_false]
        exact List.mem_flatMap.2 ⟨s, hs, hh⟩))
      (fun hip => by simpa [CoreOp.wellFormed, hip] using hwf)
    cases inPlay <;> simpa [heldHands, CoreOp.locks, CoreOp.discarded] using key
  | Deal t inPlay seats =>
    have key := Deal_runs t inPlay seats _ (table_not_hand t H) (fun p => player_not_hand p H)
      (fun d => deck_not_hand d H)
      (fun hip s hs h hh => hhand h (by
        simp only [CoreOp.acquired, hip, Bool.false_eq_true, if_false]
        exact List.mem_append_left _ (List.mem_flatMap.2 ⟨s, hs, hh⟩)))
      (fun hip => by
        have := hwf
        simp only [CoreOp.wellFormed, hip, Bool.false_or, Bool.and_eq_true,
          decide_eq_true_eq] at this
        exact this.1)
      (fun hip s hs hseat => by
        have hw := hwf
        simp only [CoreOp.wellFormed, hip, Bool.false_or, Bool.and_eq_true,
          decide_eq_true_eq, List.all_eq_true] at hw
        have h1 := hw.2 s hs
        simp only [hseat, Bool.not_true, Bool.false_or, decide_eq_true_eq] at h1
        refine ⟨h1, hhand s.newHand ?_⟩
        simp only [CoreOp.acquired, hip, Bool.false_eq_true, if_false]
        exact List.mem_append_right _
          (List.mem_map.2 ⟨s, List.mem_filter.2 ⟨hs, hseat⟩, rfl⟩))
    cases inPlay <;> simpa [heldHands, CoreOp.locks, CoreOp.discarded] using key
  | EndRound t => exact pair_runs _ _ (table_not_hand t H)

/-- An operation that acquires a hand among the held ones never returns. -/
theorem CoreOp_blocks (op : CoreOp) (H : List Nat) (hin : ∃ h ∈ op.acquired, h ∈ H) :
    runLocks op.locks (heldHands H) = none := by
  obtain ⟨h, hacq, hH⟩ := hin
  have hmem : Mutex.hand h ∈ H.map Mutex.hand := (mem_hands h H).2 hH
  cases op with
  | PullRandomCard d => exact absurd hacq (List.not_mem_nil _)
  | PullCard d => exact absurd hacq (List.not_mem_nil _)
  | PushCard d => exact absurd hacq (List.not_mem_nil _)
  | Shuffle d => exact absurd hacq (List.not_mem_nil _)
  | Hit h1 player d played drawn =>
    have he : h = h1 := List.mem_singleton.1 hacq
    subst he
    exact Hit_blocks h player d played drawn _ hmem
  | Stick h1 wasLocked =>
    have he : h = h1 := List.mem_singleton.1 hacq
    subst he
    exact Stick_blocks h wasLocked _ hmem
  | EvalScore h1 =>
    have he : h = h1 := List.mem_singleton.1 hacq
    subst he
    exact pair_blocks _ _ hmem
  | Score h1 =>
    have he : h = h1 := List.mem_singleton.1 hacq
    subst he
    exact Score_blocks h _ hmem
  | newHand p => exact absurd hacq (List.not_mem_nil _)
  | clearHands p hands => exact clearHands_blocks p hands _ ⟨h, hacq, hmem⟩
  | Join t p => exact absurd hacq (List.not_mem_nil _)
  | Reset t inPlay seats =>
    cases inPlay with
    | true => exact absurd hacq (List.not_mem_nil _)
    | false =>
      simp only [CoreOp.acquired, Bool.false_eq_true, if_false] at hacq
      obtain ⟨s, hs, hh⟩ := List.mem_flatMap.1 hacq
      exact Reset_blocks t seats _ ⟨s, hs, h, hh, hmem⟩
  | Deal t inPlay seats =>
    cases inPlay with
    | true => exact absurd hacq (List.not_mem_nil _)
    | false =>
      simp only [CoreOp.acquired, Bool.false_eq_true, if_false] at hacq
      apply Deal_blocks t seats _ (fun p => player_not_hand p H) (fun d => deck_not_hand d H)
      rcases List.mem_append.1 hacq with h1 | h2
      · obtain ⟨s, hs, hh⟩ := List.mem_flatMap.1 h1
        exact Or.inl ⟨s, hs, h, hh, hmem⟩
      · obtain ⟨s, hs, he⟩ := List.mem_map.1 h2
        have hf := List.mem_filter.1 hs
        exact Or.inr ⟨s, hf.1, hf.2, by rw [he]; exact hmem⟩
  | EndRound t => exact absurd hacq (List.not_mem_nil _)

theorem any_held_iff (xs H : List Nat) :
    xs.any (fun h => decide (h ∈ H)) = true ↔ ∃ h ∈ xs, h ∈ H := by
  simp [List.any_eq_true]

/-- A sequence of operations started with the write locks of the hands `H`
held: it never returns when some operation acquires a hand held by then, and
otherwise it returns with the discarded hands held on top of `H`. -/
theorem CoreOps_total (ops : List CoreOp) (H : List Nat)
    (hwf : ∀ op ∈ ops, op.wellFormed = true) :
    (blockedIn ops H = false →
      runLocks (ops.flatMap CoreOp.locks) (heldHands H) =
        some (heldHands (ops.reverse.flatMap CoreOp.discarded ++ H))) ∧
    (blockedIn ops H = true → runLocks (ops.flatMap CoreOp.locks) (heldHands H) = none) := by
  induction ops generalizing H with
  | nil =>
    refine ⟨fun _ => rfl, fun h => ?_⟩
    simp [blockedIn] at h
  | cons op rest ih =>
    have hwf1 := hwf op (List.mem_cons_self _ _)
    obtain ⟨i1, i2⟩ := ih (op.discarded ++ H) (fun o ho => hwf o (List.mem_cons_of_mem _ ho))
    rw [List.flatMap_cons]
    by_cases hany : op.acquired.any (fun h => decide (h ∈ H)) = true
    · have hb := CoreOp_blocks op H ((any_held_iff _ _).1 hany)
      refine ⟨fun h => ?_, fun _ => runLocks_append_none _ _ _ hb⟩
      simp [blockedIn, hany] at h
    · have hfree : ∀ h ∈ op.acquired, h ∉ H := by
        intro h hh hH
        exact hany ((any_held_iff _ _).2 ⟨h, hh, hH⟩)
      have hr := CoreOp_runs op H hwf1 hfree
      have hfalse : op.acquired.any (fun h => decide (h ∈ H)) = false := by
        simpa using hany
      rw [runLocks_append_some _ _ _ _ hr]
      refine ⟨fun h => ?_, fun h => ?_⟩
      · have hrest : blockedIn rest (op.discarded ++ H) = false := by
          simpa [blockedIn, hfalse] using h
        rw [i1 hrest]
        congr 2
        simp [List.flatMap_append]
      · have hrest : blockedIn rest (op.discarded ++ H) = true := by
          simpa [blockedIn, hfalse] using h
        exact i2 hrest

end blackjack

/-! ## Locks held when an operation returns: claim C27 -/

namespace blackjack

/-- C27, counterexample: `clearHands` on a player with one hand returns with
the write lock of that hand still held, and a `Score` on that hand afterwards
never returns. The same holds for a `Reset` and for a `Deal` of a table whose
player has a hand from the round before. -/
theorem C27_clearHands_keeps_hand_locked :
    runLocks (CoreOp.clearHands 0 [0]).locks LockState.free =
      some { writers := [Mutex.hand 0], readers := [] } ∧
    runLocks ((CoreOp.clearHands 0 [0]).locks ++ (CoreOp.Score 0).locks) LockState.free = none ∧
    runLocks (CoreOp.Reset 0 false [⟨0, [0], 1, true, 0⟩]).locks LockState.free =
      some { writers := [Mutex.hand 0], readers := [] } ∧
    runLocks (CoreOp.Deal 0 false [⟨0, [0], 1, true, 0⟩]).locks LockState.free =
      some { writers := [Mutex.hand 0], readers := [] } ∧
    runLocks ((CoreOp.Deal 0 false [⟨0, [0], 1, true, 0⟩]).locks ++
      (CoreOp.Hit 0 (some 0) 0 false false).locks) LockState.free = none := by
  decide

/-- C27, amended: take any sequence of core operations (hands being objects of
their own, and the hands that `Deal` allocates new ones), started in a state in
which no mutex is held except the write locks of hands `H` discarded before; `H`
empty is the state with no mutex held. If no operation of the sequence acquires
the mutex of a hand that is in `H` or was discarded by an operation before it,
the sequence runs to its end, on every path, and then no mutex is held except
the write locks of the hands discarded by `clearHands` (called on its own or
through `Reset` or `Deal`) and of `H`: every other lock has been released. If
some operation does acquire such a mutex, the sequence never returns. In
particular every single operation started with no mutex held returns, also
`clearHands`, `Reset` and `Deal`, holding exactly the hands it discarded, which
are none for the other operations; sequences of those other operations return
with no mutex held. And from any state of the mutexes at all, a sequence that
returns has left the read locks as they were and has added to the write locks
exactly those of the discarded hands. -/
theorem C27_locks_released (ops : List CoreOp) (H : List Nat)
    (hwf : ∀ op ∈ ops, op.wellFormed = true) :
    (blockedIn ops H = false →
      runLocks (ops.flatMap CoreOp.locks) (heldHands H) =
        some (heldHands (ops.reverse.flatMap CoreOp.discarded ++ H))) ∧
    (blockedIn ops H = true →
      runLocks (ops.flatMap CoreOp.locks) (heldHands H) = none) ∧
    (∀ op ∈ ops, runLocks op.locks LockState.free = some (heldHands op.discarded) ∧
      (op.clears = false → op.discarded = [])) ∧
    ((∀ op ∈ ops, op.clears = false) →
      runLocks (ops.flatMap CoreOp.locks) LockState.free = some LockState.free) ∧
    (∀ L L1, runLocks (ops.flatMap CoreOp.locks) L = some L1 →
      L1.readers = L.readers ∧
      L1.writers = (ops.reverse.flatMap CoreOp.discarded).map Mutex.hand ++ L.writers) := by
  obtain ⟨t1, t2⟩ := CoreOps_total ops H hwf
  refine ⟨t1, t2, fun op hop => ⟨?_, fun hc => ?_⟩, CoreOps_return ops,
    locksLeft_flatMap ops CoreOp.locks CoreOp.discarded (fun op _ => CoreOp_locksLeft op)⟩
  · have hr := CoreOp_runs op [] (hwf op hop) (fun _ _ hc => absurd hc (List.not_mem_nil _))
    rw [List.append_nil] at hr
    exact hr
  · cases op <;> first | rfl | simp [CoreOp.clears] at hc

/-- C27, amended, on a game of one player: join, deal, hit, stick, end of round,
deal again (the hand 0 of the first round is discarded, the new hand is 1),
then `Score` on the new hand: all return and only the write lock of hand 0 is
held; a `Score` on hand 0 after that never returns. -/
theorem C27_locks_released_witness :
    runLocks ([CoreOp.Join 0 0, CoreOp.Deal 0 false [⟨0, [], 0, true, 0⟩],
        CoreOp.Hit 0 (some 0) 0 true true, CoreOp.Stick 0 false, CoreOp.EndRound 0,
        CoreOp.Deal 0 false [⟨0, [0], 1, true, 1⟩], CoreOp.Score 1].flatMap CoreOp.locks) LockState.free =
      some { writers := [Mutex.hand 0], readers := [] } ∧
    runLocks ([CoreOp.Join 0 0, CoreOp.Deal 0 false [⟨0, [], 0, true, 0⟩],
        CoreOp.Hit 0 (some 0) 0 true true, CoreOp.Stick 0 false, CoreOp.EndRound 0,
        CoreOp.Deal 0 false [⟨0, [0], 1, true, 1⟩], CoreOp.Score 1, CoreOp.Score 0].flatMap CoreOp.locks) LockState.free = none :=
  ⟨(C27_locks_released [CoreOp.Join 0 0, CoreOp.Deal 0 false [⟨0, [], 0, true, 0⟩],
        CoreOp.Hit 0 (some 0) 0 true true, CoreOp.Stick 0 false, CoreOp.EndRound 0,
        CoreOp.Deal 0 false [⟨0, [0], 1, true, 1⟩], CoreOp.Score 1] [] (by decide)).1 (by decide),
   (C27_locks_released [CoreOp.Join 0 0, CoreOp.Deal 0 false [⟨0, [], 0, true, 0⟩],
        CoreOp.Hit 0 (some 0) 0 true true, CoreOp.Stick 0 false, CoreOp.EndRound 0,
        CoreOp.Deal 0 false [⟨0, [0], 1, true, 1⟩], CoreOp.Score 1, CoreOp.Score 0] [] (by decide)).2.1 (by decide)⟩

end blackjack

/-! ## Failing calls that change the state: claims C34 and C35 -/

namespace blackjack

open playdeck

/-- C34: when the player has no table reference, `Player.newHand` returns
`ErrPlayerNoTable`, and still the hands of the player grow by exactly one hand,
appended last; that hand, which is also the one returned, is empty, not locked
and not valid, with both scores 0 and no table or player. Nothing else in the
heap changes. -/
theorem C34_newHand_without_table (σ : Heap) (p : Ref) (hpT : (σ.players p).Table = none) :
    (Player.newHand σ p).2.2 = some Error.ErrPlayerNoTable ∧
    ((Player.newHand σ p).1.players p).Hands = (σ.players p).Hands ++ [(Player.newHand σ p).2.1] ∧
    ((Player.newHand σ p).1.players p).Hands.length = (σ.players p).Hands.length + 1 ∧
    (Player.newHand σ p).2.1.Cards = [] ∧
    (Player.newHand σ p).2.1.locked = false ∧
    (Player.newHand σ p).2.1.valid = false ∧
    (Player.newHand σ p).2.1.score = 0 ∧
    (Player.newHand σ p).2.1.minScore = 0 ∧
    (Player.newHand σ p).2.1.Table = none ∧
    (Player.newHand σ p).2.1.Player = none ∧
    ((Player.newHand σ p).1.players p).Table = none ∧
    (∀ q, q ≠ p → (Player.newHand σ p).1.players q = σ.players q) ∧
    (Player.newHand σ p).1.tables = σ.tables ∧
    (Player.newHand σ p).1.decks = σ.decks := by
  rw [Player_newHand_tableless σ p hpT]
  refine ⟨rfl, by simp, by simp, rfl, rfl, rfl, rfl, rfl, rfl, rfl, by simp [hpT], ?_, rfl, rfl⟩
  intro q hq
  simp [Function.update_noteq hq]

/-- C34 on a new player that has joined no table: `newHand` fails and the player
holds one hand, the zero hand. -/
theorem C34_newHand_without_table_witness :
    (Player.newHand (NewPlayer emptyHeap 0) 0).2.2 = some Error.ErrPlayerNoTable ∧
    ((Player.newHand (NewPlayer emptyHeap 0) 0).1.players 0).Hands = [Hand.zero] :=
  have w := C34_newHand_without_table (NewPlayer emptyHeap 0) 0 (by simp [NewPlayer])
  ⟨w.1, by rw [w.2.1]; simp [NewPlayer, Player_newHand_tableless, Hand.zero]⟩

/-- C35: on a hand that is not locked and holds fewer than 2 cards, `Stick`
returns `ErrHandInvalid`, and the hand it leaves is locked with both scores 0;
cards, table, player and the valid flag are as before. The call has changed the
hand (it was not locked before). -/
theorem C35_failing_stick_locks (h : Hand) (hl : h.locked = false) (hlen : h.Cards.length < 2) :
    h.Stick.2 = some Error.ErrHandInvalid ∧
    h.Stick.1.locked = true ∧
    h.Stick.1.score = 0 ∧
    h.Stick.1.minScore = 0 ∧
    h.Stick.1 = { h with locked := true, score := 0, minScore := 0 } ∧
    h.Stick.1 ≠ h := by
  have heq : h.Stick = ({ h with locked := true, score := 0, minScore := 0 },
      some Error.ErrHandInvalid) := by
    rw [Stick_unlocked h hl]
    simp [Hand.EvalScore, hlen]
  rw [heq]
  refine ⟨rfl, rfl, rfl, rfl, rfl, ?_⟩
  intro hc
  have := congrArg Hand.locked hc
  simp [hl] at this

/-- C35 on a new hand of a seated player (no cards) and on a hand holding one
king with stale scores 7 and 5. -/
theorem C35_failing_stick_locks_witness :
    (openHand []).Stick = ({ openHand [] with locked := true }, some Error.ErrHandInvalid) ∧
    ({ openHand [⟨SuitSpade, ValueKing⟩] with score := 7, minScore := 5 } : Hand).Stick.1 =
      { openHand [⟨SuitSpade, ValueKing⟩] with locked := true } :=
  have w := C35_failing_stick_locks (openHand []) rfl (by decide)
  have v := C35_failing_stick_locks
    ({ openHand [⟨SuitSpade, ValueKing⟩] with score := 7, minScore := 5 } : Hand) rfl (by decide)
  ⟨Prod.ext w.2.2.2.2.1 w.1, v.2.2.2.2.1⟩

end blackjack

/-! ## Lemmas on successful hits -/

namespace blackjack

open playdeck

/-- Whatever `addCard` returns, the tables are as before; when it returns no
error, the hand has one more card at the end and is otherwise as before. -/
theorem addCard_result (σ : Heap) (h : Hand) (rnd : Nat) (σ1 : Heap) (h1 : Hand)
    (e : Option Error) (hadd : h.addCard σ rnd = some (σ1, h1, e)) :
    σ1.tables = σ.tables ∧ σ1.players = σ.players ∧
    (e = none → ∃ c, h1 = { h with Cards := h.Cards ++ [c] }) := by
  unfold Hand.addCard at hadd
  cases hT : h.Table with
  | none => simp [hT] at hadd
  | some t =>
    cases hD : (σ.tables t).Deck with
    | none => simp [hT, hD] at hadd
    | some d =>
      simp only [hT, hD] at hadd
      rcases hpull : (σ.decks d).PullRandomCard rnd with ⟨deck, c, _ | err⟩
      · rw [hpull] at hadd
        simp only [Option.some.injEq, Prod.mk.injEq] at hadd
        obtain ⟨h1s, h2s, _⟩ := hadd
        subst h1s
        subst h2s
        exact ⟨rfl, rfl, fun _ => ⟨c, rfl⟩⟩
      · rw [hpull] at hadd
        simp only [Option.some.injEq, Prod.mk.injEq] at hadd
        obtain ⟨h1s, _, h3s⟩ := hadd
        subst h1s
        subst h3s
        exact ⟨rfl, rfl, fun hc => absurd hc (by simp)⟩

/-- A `Hit` that returns no error: `canPlay` passed, one card was appended, and
`EvalScore` on the longer hand returned no error and gave the new hand. -/
theorem Hit_ok (σ : Heap) (h : Hand) (rnd : Nat) (σ1 : Heap) (h1 : Hand)
    (hhit : h.Hit σ rnd = some (σ1, h1, none)) :
    h.canPlay σ = none ∧
    ∃ c, ({ h with Cards := h.Cards ++ [c] } : Hand).EvalScore.2 = none ∧
      h1 = ({ h with Cards := h.Cards ++ [c] } : Hand).EvalScore.1 := by
  unfold Hand.Hit at hhit
  cases hcp : h.canPlay σ with
  | some e => simp [hcp] at hhit
  | none =>
    refine ⟨rfl, ?_⟩
    simp only [hcp] at hhit
    cases hadd : h.addCard σ rnd with
    | none => simp [hadd] at hhit
    | some r =>
      obtain ⟨σa, ha, ea⟩ := r
      obtain ⟨_, _, hcard⟩ := addCard_result σ h rnd σa ha ea hadd
      cases ea with
      | some e => simp [hadd] at hhit
      | none =>
        obtain ⟨c, hc⟩ := hcard rfl
        simp only [hadd, Option.some.injEq, Prod.mk.injEq] at hhit
        subst hc
        exact ⟨c, hhit.2.2, hhit.2.1.symm⟩

theorem worstTotal_append_one (cs : List Card) (c : Card) :
    worstTotal (cs ++ [c]) = worstTotal cs + hardValue c := by
  simp [worstTotal]

end blackjack

/-! ## The worst score grows with every hit: claim C32 -/

namespace blackjack

open playdeck

/-- C32: a `Hit` that returns no error on a hand whose cached worst score is
current (it is the hard total of the cards of the hand) appends one card to the
hand and strictly increases the worst score: the new worst score is the old one
plus the hard value of the drawn card (1 for an ace, 10 for jack, queen and
king, the face value otherwise), which is at least 1 and at most 10. -/
theorem C32_hit_increases_worst_score (σ : Heap) (h : Hand) (rnd : Nat) (σ1 : Heap) (h1 : Hand)
    (hcur : h.minScore = worstTotal h.Cards)
    (hhit : h.Hit σ rnd = some (σ1, h1, none)) :
    ∃ c, h1.Cards = h.Cards ++ [c] ∧
      h1.minScore = h.minScore + hardValue c ∧
      1 ≤ hardValue c ∧ hardValue c ≤ 10 ∧
      hardValue c =
        (if c.Value = ValueAce then 1 else if 11 ≤ c.Value then 10 else (c.Value : Int)) ∧
      h.minScore < h1.minScore := by
  obtain ⟨_, c, hok, hh1⟩ := Hit_ok σ h rnd σ1 h1 hhit
  obtain ⟨hlen, hsc⟩ := EvalScore_ok_scorable _ hok
  have hmin := (EvalScore_scores _ hlen hsc).1
  have hcards := (EvalScore_frame ({ h with Cards := h.Cards ++ [c] } : Hand)).1
  have hcsc : scorable c := hsc c (by simp)
  have hb := hardValue_bounds c hcsc
  have hval : 1 ≤ c.Value ∧ c.Value ≤ 13 := by
    have := (scorable_iff c).1 hcsc
    omega
  have hmin1 : h1.minScore = h.minScore + hardValue c := by
    rw [hh1, hmin, hcur]
    exact worstTotal_append_one h.Cards c
  refine ⟨c, by rw [hh1, hcards], hmin1, hb.1, hb.2.1, ?_, by omega⟩
  unfold hardValue ValueAce
  by_cases h1v : c.Value = 1
  · simp [h1v]
  · by_cases h11 : 11 ≤ c.Value
    · have hn : ¬ (2 ≤ c.Value ∧ c.Value ≤ 10) := by omega
      have hy : 11 ≤ c.Value ∧ c.Value ≤ 13 := by omega
      simp [h1v, h11, hn, hy]
    · have hy : 2 ≤ c.Value ∧ c.Value ≤ 10 := by omega
      simp [h1v, h11, hy]

/-- C32 on the hand king of spades, nine of hearts with current scores 19, on a
table in play whose deck holds the five of clubs: the hit draws the five and the
worst score goes from 19 to 24. -/
theorem C32_hit_increases_worst_score_witness :
    ∃ σ1 h1,
      ({ openHand [⟨SuitSpade, ValueKing⟩, ⟨SuitHeart, ValueNine⟩] with
          score := 19, minScore := 19 } : Hand).Hit
        (gameHeap (some [⟨SuitClub, ValueFive⟩]) 1) 0 = some (σ1, h1, none) ∧
      h1.Cards = [⟨SuitSpade, ValueKing⟩, ⟨SuitHeart, ValueNine⟩, ⟨SuitClub, ValueFive⟩] ∧
      h1.minScore = 24 ∧
      (∃ c, h1.minScore = 19 + hardValue c ∧ 1 ≤ hardValue c) := by
  have hhit : (({ openHand [⟨SuitSpade, ValueKing⟩, ⟨SuitHeart, ValueNine⟩] with
          score := 19, minScore := 19 } : Hand).Hit
        (gameHeap (some [⟨SuitClub, ValueFive⟩]) 1) 0) =
      some (((({ openHand [⟨SuitSpade, ValueKing⟩, ⟨SuitHeart, ValueNine⟩] with
          score := 19, minScore := 19 } : Hand).Hit
        (gameHeap (some [⟨SuitClub, ValueFive⟩]) 1) 0).getD
          (gameHeap none 0, Hand.zero, none)).1,
        ((({ openHand [⟨SuitSpade, ValueKing⟩, ⟨SuitHeart, ValueNine⟩] with
          score := 19, minScore := 19 } : Hand).Hit
        (gameHeap (some [⟨SuitClub, ValueFive⟩]) 1) 0).getD
          (gameHeap none 0, Hand.zero, none)).2.1, none) := rfl
  obtain ⟨c, _, hmin, hone, _⟩ :=
    C32_hit_increases_worst_score _ _ 0 _ _ (by decide) hhit
  exact ⟨_, _, hhit, by decide, by decide, c, hmin, hone⟩

end blackjack

/-! ## Lemmas on the play state -/

namespace blackjack

open playdeck

theorem Deal_player_tables (σ : Heap) (p : Ref) (r0 r1 : Nat) (err : List Error)
    (σ1 : Heap) (err1 : List Error) (h : Deal.player σ p r0 r1 err = some (σ1, err1)) :
    σ1.tables = σ.tables := by
  unfold Deal.player at h
  rcases hnh : Player.newHand σ p with ⟨σa, ha, ea⟩
  have hta : σa.tables = σ.tables := by
    have := congrArg (fun r => r.1.tables) hnh
    simpa [Player.newHand] using this.symm
  rw [hnh] at h
  cases ea with
  | some e =>
    simp only [Option.some.injEq, Prod.mk.injEq] at h
    rw [← h.1, hta]
  | none =>
    simp only at h
    cases hadd0 : ha.addCard σa r0 with
    | none => simp [hadd0] at h
    | some x =>
      obtain ⟨σb, hb, eb⟩ := x
      have htb := (addCard_result σa ha r0 σb hb eb hadd0).1
      simp only [hadd0] at h
      cases hadd1 : hb.addCard σb r1 with
      | none => simp [hadd1] at h
      | some y =>
        obtain ⟨σc, hc, ec⟩ := y
        have htc := (addCard_result σb hb r1 σc hc ec hadd1).1
        simp only [hadd1, Option.some.injEq, Prod.mk.injEq] at h
        rw [← h.1]
        show σc.tables = σ.tables
        rw [htc, htb, hta]

theorem Deal_players_tables (ps : List Ref) (i : Nat) (rnd : Nat → Nat) (σ : Heap)
    (err : List Error) (σ1 : Heap) (err1 : List Error)
    (h : Deal.players ps i rnd σ err = some (σ1, err1)) : σ1.tables = σ.tables := by
  induction ps generalizing i σ err with
  | nil =>
    simp only [Deal.players, Option.some.injEq, Prod.mk.injEq] at h
    rw [h.1]
  | cons p rest ih =>
    unfold Deal.players at h
    cases hp : Deal.player σ p (rnd (2 * i)) (rnd (2 * i + 1)) err with
    | none => simp [hp] at h
    | some x =>
      obtain ⟨σa, ea⟩ := x
      simp only [hp] at h
      rw [ih (i + 1) σa ea h, Deal_player_tables σ p _ _ err σa ea hp]

/-- One call on a table, seen from any table `t`: the play state of `t` is as
before, or it was not 1 and is now 0 or 1 (a `Reset` or `Deal` of `t` went
through), or it was 1 and is now 3 and the call is an `EndRound` of `t` that
returned no error. -/
theorem TableOp_step (op : TableOp) (σ σ1 : Heap) (errs : List Error) (t : Ref)
    (hstep : op.apply σ = some (σ1, errs)) :
    (σ1.tables t).playState = (σ.tables t).playState ∨
    ((σ.tables t).playState ≠ 1 ∧
      ((σ1.tables t).playState = 0 ∨ (σ1.tables t).playState = 1)) ∨
    ((σ.tables t).playState = 1 ∧ op = TableOp.EndRound t ∧ errs = [] ∧
      (σ1.tables t).playState = 3) := by
  cases op with
  | Join t1 p =>
    simp only [TableOp.apply, Option.some.injEq, Prod.mk.injEq] at hstep
    left
    rw [← hstep.1]
    rcases Join_cases σ t1 p with hj | ⟨_, hj⟩
    · rw [hj]
    · rw [hj]
      by_cases htt : t = t1
      · subst htt; simp
      · simp [Function.update_noteq htt]
  | Reset t1 =>
    simp only [TableOp.apply, Option.some.injEq, Prod.mk.injEq] at hstep
    by_cases hps : (σ.tables t1).playState = 0 ∨ (σ.tables t1).playState = 3
    · have hr := (Reset_succeeds σ t1 hps).2.2.1
      rw [← hstep.1, hr]
      by_cases htt : t = t1
      · subst htt
        right; left
        refine ⟨by omega, Or.inl (by simp)⟩
      · left; simp [Function.update_noteq htt]
    · have hr := Reset_fails σ t1 ⟨fun h => hps (Or.inl h), fun h => hps (Or.inr h)⟩
      left
      rw [← hstep.1, hr]
  | Deal t1 newDeck rnd =>
    simp only [TableOp.apply] at hstep
    by_cases hps : (σ.tables t1).playState = 0 ∨ (σ.tables t1).playState = 3
    · rw [Deal_of_reset σ t1 newDeck rnd hps] at hstep
      cases hpl : Deal.players (σ.tables t1).Players 0 rnd (dealStart σ t1 newDeck) [] with
      | none => simp [hpl] at hstep
      | some x =>
        obtain ⟨σa, ea⟩ := x
        have hta := Deal_players_tables _ _ _ _ _ σa ea hpl
        simp only [hpl, Option.some.injEq, Prod.mk.injEq] at hstep
        rw [← hstep.1]
        by_cases htt : t = t1
        · subst htt
          right; left
          refine ⟨by omega, Or.inr (by simp)⟩
        · left
          simp [Function.update_noteq htt, hta, dealStart]
    · have hr := Reset_fails σ t1 ⟨fun h => hps (Or.inl h), fun h => hps (Or.inr h)⟩
      unfold Table.Deal at hstep
      rw [hr] at hstep
      simp only [Option.some.injEq, Prod.mk.injEq] at hstep
      left
      rw [← hstep.1]
  | EndRound t1 =>
    simp only [TableOp.apply, Option.some.injEq, Prod.mk.injEq] at hstep
    unfold Table.EndRound at hstep
    by_cases hps : (σ.tables t1).playState = 1
    · by_cases hany : (σ.tables t1).Players.any
          (fun p => (σ.players p).Hands.any (fun h => !h.locked)) = true
      · simp only [hps, bne_self_eq_false, Bool.false_eq_true, if_false, hany, if_true] at hstep
        left
        rw [← hstep.1]
      · simp only [hps, bne_self_eq_false, Bool.false_eq_true, if_false, hany] at hstep
        by_cases htt : t = t1
        · subst htt
          right; right
          refine ⟨hps, rfl, ?_, ?_⟩
          · rw [← hstep.2]; rfl
          · rw [← hstep.1]; simp
        · left
          rw [← hstep.1]
          simp [Function.update_noteq htt]
    · have hne : ((σ.tables t1).playState != 1) = true := by simpa using hps
      simp only [hne, if_true] at hstep
      left
      rw [← hstep.1]

theorem runTableOps_playState (ops : List TableOp) (σ σ1 : Heap) (t : Ref)
    (hinv : (σ.tables t).playState = 0 ∨ (σ.tables t).playState = 1 ∨
      (σ.tables t).playState = 3)
    (hrun : runTableOps ops σ = some σ1) :
    (σ1.tables t).playState = 0 ∨ (σ1.tables t).playState = 1 ∨
      (σ1.tables t).playState = 3 := by
  induction ops generalizing σ with
  | nil =>
    simp only [runTableOps, Option.some.injEq] at hrun
    rw [← hrun]
    exact hinv
  | cons op rest ih =>
    unfold runTableOps at hrun
    cases hop : op.apply σ with
    | none => simp [hop] at hrun
    | some x =>
      obtain ⟨σa, ea⟩ := x
      simp only [hop] at hrun
      refine ih σa ?_ hrun
      have hs := TableOp_step op σ σa ea t hop
      omega

end blackjack

/-! ## The play state is never 2: claim C31 -/

namespace blackjack

open playdeck

/-- C31: let the table `t` be made by `NewTable` and let any sequence of `Join`,
`Reset`, `Deal` and `EndRound` calls on any tables, succeeding or failing, lead
to a state, and one more such call to the next state. In both states the play
state of `t` is 0, 1 or 3, never 2; and when it is 1 in the first state, it is
1 in the next one too, unless the call is an `EndRound` of `t` that returns no
error, which makes it 3. -/
theorem C31_play_state_never_2 (σ0 : Heap) (t d : Ref) (n : Int) (ops : List TableOp)
    (σ : Heap) (op : TableOp) (σ1 : Heap) (errs : List Error)
    (hrun : runTableOps ops (NewTable σ0 t d n) = some σ)
    (hstep : op.apply σ = some (σ1, errs)) :
    ((σ.tables t).playState = 0 ∨ (σ.tables t).playState = 1 ∨ (σ.tables t).playState = 3) ∧
    ((σ1.tables t).playState = 0 ∨ (σ1.tables t).playState = 1 ∨
      (σ1.tables t).playState = 3) ∧
    (σ.tables t).playState ≠ 2 ∧ (σ1.tables t).playState ≠ 2 ∧
    ((σ.tables t).playState = 1 →
      (σ1.tables t).playState = 1 ∨
      (op = TableOp.EndRound t ∧ errs = [] ∧ (σ1.tables t).playState = 3)) := by
  have h0 : ((NewTable σ0 t d n).tables t).playState = 0 := by simp [NewTable]
  have hσ := runTableOps_playState ops _ σ t (Or.inl h0) hrun
  have hs := TableOp_step op σ σ1 errs t hstep
  refine ⟨hσ, by omega, by omega, by omega, fun h1 => ?_⟩
  rcases hs with hs | hs | hs
  · exact Or.inl (by omega)
  · exact absurd h1 hs.1
  · exact Or.inr hs.2

/-- C31 on a new table of one pack that one player joins and that is then dealt:
the play state is 1, a `Reset` then fails and leaves it 1. -/
theorem C31_play_state_never_2_witness :
    ∃ σ σ1 errs,
      runTableOps [TableOp.Join 0 0, TableOp.Deal 0 1 (fun i => 3 * i + 1)]
        (NewTable emptyHeap 0 0 1) = some σ ∧
      (TableOp.Reset 0).apply σ = some (σ1, errs) ∧
      (σ.tables 0).playState = 1 ∧ (σ1.tables 0).playState = 1 ∧
      (σ1.tables 0).playState ≠ 2 := by
  have hrun : (runTableOps [TableOp.Join 0 0, TableOp.Deal 0 1 (fun i => 3 * i + 1)]
        (NewTable emptyHeap 0 0 1)) =
      some ((runTableOps [TableOp.Join 0 0, TableOp.Deal 0 1 (fun i => 3 * i + 1)]
        (NewTable emptyHeap 0 0 1)).getD emptyHeap) := rfl
  have hstep : (TableOp.Reset 0).apply ((runTableOps [TableOp.Join 0 0, TableOp.Deal 0 1 (fun i => 3 * i + 1)]
        (NewTable emptyHeap 0 0 1)).getD emptyHeap) =
      some ((Table.Reset ((runTableOps [TableOp.Join 0 0, TableOp.Deal 0 1 (fun i => 3 * i + 1)]
        (NewTable emptyHeap 0 0 1)).getD emptyHeap) 0).1,
        (Table.Reset ((runTableOps [TableOp.Join 0 0, TableOp.Deal 0 1 (fun i => 3 * i + 1)]
        (NewTable emptyHeap 0 0 1)).getD emptyHeap) 0).2.toList) := rfl
  have h1 : (((runTableOps [TableOp.Join 0 0, TableOp.Deal 0 1 (fun i => 3 * i + 1)]
        (NewTable emptyHeap 0 0 1)).getD emptyHeap).tables 0).playState = 1 := rfl
  have w := C31_play_state_never_2 emptyHeap 0 0 1 _ _ _ _ _ hrun hstep
  refine ⟨_, _, _, hrun, hstep, h1, ?_, w.2.2.2.1⟩
  rcases w.2.2.2.2 h1 with hs | hs
  · exact hs
  · exact TableOp.noConfusion hs.1

end blackjack

/-! ## Lemmas on runs of hits -/

namespace blackjack

open playdeck

/-- Twice the number of cards is at most the hard total plus the number of aces
(a card that is not an ace counts at least 2), and the aces alone count at most
the hard total. -/
theorem cards_bound (cs : List Card) (hsc : ∀ c ∈ cs, scorable c) :
    2 * (cs.length : Int) ≤ worstTotal cs + (aceCount cs : Int) ∧
    (aceCount cs : Int) ≤ worstTotal cs := by
  induction cs with
  | nil => simp [worstTotal, aceCount]
  | cons c rest ih =>
    obtain ⟨i1, i2⟩ := ih (fun x hx => hsc x (List.mem_cons_of_mem _ hx))
    have hc := hsc c (List.mem_cons_self _ _)
    have hb := hardValue_bounds c hc
    have hw : worstTotal (c :: rest) = hardValue c + worstTotal rest := by
      simp [worstTotal]
    by_cases ha : c.Value = 1
    · have hk : aceCount (c :: rest) = aceCount rest + 1 := by
        simp [aceCount, List.countP_cons, ha]
      have h1 := hb.2.2 ha
      rw [hw, hk]
      push_cast
      simp only [List.length_cons]
      push_cast
      omega
    · have hk : aceCount (c :: rest) = aceCount rest := by
        simp [aceCount, List.countP_cons, ha]
      have h2 : 2 ≤ hardValue c := by
        have hv := (scorable_iff c).1 hc
        unfold hardValue
        by_cases h10 : c.Value ≤ 10
        · have hy : 2 ≤ c.Value ∧ c.Value ≤ 10 := by omega
          simp only [ha, if_false, hy, and_self, if_true]
          omega
        · have hn : ¬ (2 ≤ c.Value ∧ c.Value ≤ 10) := by omega
          have hy : 11 ≤ c.Value ∧ c.Value ≤ 13 := by omega
          simp [ha, hn, hy]
      rw [hw, hk]
      simp only [List.length_cons]
      push_cast
      omega

/-- A hand that `EvalScore` has scored without error and left valid holds at
most 15 cards. -/
theorem scored_valid_length (g : Hand) (hok : g.EvalScore.2 = none)
    (hv : g.EvalScore.1.valid = true) : g.Cards.length ≤ 15 := by
  obtain ⟨hlen, hsc⟩ := EvalScore_ok_scorable g hok
  have hscore := (EvalScore_scores g hlen hsc).2
  obtain ⟨b1, b2⟩ := cards_bound g.Cards hsc
  have hle : g.EvalScore.1.score ≤ 21 := by
    by_contra hgt
    have := (EvalScore_bust g hok (by omega)).2
    rw [this] at hv
    exact absurd hv (by simp)
  rw [hscore] at hle
  by_cases hsoft : 1 ≤ aceCount g.Cards ∧ worstTotal g.Cards - (aceCount g.Cards : Int) ≤ 10
  · rw [if_pos hsoft] at hle
    omega
  · rw [if_neg hsoft] at hle
    omega

/-- A valid hand that `EvalScore` scores without error and leaves not valid is
left locked. -/
theorem scored_invalid_locked (g : Hand) (hok : g.EvalScore.2 = none) (hgv : g.valid = true)
    (hv : g.EvalScore.1.valid = false) : g.EvalScore.1.locked = true := by
  rw [EvalScore_ok g hok] at hv ⊢
  simp only at hv ⊢
  split at hv
  · rename_i hgt
    rw [if_pos hgt]
  · simp only [hgv] at hv
    exact absurd hv (by simp)

theorem canPlay_valid (σ : Heap) (h : Hand) (hcp : h.canPlay σ = none) : h.valid = true := by
  have hp := (canPlay_eq_none_iff σ h).1 hcp
  simp only [playable, Bool.and_eq_true] at hp
  exact hp.1.1.1.1.2

/-- A run of successful hits: the hand grows by one card for every hit; after at
least one hit the hand, when valid, holds at most 15 cards and, when not valid,
is locked; and a run from a hand that holds at most 15 cards when valid is
never longer than 16 minus the number of its cards. -/
theorem hitAll_run (rnds : List Nat) (σ : Heap) (h : Hand) (σ1 : Heap) (h1 : Hand)
    (hrun : hitAll rnds σ h = some (σ1, h1)) :
    h1.Cards.length = h.Cards.length + rnds.length ∧
    (rnds ≠ [] → (h1.valid = true → h1.Cards.length ≤ 15) ∧
      (h1.valid = false → h1.locked = true)) ∧
    (rnds ≠ [] → (h.valid = true → h.Cards.length ≤ 15) →
      rnds.length + h.Cards.length ≤ 16) := by
  induction rnds generalizing σ h with
  | nil =>
    simp only [hitAll, Option.some.injEq, Prod.mk.injEq] at hrun
    rw [← hrun.2]
    exact ⟨rfl, fun hne => absurd rfl hne, fun hne => absurd rfl hne⟩
  | cons r rest ih =>
    cases hh : h.Hit σ r with
    | none => simp [hitAll, hh] at hrun
    | some x =>
      obtain ⟨σa, ha, ea⟩ := x
      cases ea with
      | some e => simp [hitAll, hh] at hrun
      | none =>
        simp only [hitAll, hh] at hrun
        obtain ⟨hcp, c, hok, hha⟩ := Hit_ok σ h r σa ha hh
        have hvalid := canPlay_valid σ h hcp
        have hlena : ha.Cards.length = h.Cards.length + 1 := by
          rw [hha, (EvalScore_frame _).1]
          simp
        have hQa : ha.valid = true → ha.Cards.length ≤ 15 := by
          intro hv
          rw [hha] at hv
          have := scored_valid_length _ hok hv
          rw [hha, (EvalScore_frame _).1]
          exact this
        have hLa : ha.valid = false → ha.locked = true := by
          intro hv
          rw [hha] at hv ⊢
          exact scored_invalid_locked _ hok hvalid hv
        obtain ⟨i1, i2, i3⟩ := ih σa ha hrun
        refine ⟨by rw [i1, hlena]; simp only [List.length_cons]; omega, fun _ => ?_, fun _ hQ => ?_⟩
        · by_cases hrest : rest = []
          · subst hrest
            simp only [hitAll, Option.some.injEq, Prod.mk.injEq] at hrun
            rw [← hrun.2]
            exact ⟨hQa, hLa⟩
          · exact i2 hrest
        · have h15 := hQ hvalid
          by_cases hrest : rest = []
          · subst hrest
            simp only [List.length_cons, List.length_nil]
            omega
          · have := i3 hrest hQa
            simp only [List.length_cons]
            omega

end blackjack

/-! ## Repeated hitting ends in a bust: claim C33 -/

namespace blackjack

open playdeck

/-- C33: take a hand of 2 cards and any run of calls of `Hit` that all return no
error (so the table is in play and every drawn card is a valid card other than
a joker). A run that leaves the hand valid has fewer than 21 hits, indeed at
most 13; no run has more than 14 hits; after a run of at least one hit a hand
that is not valid is locked; so by the 14th successful hit at the latest, well
within 21, the hand has `valid = false` and `locked = true`. -/
theorem C33_hits_end_in_bust (σ : Heap) (h : Hand) (rnds : List Nat) (σ1 : Heap) (h1 : Hand)
    (hlen : h.Cards.length = 2)
    (hrun : hitAll rnds σ h = some (σ1, h1)) :
    (h1.valid = true → rnds.length < 21) ∧
    (h1.valid = true → rnds.length ≤ 13) ∧
    rnds.length ≤ 14 ∧
    (rnds ≠ [] → h1.valid = false → h1.locked = true) ∧
    (14 ≤ rnds.length → h1.valid = false ∧ h1.locked = true) ∧
    (21 ≤ rnds.length → h1.valid = false ∧ h1.locked = true) := by
  obtain ⟨i1, i2, i3⟩ := hitAll_run rnds σ h σ1 h1 hrun
  have h13 : h1.valid = true → rnds.length ≤ 13 := by
    intro hv
    by_cases hne : rnds = []
    · subst hne; simp
    · have := (i2 hne).1 hv
      omega
  have h14 : rnds.length ≤ 14 := by
    by_cases hne : rnds = []
    · subst hne; simp
    · have := i3 hne (fun _ => by omega)
      omega
  have hbust : 14 ≤ rnds.length → h1.valid = false ∧ h1.locked = true := by
    intro hge
    have hne : rnds ≠ [] := by
      intro hc
      subst hc
      simp at hge
    have hv : h1.valid = false := by
      cases hv1 : h1.valid with
      | false => rfl
      | true => have := h13 hv1; omega
    exact ⟨hv, (i2 hne).2 hv⟩
  exact ⟨fun hv => by have := h13 hv; omega, h13, h14, fun hne hv => (i2 hne).2 hv, hbust,
    fun hge => hbust (by omega)⟩

/-- C33 on the hand two, two with the deck two, two, three, ten aces, king (from
several packs), always drawing the first card: 13 hits leave the hand valid
with 15 cards and score 21, and the 14th hit, the king, leaves it bust and
locked. -/
theorem C33_hits_end_in_bust_witness :
    (∃ σ1 h1, (hitAll [0, 0, 0, 0, 0, 0, 0, 0, 0, 0, 0, 0, 0]
      (gameHeap (some
        [⟨SuitDiamond, ValueTwo⟩, ⟨SuitClub, ValueTwo⟩, ⟨SuitSpade, ValueThree⟩,
          ⟨SuitSpade, ValueAce⟩, ⟨SuitHeart, ValueAce⟩, ⟨SuitDiamond, ValueAce⟩,
          ⟨SuitClub, ValueAce⟩, ⟨SuitSpade, ValueAce⟩, ⟨SuitHeart, ValueAce⟩,
          ⟨SuitDiamond, ValueAce⟩, ⟨SuitClub, ValueAce⟩, ⟨SuitSpade, ValueAce⟩,
          ⟨SuitHeart, ValueAce⟩, ⟨SuitSpade, ValueKing⟩]) 1)
      ({ openHand [⟨SuitSpade, ValueTwo⟩, ⟨SuitHeart, ValueTwo⟩] with
        score := 4, minScore := 4 } : Hand)) = some (σ1, h1) ∧
      h1.valid = true ∧ h1.score = 21 ∧ h1.Cards.length = 15) ∧
    (∃ σ1 h1, (hitAll [0, 0, 0, 0, 0, 0, 0, 0, 0, 0, 0, 0, 0, 0]
      (gameHeap (some
        [⟨SuitDiamond, ValueTwo⟩, ⟨SuitClub, ValueTwo⟩, ⟨SuitSpade, ValueThree⟩,
          ⟨SuitSpade, ValueAce⟩, ⟨SuitHeart, ValueAce⟩, ⟨SuitDiamond, ValueAce⟩,
          ⟨SuitClub, ValueAce⟩, ⟨SuitSpade, ValueAce⟩, ⟨SuitHeart, ValueAce⟩,
          ⟨SuitDiamond, ValueAce⟩, ⟨SuitClub, ValueAce⟩, ⟨SuitSpade, ValueAce⟩,
          ⟨SuitHeart, ValueAce⟩, ⟨SuitSpade, ValueKing⟩]) 1)
      ({ openHand [⟨SuitSpade, ValueTwo⟩, ⟨SuitHeart, ValueTwo⟩] with
        score := 4, minScore := 4 } : Hand)) = some (σ1, h1) ∧
      h1.valid = false ∧ h1.locked = true ∧ h1.Cards.length = 16) := by
  have h13 : (hitAll [0, 0, 0, 0, 0, 0, 0, 0, 0, 0, 0, 0, 0]
      (gameHeap (some
        [⟨SuitDiamond, ValueTwo⟩, ⟨SuitClub, ValueTwo⟩, ⟨SuitSpade, ValueThree⟩,
          ⟨SuitSpade, ValueAce⟩, ⟨SuitHeart, ValueAce⟩, ⟨SuitDiamond, ValueAce⟩,
          ⟨SuitClub, ValueAce⟩, ⟨SuitSpade, ValueAce⟩, ⟨SuitHeart, ValueAce⟩,
          ⟨SuitDiamond, ValueAce⟩, ⟨SuitClub, ValueAce⟩, ⟨SuitSpade, ValueAce⟩,
          ⟨SuitHeart, ValueAce⟩, ⟨SuitSpade, ValueKing⟩]) 1)
      ({ openHand [⟨SuitSpade, ValueTwo⟩, ⟨SuitHeart, ValueTwo⟩] with
        score := 4, minScore := 4 } : Hand)) =
      some (((hitAll [0, 0, 0, 0, 0, 0, 0, 0, 0, 0, 0, 0, 0]
      (gameHeap (some
        [⟨SuitDiamond, ValueTwo⟩, ⟨SuitClub, ValueTwo⟩, ⟨SuitSpade, ValueThree⟩,
          ⟨SuitSpade, ValueAce⟩, ⟨SuitHeart, ValueAce⟩, ⟨SuitDiamond, ValueAce⟩,
          ⟨SuitClub, ValueAce⟩, ⟨SuitSpade, ValueAce⟩, ⟨SuitHeart, ValueAce⟩,
          ⟨SuitDiamond, ValueAce⟩, ⟨SuitClub, ValueAce⟩, ⟨SuitSpade, ValueAce⟩,
          ⟨SuitHeart, ValueAce⟩, ⟨SuitSpade, ValueKing⟩]) 1)
      ({ openHand [⟨SuitSpade, ValueTwo⟩, ⟨SuitHeart, ValueTwo⟩] with
        score := 4, minScore := 4 } : Hand)).getD
        (emptyHeap, Hand.zero)).1,
        ((hitAll [0, 0, 0, 0, 0, 0, 0, 0, 0, 0, 0, 0, 0]
      (gameHeap (some
        [⟨SuitDiamond, ValueTwo⟩, ⟨SuitClub, ValueTwo⟩, ⟨SuitSpade, ValueThree⟩,
          ⟨SuitSpade, ValueAce⟩, ⟨SuitHeart, ValueAce⟩, ⟨SuitDiamond, ValueAce⟩,
          ⟨SuitClub, ValueAce⟩, ⟨SuitSpade, ValueAce⟩, ⟨SuitHeart, ValueAce⟩,
          ⟨SuitDiamond, ValueAce⟩, ⟨SuitClub, ValueAce⟩, ⟨SuitSpade, ValueAce⟩,
          ⟨SuitHeart, ValueAce⟩, ⟨SuitSpade, ValueKing⟩]) 1)
      ({ openHand [⟨SuitSpade, ValueTwo⟩, ⟨SuitHeart, ValueTwo⟩] with
        score := 4, minScore := 4 } : Hand)).getD
        (emptyHeap, Hand.zero)).2) := rfl
  have h14 : (hitAll [0, 0, 0, 0, 0, 0, 0, 0, 0, 0, 0, 0, 0, 0]
      (gameHeap (some
        [⟨SuitDiamond, ValueTwo⟩, ⟨SuitClub, ValueTwo⟩, ⟨SuitSpade, ValueThree⟩,
          ⟨SuitSpade, ValueAce⟩, ⟨SuitHeart, ValueAce⟩, ⟨SuitDiamond, ValueAce⟩,
          ⟨SuitClub, ValueAce⟩, ⟨SuitSpade, ValueAce⟩, ⟨SuitHeart, ValueAce⟩,
          ⟨SuitDiamond, ValueAce⟩, ⟨SuitClub, ValueAce⟩, ⟨SuitSpade, ValueAce⟩,
          ⟨SuitHeart, ValueAce⟩, ⟨SuitSpade, ValueKing⟩]) 1)
      ({ openHand [⟨SuitSpade, ValueTwo⟩, ⟨SuitHeart, ValueTwo⟩] with
        score := 4, minScore := 4 } : Hand)) =
      some (((hitAll [0, 0, 0, 0, 0, 0, 0, 0, 0, 0, 0, 0, 0, 0]
      (gameHeap (some
        [⟨SuitDiamond, ValueTwo⟩, ⟨SuitClub, ValueTwo⟩, ⟨SuitSpade, ValueThree⟩,
          ⟨SuitSpade, ValueAce⟩, ⟨SuitHeart, ValueAce⟩, ⟨SuitDiamond, ValueAce⟩,
          ⟨SuitClub, ValueAce⟩, ⟨SuitSpade, ValueAce⟩, ⟨SuitHeart, ValueAce⟩,
          ⟨SuitDiamond, ValueAce⟩, ⟨SuitClub, ValueAce⟩, ⟨SuitSpade, ValueAce⟩,
          ⟨SuitHeart, ValueAce⟩, ⟨SuitSpade, ValueKing⟩]) 1)
      ({ openHand [⟨SuitSpade, ValueTwo⟩, ⟨SuitHeart, ValueTwo⟩] with
        score := 4, minScore := 4 } : Hand)).getD
        (emptyHeap, Hand.zero)).1,
        ((hitAll [0, 0, 0, 0, 0, 0, 0, 0, 0, 0, 0, 0, 0, 0]
      (gameHeap (some
        [⟨SuitDiamond, ValueTwo⟩, ⟨SuitClub, ValueTwo⟩, ⟨SuitSpade, ValueThree⟩,
          ⟨SuitSpade, ValueAce⟩, ⟨SuitHeart, ValueAce⟩, ⟨SuitDiamond, ValueAce⟩,
          ⟨SuitClub, ValueAce⟩, ⟨SuitSpade, ValueAce⟩, ⟨SuitHeart, ValueAce⟩,
          ⟨SuitDiamond, ValueAce⟩, ⟨SuitClub, ValueAce⟩, ⟨SuitSpade, ValueAce⟩,
          ⟨SuitHeart, ValueAce⟩, ⟨SuitSpade, ValueKing⟩]) 1)
      ({ openHand [⟨SuitSpade, ValueTwo⟩, ⟨SuitHeart, ValueTwo⟩] with
        score := 4, minScore := 4 } : Hand)).getD
        (emptyHeap, Hand.zero)).2) := rfl
  have w := C33_hits_end_in_bust _
    ({ openHand [⟨SuitSpade, ValueTwo⟩, ⟨SuitHeart, ValueTwo⟩] with
        score := 4, minScore := 4 } : Hand)
    _ _ _ rfl h14
  exact ⟨⟨_, _, h13, rfl, rfl, rfl⟩, ⟨_, _, h14, (w.2.2.2.2.1 (by decide)).1,
    (w.2.2.2.2.1 (by decide)).2, rfl⟩⟩

end blackjack
